import Mathlib

/-!
# godebug: structured error annotation

A shallow embedding of `godebug.go` (`printOutput`, `Debug`, `Debug.E`, `StructString`)
together with the parts of the Go standard library the file calls:

* `encoding/json` (`Marshal`, `Unmarshal`): the compact encoder with HTML escaping, the
  scanner with its nesting limit `maxNestingDepth = 10000`, decoding into a struct and into
  an `any`;
* `fmt` (`Sprintf("%+v", v)`, `Errorf("%s", s)`);
* `strings.Join`;
* `runtime.Caller` / `runtime.FuncForPC`, taken as the answer the runtime gives.

Conventions of the embedding:

* a Go `string` is a `GoString`, a sequence of bytes seen as the units UTF-8 decoding
  gives: Unicode scalar values and single bytes that are not valid UTF-8; a `Text` is a
  string of valid UTF-8, a list of scalar values (a JSON text, a decoded string);
* an `error` is a `GoError`: the nil error, an error whose `Error()` returns a text, or a
  non-nil error whose `Error()` panics;
* a call that panics or does not return gives `none`;
* a `float64` is carried by a decimal literal denoting it, so a number is written back with
  the literal it was read from; a text that is no literal of a finite `float64` stands for
  NaN; `json` rejects literals that overflow `float64`, and so does the model;
* a Go value (`any`) is an `Any`: one of the finite plain data values of `Val`, or a
  `custom` value, which stands for a whole value json cannot encode and whose behaviour
  is its own (a type with `String`, `Error` or `MarshalJSON` methods, a map that contains
  itself), given by what `json.Marshal` and `fmt` do with it;
* a text is read back in two ways: with `Unmarshal`, which is `json.Unmarshal` with its
  nesting limit, as `Debug.E` itself does; and with `decodeAny` / `decodeRecord` /
  `parseJSON none`, plain JSON decoding without a nesting limit, as a reader of the
  returned error text may do.
-/

namespace Godebug

/-- Strings of valid UTF-8, as sequences of Unicode scalar values. -/
abbrev Text := List Char

/-- One unit of a Go string as decoding it as UTF-8 yields them (`utf8.DecodeRuneInString`):
a Unicode scalar value, or a single byte (0x80 to 0xFF) that is not part of a valid
encoding. -/
inductive StrUnit where
  | rune (c : Char)
  | bad (b : Nat)
  deriving DecidableEq

/-- A Go `string`: any sequence of bytes, given by the units it decodes to, in order. The
functions of the embedding put strings together only with ASCII characters in between, at
which UTF-8 decoding starts afresh, so the units of the parts are the units of the whole. -/
abbrev GoString := List StrUnit

/-- A valid text as a Go string. -/
def ofText (t : Text) : GoString := t.map StrUnit.rune

/-- The rune `unicode.ReplacementChar`, U+FFFD. -/
def replacementChar : Char := Char.ofNat 0xfffd

/-- The rune UTF-8 decoding reports for a unit: `utf8.RuneError`, which is U+FFFD, for an
invalid byte. -/
def StrUnit.valid : StrUnit → Char
  | .rune c => c
  | .bad _ => replacementChar

/-- A Go string coerced to valid UTF-8 as encoding/json does it, when it writes a string
and when it reads one: every invalid byte becomes U+FFFD. -/
def toValid (s : GoString) : Text := s.map StrUnit.valid

/-- The coerced string, as a Go string again. -/
def sanitize (s : GoString) : GoString := ofText (toValid s)

/-! ## encoding/json: the syntax of JSON texts -/

/-- One JSON value, as the encoder is about to write it or as the parser has read it from a
text: numbers keep their literal, strings are Go strings (those the parser returns are
valid UTF-8), objects keep their members in the order of the text (duplicates included). -/
inductive JSON where
  | null
  | bool (b : Bool)
  | num (lit : Text)
  | str (s : GoString)
  | arr (xs : List JSON)
  | obj (ms : List (Text × JSON))

instance : Inhabited JSON := ⟨JSON.null⟩

mutual
/-- Nesting depth of a value: the number of arrays and objects open at its deepest point. -/
def JSON.depth : JSON → Nat
  | .arr xs => depthElems xs + 1
  | .obj ms => depthMembers ms + 1
  | _ => 0
/-- Largest depth among the elements of an array. -/
def depthElems : List JSON → Nat
  | [] => 0
  | x :: xs => max x.depth (depthElems xs)
/-- Largest depth among the member values of an object. -/
def depthMembers : List (Text × JSON) → Nat
  | [] => 0
  | (_, x) :: ms => max x.depth (depthMembers ms)
end

/-- The table `hex = "0123456789abcdef"` of encoding/json, indexed by a nibble. -/
def hexDigit (n : Nat) : Char :=
  if n < 10 then Char.ofNat (48 + n) else Char.ofNat (87 + n)

/-- The table `htmlSafeSet`: ASCII characters written without escaping when HTML escaping
is on (which it is for `json.Marshal`). -/
def htmlSafe (c : Char) : Bool :=
  decide (0x20 ≤ c.toNat) && c != '"' && c != '\\' && c != '<' && c != '>' && c != '&'

/-- What `appendString` emits for one character of a string. -/
def appendChar (c : Char) : Text :=
  if c.toNat < 0x80 then
    if htmlSafe c then [c]
    else if c = '\\' ∨ c = '"' then ['\\', c]
    else if c = '\x08' then ['\\', 'b']
    else if c = '\x0c' then ['\\', 'f']
    else if c = '\n' then ['\\', 'n']
    else if c = '\r' then ['\\', 'r']
    else if c = '\t' then ['\\', 't']
    else ['\\', 'u', '0', '0', hexDigit (c.toNat / 16), hexDigit (c.toNat % 16)]
  else if c = Char.ofNat 0x2028 ∨ c = Char.ofNat 0x2029 then
    ['\\', 'u', '2', '0', '2', hexDigit (c.toNat % 16)]
  else [c]

/-- What `appendString` emits for one unit of a string: an invalid byte is written as the
escape of U+FFFD. -/
def appendUnit : StrUnit → Text
  | .rune c => appendChar c
  | .bad _ => ['\\', 'u', 'f', 'f', 'f', 'd']

/-- The characters between the quotes of an encoded string. -/
def appendUnits : GoString → Text
  | [] => []
  | u :: s => appendUnit u ++ appendUnits s

/-- The function `appendString` of encoding/json: a quoted, escaped JSON string. -/
def appendString (s : GoString) : Text := '"' :: (appendUnits s ++ ['"'])

/-- The literal name `null`. -/
def nullText : Text := ['n', 'u', 'l', 'l']

/-- The literal name `true`. -/
def trueText : Text := ['t', 'r', 'u', 'e']

/-- The literal name `false`. -/
def falseText : Text := ['f', 'a', 'l', 's', 'e']

mutual
/-- The compact text of a JSON value, as `json.Marshal` writes it. -/
def JSON.render : JSON → Text
  | .num lit => lit
  | .str s => appendString s
  | .null => nullText
  | .bool b => if b then trueText else falseText
  | .arr [] => ['[', ']']
  | .arr (x :: xs) => '[' :: (x.render ++ renderElems xs)
  | .obj [] => ['{', '}']
  | .obj ((k, v) :: ms) =>
    '{' :: (appendString (ofText k) ++ ':' :: (v.render ++ renderMembers ms))
/-- The elements after the first one, and the closing bracket. -/
def renderElems : List JSON → Text
  | [] => [']']
  | x :: xs => ',' :: (x.render ++ renderElems xs)
/-- The members after the first one, and the closing brace. -/
def renderMembers : List (Text × JSON) → Text
  | [] => ['}']
  | (k, v) :: ms => ',' :: (appendString (ofText k) ++ ':' :: (v.render ++ renderMembers ms))
end

/-- The scanner's `isSpace`. -/
def isSpace (c : Char) : Bool := c == ' ' || c == '\t' || c == '\r' || c == '\n'

/-- Skip insignificant whitespace. -/
def skipWs : Text → Text
  | [] => []
  | c :: r => if isSpace c then skipWs r else c :: r

/-- Decimal digit. -/
def isDigit (c : Char) : Bool := decide (48 ≤ c.toNat) && decide (c.toNat ≤ 57)

/-- Value of a hexadecimal digit, as `getu4` reads it. -/
def hexVal (c : Char) : Option Nat :=
  if 48 ≤ c.toNat ∧ c.toNat ≤ 57 then some (c.toNat - 48)
  else if 97 ≤ c.toNat ∧ c.toNat ≤ 102 then some (c.toNat - 87)
  else if 65 ≤ c.toNat ∧ c.toNat ≤ 70 then some (c.toNat - 55)
  else none

/-- Four hexadecimal digits as a number. -/
def hex4 (a b c d : Char) : Option Nat :=
  match hexVal a, hexVal b, hexVal c, hexVal d with
  | some a, some b, some c, some d => some (((a * 16 + b) * 16 + c) * 16 + d)
  | _, _, _, _ => none

/-- The function `getu4`: the code unit of a `\uXXXX` escape at the head of the input. -/
def getu4 : Text → Option Nat
  | c0 :: c1 :: a :: b :: c :: d :: _ =>
    if c0 = '\\' ∧ c1 = 'u' then hex4 a b c d else none
  | _ => none

/-- The predicate `utf16.IsSurrogate`. -/
def isSurrogate (r : Nat) : Bool := decide (0xd800 ≤ r) && decide (r < 0xe000)

/-- The function `utf16.DecodeRune`, `none` standing for the replacement character of an
invalid pair. -/
def decodeSurrogates (r1 r2 : Nat) : Option Nat :=
  if 0xd800 ≤ r1 ∧ r1 < 0xdc00 ∧ 0xdc00 ≤ r2 ∧ r2 < 0xe000 then
    some ((r1 - 0xd800) * 1024 + (r2 - 0xdc00) + 0x10000)
  else none

/-- The single-character escapes of a JSON string. -/
def unescape (e : Char) : Option Char :=
  if e = '"' then some '"'
  else if e = '\\' then some '\\'
  else if e = '/' then some '/'
  else if e = 'b' then some '\x08'
  else if e = 'f' then some '\x0c'
  else if e = 'n' then some '\n'
  else if e = 'r' then some '\r'
  else if e = 't' then some '\t'
  else none

/-- Put a character in front of a decoded string. -/
def consChar (c : Char) : Option (Text × Text) → Option (Text × Text)
  | some (s, r) => some (c :: s, r)
  | none => none

/-- What follows a `\uXXXX` escape that denotes a surrogate `rr`: with a second escape that
completes a valid pair, the pair's rune, both escapes consumed; otherwise the replacement
character, nothing more consumed. -/
def readLow (rr : Nat) (r2 : Text) : Char × Text :=
  match getu4 r2 with
  | some rr1 =>
    match decodeSurrogates rr rr1 with
    | some dec => (Char.ofNat dec, r2.drop 6)
    | none => (replacementChar, r2)
  | none => (replacementChar, r2)

/-- Read the four hexadecimal digits after `\u` and decode the escape. -/
def readU : Text → Option (Char × Text)
  | a :: b :: c :: d :: r2 =>
    match hex4 a b c d with
    | none => none
    | some rr => if isSurrogate rr then some (readLow rr r2) else some (Char.ofNat rr, r2)
  | _ => none

/-- Read one character of a string literal, `c` followed by `r`, where `c` is not the
closing quote: a raw character or an escape. A raw control character or an unknown escape
is a syntax error. -/
def readUnit (c : Char) (r : Text) : Option (Char × Text) :=
  if c = '\\' then
    match r with
    | [] => none
    | e :: r1 =>
      if e = 'u' then readU r1
      else
        match unescape e with
        | some ch => some (ch, r1)
        | none => none
  else if c.toNat < 0x20 then none
  else some (c, r)

/-- Read a string literal from just after its opening quote: the decoded string (as
`unquote` gives it) and the input after the closing quote; `none` is a syntax error. The
first argument bounds the recursion and is at least the length of the input. -/
def readString : Nat → Text → Option (Text × Text)
  | 0, _ => none
  | _ + 1, [] => none
  | fuel + 1, c :: r =>
    if c = '"' then some ([], r)
    else
      match readUnit c r with
      | some (ch, r1) => consChar ch (readString fuel r1)
      | none => none

/-- The scanner's states inside a number literal. -/
inductive NumState where
  | start | neg | zero | int | dot | frac | e | esign | exp
  deriving DecidableEq

/-- One step of the scanner inside a number (`stateNeg`, `state1`, `state0`, `stateDot`,
`stateDot0`, `stateE`, `stateESign`, `stateE0`); `none` when the character does not continue
the literal. -/
def numStep : NumState → Char → Option NumState
  | .start, c =>
    if c = '-' then some .neg else if c = '0' then some .zero
    else if isDigit c then some .int else none
  | .neg, c => if c = '0' then some .zero else if isDigit c then some .int else none
  | .zero, c => if c = '.' then some .dot else if c = 'e' ∨ c = 'E' then some .e else none
  | .int, c =>
    if isDigit c then some .int
    else if c = '.' then some .dot else if c = 'e' ∨ c = 'E' then some .e else none
  | .dot, c => if isDigit c then some .frac else none
  | .frac, c => if isDigit c then some .frac else if c = 'e' ∨ c = 'E' then some .e else none
  | .e, c => if c = '+' ∨ c = '-' then some .esign else if isDigit c then some .exp else none
  | .esign, c => if isDigit c then some .exp else none
  | .exp, c => if isDigit c then some .exp else none

/-- States in which a number literal may end. -/
def numAccepting : NumState → Bool
  | .zero | .int | .frac | .exp => true
  | _ => false

/-- Scan the longest number literal at the head of the input. -/
def scanNum (st : NumState) : Text → Option (Text × Text)
  | [] => if numAccepting st then some ([], []) else none
  | c :: r =>
    match numStep st c with
    | some st1 => consChar c (scanNum st1 r)
    | none => if numAccepting st then some ([], c :: r) else none

/-- The constant `maxNestingDepth` of encoding/json's scanner. -/
def maxNestingDepth : Nat := 10000

/-- The scanner's check when an array or object is opened (`pushParseState`): with a limit,
at most that many may be open at once. -/
def depthOk : Option Nat → Nat → Bool
  | none, _ => true
  | some lim, d => decide (d ≤ lim)

/-- Expect the rest of a literal name (`true`, `false`, `null`). -/
def expectChars : Text → Text → Option Text
  | [], r => some r
  | _ :: _, [] => none
  | c :: cs, x :: r => if x = c then expectChars cs r else none

mutual
/-- Parse one value with `d` arrays and objects open around it. The first argument is the
nesting limit, the second bounds the recursion and is at least the length of the input. -/
def parseValue (lim : Option Nat) : Nat → Nat → Text → Option (JSON × Text)
  | 0, _, _ => none
  | fuel + 1, d, s =>
    match skipWs s with
    | [] => none
    | c :: r =>
      if c = '{' then
        if depthOk lim (d + 1) then
          match skipWs r with
          | [] => none
          | c1 :: r1 =>
            if c1 = '}' then some (.obj [], r1)
            else
              match parseMembers lim fuel (d + 1) (c1 :: r1) with
              | some (ms, r2) => some (.obj ms, r2)
              | none => none
        else none
      else if c = '[' then
        if depthOk lim (d + 1) then
          match skipWs r with
          | [] => none
          | c1 :: r1 =>
            if c1 = ']' then some (.arr [], r1)
            else
              match parseElems lim fuel (d + 1) (c1 :: r1) with
              | some (xs, r2) => some (.arr xs, r2)
              | none => none
        else none
      else if c = '"' then
        match readString r.length r with
        | some (s1, r1) => some (.str (ofText s1), r1)
        | none => none
      else if c = 't' then
        match expectChars ['r', 'u', 'e'] r with
        | some r1 => some (.bool true, r1)
        | none => none
      else if c = 'f' then
        match expectChars ['a', 'l', 's', 'e'] r with
        | some r1 => some (.bool false, r1)
        | none => none
      else if c = 'n' then
        match expectChars ['u', 'l', 'l'] r with
        | some r1 => some (.null, r1)
        | none => none
      else if c = '-' ∨ isDigit c then
        match scanNum .start (c :: r) with
        | some (lit, r1) => some (.num lit, r1)
        | none => none
      else none
/-- Parse the elements of a non-empty array, up to and including the closing bracket. -/
def parseElems (lim : Option Nat) : Nat → Nat → Text → Option (List JSON × Text)
  | 0, _, _ => none
  | fuel + 1, d, s =>
    match parseValue lim fuel d s with
    | none => none
    | some (x, r) =>
      match skipWs r with
      | [] => none
      | c :: r1 =>
        if c = ',' then
          match parseElems lim fuel d r1 with
          | some (xs, r2) => some (x :: xs, r2)
          | none => none
        else if c = ']' then some ([x], r1)
        else none
/-- Parse the members of a non-empty object, up to and including the closing brace. -/
def parseMembers (lim : Option Nat) : Nat → Nat → Text → Option (List (Text × JSON) × Text)
  | 0, _, _ => none
  | fuel + 1, d, s =>
    match skipWs s with
    | [] => none
    | c :: r =>
      if c = '"' then
        match readString r.length r with
        | none => none
        | some (k, r1) =>
          match skipWs r1 with
          | [] => none
          | c2 :: r2 =>
            if c2 = ':' then
              match parseValue lim fuel d r2 with
              | none => none
              | some (v, r3) =>
                match skipWs r3 with
                | [] => none
                | c3 :: r4 =>
                  if c3 = ',' then
                    match parseMembers lim fuel d r4 with
                    | some (ms, r5) => some ((k, v) :: ms, r5)
                    | none => none
                  else if c3 = '}' then some ([(k, v)], r4)
                  else none
            else none
      else none
end

/-- A whole text as one JSON value (`checkValid`): a value, then nothing but whitespace.
With `lim = some maxNestingDepth` this is what encoding/json accepts; with `lim = none` it
is JSON without a nesting limit. -/
def parseJSON (lim : Option Nat) (s : Text) : Option JSON :=
  match parseValue lim (s.length + 1) 0 s with
  | some (j, r) => if skipWs r = [] then some j else none
  | none => none

/-- A number literal: a text the scanner reads as one whole number. -/
def NumberLit (lit : Text) : Prop := scanNum .start lit = some (lit, [])

mutual
/-- A value tree whose numbers are number literals, so that its text is a JSON text. -/
def JSON.WF : JSON → Prop
  | .num lit => NumberLit lit
  | .arr xs => WFElems xs
  | .obj ms => WFMembers ms
  | _ => True
/-- Well-formed elements. -/
def WFElems : List JSON → Prop
  | [] => True
  | x :: xs => x.WF ∧ WFElems xs
/-- Well-formed member values. -/
def WFMembers : List (Text × JSON) → Prop
  | [] => True
  | (_, x) :: ms => x.WF ∧ WFMembers ms
end

/-- What may follow a value in a JSON text: the end of the text, a comma or a closing
bracket or brace. -/
def Delim : Text → Prop
  | [] => True
  | c :: _ => c = ',' ∨ c = ']' ∨ c = '}'

/-- A character with which a value may start: no whitespace and no closing bracket. -/
def StartChar (c : Char) : Prop := isSpace c = false ∧ c ≠ ']' ∧ c ≠ '}'

mutual
/-- A value tree as it is read back from its own text: every string coerced to valid
UTF-8, everything else as it is. -/
def JSON.norm : JSON → JSON
  | .null => .null
  | .bool b => .bool b
  | .num lit => .num lit
  | .str s => .str (sanitize s)
  | .arr xs => .arr (normElems xs)
  | .obj ms => .obj (normMembers ms)
/-- Elements read back. -/
def normElems : List JSON → List JSON
  | [] => []
  | x :: xs => x.norm :: normElems xs
/-- Members read back. -/
def normMembers : List (Text × JSON) → List (Text × JSON)
  | [] => []
  | (k, x) :: ms => (k, x.norm) :: normMembers ms
end

mutual
/-- A value tree as the parser returns it: its numbers are number literals and its strings
are valid UTF-8. -/
def JSON.Parsed : JSON → Prop
  | .num lit => NumberLit lit
  | .str s => sanitize s = s
  | .arr xs => ParsedElems xs
  | .obj ms => ParsedMembers ms
  | _ => True
/-- Elements as the parser returns them. -/
def ParsedElems : List JSON → Prop
  | [] => True
  | x :: xs => x.Parsed ∧ ParsedElems xs
/-- Member values as the parser returns them. -/
def ParsedMembers : List (Text × JSON) → Prop
  | [] => True
  | (_, x) :: ms => x.Parsed ∧ ParsedMembers ms
end

/-- The value part of the round trip through text, for texts of length at most `n`: the
text of a well-formed tree parses back to the tree (its strings coerced to valid UTF-8)
when its nesting is within the limit and is refused when it is not. -/
def RTValue (lim : Option Nat) (n : Nat) : Prop :=
  ∀ (j : JSON) (d : Nat) (rest : Text), j.WF → j.render.length ≤ n → Delim rest →
    depthOk lim d = true →
    parseValue lim n d (j.render ++ rest) =
      if depthOk lim (d + j.depth) then some (j.norm, rest) else none

/-- The round trip for the elements of an array. -/
def RTElems (lim : Option Nat) (n : Nat) : Prop :=
  ∀ (x : JSON) (xs : List JSON) (d : Nat) (rest : Text), x.WF → WFElems xs →
    (x.render ++ renderElems xs).length ≤ n → depthOk lim d = true →
    parseElems lim n d (x.render ++ renderElems xs ++ rest) =
      if depthOk lim (d + max x.depth (depthElems xs)) then
        some (x.norm :: normElems xs, rest)
      else none

/-- The round trip for the members of an object. -/
def RTMembers (lim : Option Nat) (n : Nat) : Prop :=
  ∀ (k : Text) (v : JSON) (ms : List (Text × JSON)) (d : Nat) (rest : Text), v.WF →
    WFMembers ms →
    (appendString (ofText k) ++ ':' :: (v.render ++ renderMembers ms)).length ≤ n →
    depthOk lim d = true →
    parseMembers lim n d
        (appendString (ofText k) ++ ':' :: (v.render ++ renderMembers ms) ++ rest) =
      if depthOk lim (d + max v.depth (depthMembers ms)) then
        some ((k, v.norm) :: normMembers ms, rest)
      else none

/-- Every value the parser returns with fuel `n` has the parser's form. -/
def ParsedValue (lim : Option Nat) (n : Nat) : Prop :=
  ∀ (d : Nat) (s : Text) (j : JSON) (r : Text), parseValue lim n d s = some (j, r) → j.Parsed

/-- Every element list the parser returns with fuel `n` has the parser's form. -/
def ParsedElemsP (lim : Option Nat) (n : Nat) : Prop :=
  ∀ (d : Nat) (s : Text) (xs : List JSON) (r : Text),
    parseElems lim n d s = some (xs, r) → ParsedElems xs

/-- Every member list the parser returns with fuel `n` has the parser's form. -/
def ParsedMembersP (lim : Option Nat) (n : Nat) : Prop :=
  ∀ (d : Nat) (s : Text) (ms : List (Text × JSON)) (r : Text),
    parseMembers lim n d s = some (ms, r) → ParsedMembers ms

/-- Value of a run of decimal digits. -/
def digitsVal (ds : Text) : Nat := ds.foldl (fun n c => n * 10 + (c.toNat - 48)) 0

/-- Whether `strconv.ParseFloat(lit, 64)` succeeds on a number literal: the value must
round to a finite `float64`, that is, be below `2^1024 - 2^970` in absolute value. -/
def float64InRange (lit : Text) : Bool :=
  let s0 := lit.dropWhile (fun c => c == '-')
  let ip := s0.takeWhile isDigit
  let r1 := s0.dropWhile isDigit
  let fr := (r1.drop 1).takeWhile isDigit
  let r2 := if r1.head? = some '.' then (r1.drop 1).dropWhile isDigit else r1
  let fr := if r1.head? = some '.' then fr else []
  let ex := r2.drop 1
  let en : Int :=
    if ex.head? = some '-' then - (digitsVal (ex.drop 1) : Int)
    else if ex.head? = some '+' then (digitsVal (ex.drop 1) : Int)
    else (digitsVal ex : Int)
  let m := digitsVal (ip ++ fr)
  let e10 : Int := en - fr.length
  let bound := 2 ^ 1024 - 2 ^ 970
  if m = 0 then true
  else if 0 ≤ e10 then decide (m * 10 ^ e10.toNat < bound)
  else decide (m < bound * 10 ^ (-e10).toNat)

instance : DecidablePred NumberLit :=
  fun lit => inferInstanceAs (Decidable (scanNum .start lit = some (lit, [])))

/-- A literal that denotes a finite `float64`: a number literal within range. -/
def isFloatLit (lit : Text) : Bool := decide (NumberLit lit) && float64InRange lit

/-! ## Go values -/

/-- The plain data values among the Go values: the nil interface, booleans, integers,
floats (the finite value its literal denotes, or NaN when the text is no literal of a
finite `float64`), strings, function values, values whose dynamic type implements
`context.Context` (with the data json and fmt see in them), `[]any` slices,
`map[string]any` maps (entries listed in increasing key order, the order in which json
writes them; keys are valid UTF-8) and `printOutput` structs. Function values and NaN are
what encoding/json cannot encode among them. -/
inductive Val where
  | nil
  | bool (b : Bool)
  | int (i : Int)
  | float (lit : Text)
  | str (s : GoString)
  | func (pc : Nat)
  | ctx (v : Val)
  | slice (xs : List Val)
  | map (kvs : List (Text × Val))
  | out (FnName : GoString) (Args : Option (List GoString)) (Msg : GoString) (Inner : Val)

instance : Inhabited Val := ⟨Val.nil⟩

/-- A Go value (`any`): a plain data value, or a value with behaviour of its own that
`json.Marshal` does not encode. Of the latter the embedding keeps what the two library
calls of `StructString` do with it. `marshalPanics` says that a marshalling method of the
value panics (a panicking `MarshalJSON`; encoding/json lets that panic through); otherwise
`json.Marshal` returns an error (for instance on a struct with an exported function
field). `dump` is the text of `fmt.Sprintf("%+v", v)` (what the value's `String` or `Error`
method returns, if it has one), and `none` when fmt does not return (a map that contains
itself, on which fmt recurses until the stack overflows). Such a value is taken not to
implement `context.Context`. -/
inductive Any where
  | plain (v : Val)
  | custom (marshalPanics : Bool) (dump : Option GoString)

/-- The struct `printOutput` of godebug.go; a nil `Args` slice is `none`. -/
structure printOutput where
  FnName : GoString
  Args : Option (List GoString)
  Msg : GoString
  Inner : Val

/-- A `printOutput` stored in an `any`. -/
def printOutput.toVal (o : printOutput) : Val := .out o.FnName o.Args o.Msg o.Inner

/-- The struct `Debug` of godebug.go. -/
structure Debug where
  A : List Any

/-- An `error` handed to `Debug.E`: the nil interface, a non-nil error whose `Error()`
returns the text `t` (each time it is called), or a non-nil error whose `Error()` panics
(for instance a nil pointer of a type whose `Error` method reads a field). -/
inductive GoError where
  | nil
  | text (t : GoString)
  | panics

/-- JSON key of `FnName`. -/
def keyFnName : Text := ['f', 'n', '_', 'n', 'a', 'm', 'e']
/-- JSON key of `Args`. -/
def keyArgs : Text := ['a', 'r', 'g', 's']
/-- JSON key of `Msg`. -/
def keyMsg : Text := ['m', 's', 'g']
/-- JSON key of `Inner`. -/
def keyInner : Text := ['i', 'n', 'n', 'e', 'r']

/-- Decimal text of an integer, as `strconv.AppendInt` writes it. -/
def intLit (i : Int) : Text :=
  match i with
  | .ofNat n => Nat.toDigits 10 n
  | .negSucc n => '-' :: Nat.toDigits 10 (n + 1)

/-- A `[]string` as JSON: `null` for the nil slice, an array of strings otherwise. -/
def argsJSON : Option (List GoString) → JSON
  | none => .null
  | some xs => .arr (xs.map JSON.str)

mutual
/-- The value tree `json.Marshal` writes for a plain value; `none` is the encoder's
`UnsupportedTypeError` or `UnsupportedValueError` (a function value or a NaN somewhere in
the value). -/
def Val.toJSON : Val → Option JSON
  | .nil => some .null
  | .bool b => some (.bool b)
  | .int i => some (.num (intLit i))
  | .float lit => if isFloatLit lit then some (.num lit) else none
  | .str s => some (.str s)
  | .func _ => none
  | .ctx v => v.toJSON
  | .slice xs =>
    match toJSONElems xs with
    | some js => some (.arr js)
    | none => none
  | .map kvs =>
    match toJSONMembers kvs with
    | some ms => some (.obj ms)
    | none => none
  | .out f a m i =>
    match i.toJSON with
    | some ji =>
      some (.obj [(keyFnName, .str f), (keyArgs, argsJSON a), (keyMsg, .str m), (keyInner, ji)])
    | none => none
/-- Elements of a slice. -/
def toJSONElems : List Val → Option (List JSON)
  | [] => some []
  | x :: xs =>
    match x.toJSON, toJSONElems xs with
    | some j, some js => some (j :: js)
    | _, _ => none
/-- Entries of a map. -/
def toJSONMembers : List (Text × Val) → Option (List (Text × JSON))
  | [] => some []
  | (k, x) :: kvs =>
    match x.toJSON, toJSONMembers kvs with
    | some j, some ms => some ((k, j) :: ms)
    | _, _ => none
end

/-- The function `json.Marshal` on a plain value, `none` when it returns an error. -/
def Marshal (v : Val) : Option Text :=
  match v.toJSON with
  | some j => some j.render
  | none => none

/-- Join strings with a separator between consecutive ones. -/
def joinWith (sep : GoString) : List GoString → GoString
  | [] => []
  | [x] => x
  | x :: y :: xs => x ++ sep ++ joinWith sep (y :: xs)

/-- Hexadecimal digits of a number, most significant first (`fmt0x64`). -/
def hexText (n : Nat) : Text := Nat.toDigits 16 n

/-- The text `<nil>` fmt prints for a nil value. -/
def nilText : Text := ['<', 'n', 'i', 'l', '>']

mutual
/-- The text `fmt.Sprintf("%+v", v)` of a plain value; the bytes of a string go into it as
they are. -/
def sprintPlusV : Val → GoString
  | .nil => ofText nilText
  | .bool b => ofText (if b then trueText else falseText)
  | .int i => ofText (intLit i)
  | .float lit => ofText (if isFloatLit lit then lit else ['N', 'a', 'N'])
  | .str s => s
  | .func pc => ofText (if pc = 0 then nilText else '0' :: 'x' :: hexText pc)
  | .ctx v => sprintPlusV v
  | .slice xs => .rune '[' :: (joinWith [.rune ' '] (sprintElems xs) ++ [.rune ']'])
  | .map kvs =>
    ofText ['m', 'a', 'p', '['] ++ (joinWith [.rune ' '] (sprintEntries kvs) ++ [.rune ']'])
  | .out f a m i =>
    ofText ['{', 'F', 'n', 'N', 'a', 'm', 'e', ':'] ++ f ++
      ofText [' ', 'A', 'r', 'g', 's', ':', '['] ++ joinWith [.rune ' '] (a.getD []) ++
      ofText [']', ' ', 'M', 's', 'g', ':'] ++ m ++
      ofText [' ', 'I', 'n', 'n', 'e', 'r', ':'] ++ sprintPlusV i ++ [.rune '}']
/-- Elements of a slice, each printed. -/
def sprintElems : List Val → List GoString
  | [] => []
  | x :: xs => sprintPlusV x :: sprintElems xs
/-- Entries of a map, each printed as `key:value`. -/
def sprintEntries : List (Text × Val) → List GoString
  | [] => []
  | (k, x) :: kvs => (ofText k ++ .rune ':' :: sprintPlusV x) :: sprintEntries kvs
end

/-- What a call of `json.Marshal` comes to: a text, an error, or a panic. -/
inductive Encoded where
  | text (s : Text)
  | error
  | panic

/-- The call `json.Marshal(v)` on a Go value. -/
def marshalAny : Any → Encoded
  | .plain v =>
    match Marshal v with
    | some s => .text s
    | none => .error
  | .custom p _ => if p then .panic else .error

/-- The call `fmt.Sprintf("%+v", v)` on a Go value, `none` when it does not return. -/
def sprintAny : Any → Option GoString
  | .plain v => some (sprintPlusV v)
  | .custom _ dump => dump

/-- The function `StructString` of godebug.go; `none` when the call does not return (a
panic out of `json.Marshal`, or a `fmt.Sprintf` that does not come back). -/
def StructString (v : Any) : Option GoString :=
  match marshalAny v with
  | .error => sprintAny v
  | .text s => some (ofText s)
  | .panic => none

/-! ## encoding/json: decoding -/

/-- Order of map keys (`slices.SortFunc` on the key strings): lexicographic by code point. -/
def keyLt : Text → Text → Bool
  | [], [] => false
  | [], _ :: _ => true
  | _ :: _, [] => false
  | a :: as, b :: bs =>
    if a.toNat < b.toNat then true else if a = b then keyLt as bs else false

/-- Store `m[k] = v` in a map kept in key order. -/
def insertKey (k : Text) (v : Val) : List (Text × Val) → List (Text × Val)
  | [] => [(k, v)]
  | (k1, v1) :: m =>
    if k = k1 then (k, v) :: m
    else if keyLt k k1 then (k, v) :: (k1, v1) :: m
    else (k1, v1) :: insertKey k v m

mutual
/-- Decode a JSON value into an empty `any`: `nil`, `bool`, `float64`, `string`, `[]any` or
`map[string]any`. It fails on a number that overflows `float64`. -/
def fromJSON : JSON → Option Val
  | .null => some .nil
  | .bool b => some (.bool b)
  | .num lit => if float64InRange lit then some (.float lit) else none
  | .str s => some (.str s)
  | .arr xs =>
    match fromJSONElems xs with
    | some vs => some (.slice vs)
    | none => none
  | .obj ms =>
    match fromJSONMembers ms [] with
    | some kvs => some (.map kvs)
    | none => none
/-- Elements of an array. -/
def fromJSONElems : List JSON → Option (List Val)
  | [] => some []
  | x :: xs =>
    match fromJSON x, fromJSONElems xs with
    | some v, some vs => some (v :: vs)
    | _, _ => none
/-- Members of an object, stored one after the other into the map built so far. -/
def fromJSONMembers : List (Text × JSON) → List (Text × Val) → Option (List (Text × Val))
  | [], acc => some acc
  | (k, x) :: ms, acc =>
    match fromJSON x with
    | some v => fromJSONMembers ms (insertKey k v acc)
    | none => none
end

/-- The smallest rune of a character's simple case-folding orbit, as far as it matters for
ASCII names: letters fold to upper case, U+017F to `S` and U+212A to `K`. -/
def foldRune (c : Char) : Char :=
  if 97 ≤ c.toNat ∧ c.toNat ≤ 122 then Char.ofNat (c.toNat - 32)
  else if c = Char.ofNat 0x17f then 'S'
  else if c = Char.ofNat 0x212a then 'K'
  else c

/-- Whether an object key addresses the struct field with the given JSON name: an exact
match or a match under case folding. -/
def nameMatches (name key : Text) : Bool := key.map foldRune == name.map foldRune

/-- Decode a JSON value into a `string` that holds `old`: a string is stored, `null` leaves
the target as it is, anything else is an `UnmarshalTypeError`. -/
def decodeStringField (old : GoString) : JSON → Option GoString
  | .str s => some s
  | .null => some old
  | _ => none

/-- Decode the elements of a JSON array into the elements of a `[]string`, one after the
other. `old` holds what the elements hold beforehand (the contents of the slice's backing
array); an element beyond them is fresh, the zero string. -/
def decodeStrings : List GoString → List JSON → Option (List GoString)
  | _, [] => some []
  | old, x :: xs =>
    match decodeStringField (old.headD []) x, decodeStrings old.tail xs with
    | some s, some ss => some (s :: ss)
    | _, _ => none

/-- The struct `json.Unmarshal` is filling, together with the elements of the backing
array of its `Args` that lie beyond the slice's length: what a shorter array left behind
when the slice was truncated, and what a later, longer array meets again. -/
structure DecodeState where
  o : printOutput
  spare : List GoString

/-- Decode a JSON value into the field `Args` (the function `array` of encoding/json and
the `null` case of `literalStore`): `null` sets the slice to nil; the empty array sets it
to a fresh empty slice; an array is decoded element by element into the existing slice,
which is then cut to the length of the array. -/
def decodeArgs (st : DecodeState) : JSON → Option DecodeState
  | .null => some { o := { st.o with Args := none }, spare := [] }
  | .arr [] => some { o := { st.o with Args := some [] }, spare := [] }
  | .arr (x :: xs) =>
    match decodeStrings (st.o.Args.getD [] ++ st.spare) (x :: xs) with
    | some ss =>
      some { o := { st.o with Args := some ss },
             spare := (st.o.Args.getD [] ++ st.spare).drop ss.length }
    | none => none
  | _ => none

/-- Decode one object member into the `printOutput` being filled; a key that names no field
is skipped. -/
def decodeMember (st : DecodeState) (k : Text) (j : JSON) : Option DecodeState :=
  if nameMatches keyFnName k then
    match decodeStringField st.o.FnName j with
    | some s => some { st with o := { st.o with FnName := s } }
    | none => none
  else if nameMatches keyArgs k then decodeArgs st j
  else if nameMatches keyMsg k then
    match decodeStringField st.o.Msg j with
    | some s => some { st with o := { st.o with Msg := s } }
    | none => none
  else if nameMatches keyInner k then
    match fromJSON j with
    | some v => some { st with o := { st.o with Inner := v } }
    | none => none
  else some st

/-- Decode the members of an object in the order of the text. -/
def decodeMembers : DecodeState → List (Text × JSON) → Option DecodeState
  | st, [] => some st
  | st, (k, j) :: ms =>
    match decodeMember st k j with
    | some st1 => decodeMembers st1 ms
    | none => none

/-- The zero value of `printOutput` (`var prevO printOutput`). -/
def printOutput.zero : printOutput := { FnName := [], Args := none, Msg := [], Inner := .nil }

/-- Decode a JSON value into a zero `printOutput`: `null` leaves it untouched, an object
fills its fields, any other value is an `UnmarshalTypeError`. -/
def decodeStruct : JSON → Option printOutput
  | .null => some printOutput.zero
  | .obj ms =>
    match decodeMembers { o := printOutput.zero, spare := [] } ms with
    | some st => some st.o
    | none => none
  | _ => none

/-- The call `json.Unmarshal(data, &prevO)` on a zero `prevO`: the decoded struct, or `none`
when Unmarshal returns an error (a syntax error, nesting beyond `maxNestingDepth`, or a
value of the wrong type for a field). The scanner and `unquote` treat an invalid byte as
they treat the character U+FFFD: outside a string literal it is a syntax error, inside one
it is read as U+FFFD; so the bytes are read through `toValid`. -/
def Unmarshal (data : GoString) : Option printOutput :=
  match parseJSON (some maxNestingDepth) (toValid data) with
  | some j => decodeStruct j
  | none => none

/-! ## Decoded values -/

/-- Depth of the text of a `[]string`: none for the nil slice, one array otherwise. -/
def argsDepth : Option (List GoString) → Nat
  | none => 0
  | some _ => 1

mutual
/-- Nesting depth of the JSON text of a Go value. -/
def Val.depth : Val → Nat
  | .ctx v => v.depth
  | .slice xs => depthVals xs + 1
  | .map kvs => depthEntries kvs + 1
  | .out _ a _ i => max (argsDepth a) i.depth + 1
  | _ => 0
/-- Largest depth among the elements of a slice. -/
def depthVals : List Val → Nat
  | [] => 0
  | x :: xs => max x.depth (depthVals xs)
/-- Largest depth among the values of a map. -/
def depthEntries : List (Text × Val) → Nat
  | [] => 0
  | (_, x) :: kvs => max x.depth (depthEntries kvs)
end

/-- The entries of a map stand in strictly increasing key order. -/
def KeysSorted (kvs : List (Text × Val)) : Prop :=
  (kvs.map Prod.fst).Pairwise (fun a b => keyLt a b = true)

mutual
/-- The values `json.Unmarshal` stores into an empty `any`: `nil`, booleans, finite floats,
strings of valid UTF-8, slices and maps of such values. -/
def Val.Decoded : Val → Prop
  | .nil => True
  | .bool _ => True
  | .float lit => NumberLit lit ∧ float64InRange lit = true
  | .str s => sanitize s = s
  | .slice xs => DecodedVals xs
  | .map kvs => KeysSorted kvs ∧ DecodedEntries kvs
  | _ => False
/-- Decoded elements. -/
def DecodedVals : List Val → Prop
  | [] => True
  | x :: xs => x.Decoded ∧ DecodedVals xs
/-- Decoded map values. -/
def DecodedEntries : List (Text × Val) → Prop
  | [] => True
  | (_, x) :: kvs => x.Decoded ∧ DecodedEntries kvs
end

/-- The structs `json.Unmarshal` leaves in `prevO`: strings of valid UTF-8 and a decoded
`Inner`. -/
def printOutput.Decoded (o : printOutput) : Prop :=
  sanitize o.FnName = o.FnName ∧ (∀ xs, o.Args = some xs → ∀ s ∈ xs, sanitize s = s) ∧
    sanitize o.Msg = o.Msg ∧ o.Inner.Decoded

/-- A `[]string` as it comes back in an `any`: `nil` for the nil slice, else a slice of
strings. -/
def argsVal : Option (List GoString) → Val
  | none => .nil
  | some xs => .slice (xs.map Val.str)

/-- A `printOutput` as it comes back when its JSON text is decoded into an `any`: a map with
exactly the four keys `args`, `fn_name`, `inner`, `msg`. -/
def printOutput.generic (o : printOutput) : Val :=
  .map [(keyArgs, argsVal o.Args), (keyFnName, .str o.FnName), (keyInner, o.Inner),
    (keyMsg, .str o.Msg)]

/-! ## godebug.go -/

/-- The function `strings.Join`. -/
def Join (elems : List GoString) (sep : GoString) : GoString :=
  match elems with
  | [] => []
  | [e] => e
  | e :: rest => rest.foldl (fun b s => b ++ sep ++ s) e

/-- The type assertion `c.(context.Context)`. -/
def isContext : Any → Bool
  | .plain (.ctx _) => true
  | _ => false

/-- The token `ctx` that stands for a context in `args`. -/
def ctxText : GoString := [.rune 'c', .rune 't', .rune 'x']

/-- The Go builtin `append` on a `[]string`. -/
def appendArg (args : Option (List GoString)) (s : GoString) : Option (List GoString) :=
  some (args.getD [] ++ [s])

/-- One round of the loop over `d.A` in `Debug.E`; `none` when `StructString` does not
return. -/
def addArg (o : printOutput) (c : Any) : Option printOutput :=
  if isContext c then some { o with Args := appendArg o.Args ctxText }
  else
    match StructString c with
    | some s => some { o with Args := appendArg o.Args s }
    | none => none

/-- The loop over `d.A` in `Debug.E`. -/
def addArgs : printOutput → List Any → Option printOutput
  | o, [] => some o
  | o, c :: cs =>
    match addArg o c with
    | some o1 => addArgs o1 cs
    | none => none

/-- The method `Debug.E` of godebug.go. `caller` is what `runtime.Caller(1)` and
`runtime.FuncForPC(pc).Name()` give: `none` when `ok` is false, else the name of the calling
function. The result is the text of the returned error, or `none` when the call does not
return (a panic, or a rendering that does not come back). -/
def Debug.E (d : Debug) (caller : Option Text) (err : GoError) (msg : List GoString) :
    Option GoString :=
  let m := Join msg [.rune ' ']
  let fnName : GoString :=
    match caller with
    | some name => ofText name
    | none => ofText ['u', 'n', 'k', 'n', 'o', 'w', 'n']
  -- lines 37 to 40: `err.Error()` is called when `err` is not nil
  let errStr : Option GoString :=
    match err with
    | .nil => some (ofText ['n', 'i', 'l', ' ', 'e', 'r', 'r'])
    | .text t => some t
    | .panics => none
  match errStr with
  | none => none
  | some errStr =>
    let o : printOutput :=
      { FnName := fnName, Args := some [], Msg := m, Inner := .str errStr }
    -- line 50 reads `err.Error()` again, without the nil check of line 38
    match err with
    | .text t =>
      let o : printOutput :=
        match Unmarshal t with
        | some prevO => { o with Inner := prevO.toVal }
        | none => o
      match addArgs o d.A with
      | some o => StructString (.plain o.toVal)
      | none => none
    | _ => none

/-! ## Reading the output of `Debug.E` -/

/-- Decode a text as JSON into an `any`, without a nesting limit: how a reader of an error
text sees it as a JSON value. Objects become maps, so key order plays no part. -/
def decodeAny (t : GoString) : Option Val :=
  match parseJSON none (toValid t) with
  | some j => fromJSON j
  | none => none

/-- Decode a text into a `printOutput` without a nesting limit. -/
def decodeRecord (t : GoString) : Option printOutput :=
  match parseJSON none (toValid t) with
  | some j => decodeStruct j
  | none => none

/-- Nesting depth of a JSON text (0 for a text that is not JSON). -/
def nestingDepth (t : GoString) : Nat :=
  match parseJSON none (toValid t) with
  | some j => j.depth
  | none => 0

/-- What the loop of `Debug.E` appends for one argument: the token `ctx` for a context,
else its rendering; `none` when `StructString` does not return. -/
def renderArg (c : Any) : Option GoString :=
  if isContext c then some ctxText else StructString c

/-- Whether every argument of a list renders, so that the loop of `Debug.E` runs to its
end. Every plain data value renders. -/
def rendersAll (A : List Any) : Bool := A.all (fun c => (renderArg c).isSome)

/-- The slot of an argument in `Args`, for an argument that renders. -/
def argSlot (c : Any) : GoString := (renderArg c).getD []

/-- The caller identity: what the runtime resolves, or the sentinel `unknown`. -/
def callerName : Option Text → Text
  | some name => name
  | none => ['u', 'n', 'k', 'n', 'o', 'w', 'n']

/-- The value `Debug.E` stores in `Inner` for a wrapped error with text `t`. -/
def innerOf (t : GoString) : Val :=
  match Unmarshal t with
  | some prevO => prevO.toVal
  | none => .str t

/-- A value as it comes back from its JSON text in an `any`: a `printOutput` comes back as
a map, a string comes back coerced to valid UTF-8, a decoded value as itself. -/
def genericOf : Val → Val
  | .out f a m i => printOutput.generic ⟨f, a, m, i⟩
  | .str s => .str (sanitize s)
  | v => v

/-- The values `Debug.E` stores in `Inner`: a string, or a `printOutput` that came out of
`json.Unmarshal`. -/
def Chained (v : Val) : Prop :=
  (∃ s, v = .str s) ∨ (∃ o : printOutput, v = o.toVal ∧ o.Decoded)

/-- The JSON object of a `printOutput` whose `Inner` has the tree `ji`. -/
def printOutput.json (o : printOutput) (ji : JSON) : JSON :=
  .obj [(keyFnName, .str o.FnName), (keyArgs, argsJSON o.Args), (keyMsg, .str o.Msg),
    (keyInner, ji)]

/-- The record `Debug.E` assembles for a non-nil error with text `t`. -/
def Debug.record (d : Debug) (caller : Option Text) (t : GoString) (msg : List GoString) :
    printOutput :=
  { FnName := ofText (callerName caller), Args := some (d.A.map argSlot),
    Msg := Join msg [.rune ' '], Inner := innerOf t }

/-- The record a reader decodes from the output of `Debug.E`: the assembled record as it
comes back from its JSON text. -/
def Debug.decoded (d : Debug) (caller : Option Text) (t : GoString) (msg : List GoString) :
    printOutput :=
  { FnName := ofText (callerName caller), Args := some ((d.A.map argSlot).map sanitize),
    Msg := sanitize (joinWith [.rune ' '] msg), Inner := genericOf (innerOf t) }

/-- One call of `Debug.E` in a chain: the receiver, the caller identity and the message. -/
structure Call where
  d : Debug
  caller : Option Text
  msg : List GoString

/-- Wrap a base error in a chain of calls; the head of the list is the last, outermost
call. `none` when a call does not return. -/
def chainE (base : GoString) : List Call → Option GoString
  | [] => some base
  | c :: cs =>
    match chainE base cs with
    | some t => c.d.E c.caller (.text t) c.msg
    | none => none

/-- The decoded value a lossless chain has: one map per call, outermost first, and the
base error's text as the innermost `inner`; every string as it comes back from JSON,
coerced to valid UTF-8. -/
def layers (base : GoString) : List Call → Val
  | [] => .str (sanitize base)
  | c :: cs =>
    .map [(keyArgs, .slice (((c.d.A.map argSlot).map sanitize).map Val.str)),
      (keyFnName, .str (ofText (callerName c.caller))), (keyInner, layers base cs),
      (keyMsg, .str (sanitize (joinWith [.rune ' '] c.msg)))]

/-- The decoded value the original claim of a lossless history describes: the fields as
they were given. -/
def layersExact (base : GoString) : List Call → Val
  | [] => .str base
  | c :: cs =>
    .map [(keyArgs, .slice ((c.d.A.map argSlot).map Val.str)),
      (keyFnName, .str (ofText (callerName c.caller))), (keyInner, layersExact base cs),
      (keyMsg, .str (joinWith [.rune ' '] c.msg))]

/-- The Record of the specification: a function identity, rendered arguments, a message,
and an inner that is a plain string or a nested Record. -/
inductive Record where
  | leaf (fn : GoString) (args : List GoString) (msg : GoString) (inner : GoString)
  | wrap (fn : GoString) (args : List GoString) (msg : GoString) (inner : Record)

/-- A Record as a `printOutput` value. -/
def Record.toVal : Record → Val
  | .leaf f a m s => .out f (some a) m (.str s)
  | .wrap f a m r => .out f (some a) m r.toVal

/-- The JSON value of a Record: an object with exactly the keys `args`, `fn_name`, `inner`
and `msg`, holding the Record's field values. -/
def Record.decoded : Record → Val
  | .leaf f a m s =>
    .map [(keyArgs, .slice (a.map Val.str)), (keyFnName, .str f), (keyInner, .str s),
      (keyMsg, .str m)]
  | .wrap f a m r =>
    .map [(keyArgs, .slice (a.map Val.str)), (keyFnName, .str f), (keyInner, r.decoded),
      (keyMsg, .str m)]

/-- A Record with every string coerced to valid UTF-8. -/
def Record.sanitized : Record → Record
  | .leaf f a m s => .leaf (sanitize f) (a.map sanitize) (sanitize m) (sanitize s)
  | .wrap f a m r => .wrap (sanitize f) (a.map sanitize) (sanitize m) r.sanitized

/-- Whether every string of a Record is valid UTF-8. -/
def Record.Valid (r : Record) : Prop := r.sanitized = r

/-- Nesting depth of the JSON text of a Record: one object per level, and the array of
`args`. -/
def Record.depth : Record → Nat
  | .leaf _ _ _ _ => 2
  | .wrap _ _ _ r => r.depth + 1

/-- The struct `json.Unmarshal` fills from the JSON text of a Record: the four fields, with
`Inner` as it is decoded into an `any`. -/
def Record.unmarshaled : Record → printOutput
  | .leaf f a m s => ⟨f, some a, m, .str s⟩
  | .wrap f a m r => ⟨f, some a, m, r.decoded⟩

/-- Records nested `n + 1` deep, all fields empty. -/
def deepRecord : Nat → Record
  | 0 => .leaf [] [] [] []
  | n + 1 => .wrap [] [] [] (deepRecord n)

/-- Arrays nested `n + 1` deep: `[]`, `[[]]`, `[[[]]]`, ... -/
def nestArr : Nat → JSON
  | 0 => .arr []
  | n + 1 => .arr [nestArr n]

/-- Slices nested `n + 1` deep, the decoded form of `nestArr n`. -/
def nestSlice : Nat → Val
  | 0 => .slice []
  | n + 1 => .slice [nestSlice n]

/-- The error text `{"inner":[[...[]...]]}` with 9999 nested arrays: a JSON text nested
exactly `maxNestingDepth` deep. -/
def deepText : GoString := ofText (JSON.obj [(keyInner, nestArr 9998)]).render

/-- A call with no arguments, an unresolved caller and no message. -/
def plainCall : Call := { d := { A := [] }, caller := none, msg := [] }

/-- The loop over `d.A` with the receiver threaded through: a round reads the argument and
appends to `o.Args`; it has no assignment to the receiver. When `StructString` does not
return, the loop stops with the receiver as it is. -/
def addArgsSt : Debug × printOutput → List Any → Debug × Option printOutput
  | s, [] => (s.1, some s.2)
  | s, c :: cs =>
    match addArg s.2 c with
    | some o1 => addArgsSt (s.1, o1) cs
    | none => (s.1, none)

/-- The method `Debug.E` as a transformer of its receiver `*d`: the receiver after the
call, and the result of the call (the text of the returned error, `none` when the call
does not return). -/
def Debug.callE (d : Debug) (caller : Option Text) (err : GoError) (msg : List GoString) :
    Debug × Option GoString :=
  let m := Join msg [.rune ' ']
  let fnName : GoString :=
    match caller with
    | some name => ofText name
    | none => ofText ['u', 'n', 'k', 'n', 'o', 'w', 'n']
  let errStr : Option GoString :=
    match err with
    | .nil => some (ofText ['n', 'i', 'l', ' ', 'e', 'r', 'r'])
    | .text t => some t
    | .panics => none
  match errStr with
  | none => (d, none)
  | some errStr =>
    let o : printOutput :=
      { FnName := fnName, Args := some [], Msg := m, Inner := .str errStr }
    match err with
    | .text t =>
      let o : printOutput :=
        match Unmarshal t with
        | some prevO => { o with Inner := prevO.toVal }
        | none => o
      match addArgsSt (d, o) d.A with
      | (d1, some o) => (d1, StructString (.plain o.toVal))
      | (d1, none) => (d1, none)
    | _ => (d, none)

/-- Whether an object key addresses one of the four fields of `printOutput` (matching is
exact or by case folding). -/
def addressesField (k : Text) : Bool :=
  nameMatches keyFnName k || nameMatches keyArgs k || nameMatches keyMsg k ||
    nameMatches keyInner k

/-- A JSON value foreign to `printOutput`: the literal `null`, or an object none of whose
keys addresses a field. -/
def Foreign (j : JSON) : Prop :=
  j = .null ∨ ∃ ms, j = .obj ms ∧ ∀ p ∈ ms, addressesField p.1 = false

/-- The error text `{"MSG":"x"}`: an object whose only key is none of `fn_name`, `args`,
`msg`, `inner`, but folds to `msg`. -/
def upperMsgText : GoString := ofText "\x7b\"MSG\":\"x\"\x7d".toList

/-- The error text `{"x":[[...[]...]]}` with 10000 nested arrays: an object without any
field key, nested 10001 deep. -/
def deepForeignText : GoString := ofText (JSON.obj [(['x'], nestArr 9999)]).render

/-- The error text of `errors.New("bad\xffutf8")`: the byte 0xFF is not valid UTF-8. -/
def badText : GoString := ofText ['b', 'a', 'd'] ++ .bad 0xff :: ofText ['u', 't', 'f', '8']

/-- The text `bad` U+FFFD `utf8`, which `badText` comes back as from JSON. -/
def badTextRead : GoString := ofText ['b', 'a', 'd', replacementChar, 'u', 't', 'f', '8']

/-- The string `"\xff"`, a single byte that is not valid UTF-8. -/
def badByte : GoString := [.bad 0xff]

/-- The argument `[]any{func(){}, "\xff"}`: json cannot encode it (it holds a function), so
it is rendered by the fallback dump, which carries the invalid byte as it is. -/
def badSlice : Any := .plain (.slice [.func 1, .str badByte])

/-- A value that json cannot encode and whose `String` method returns the empty string (a
struct with an exported function field and `func (T) String() string { return "" }`). -/
def emptyStringer : Any := .custom false (some [])

/-- A map that contains itself (`m := map[string]any{}; m["self"] = m`): json reports the
cycle as an error, and fmt recurses on it without end. -/
def selfMap : Any := .custom false none

/-- A value whose `MarshalJSON` method panics. -/
def panicMarshaler : Any := .custom true (some [])

/-! ## Theorems -/

theorem hexVal_hexDigit (k : Nat) (h : k < 16) : hexVal (hexDigit k) = some k := by
  interval_cases k <;> rfl

theorem hex4_low (n : Nat) (h : n < 128) :
    hex4 '0' '0' (hexDigit (n / 16)) (hexDigit (n % 16)) = some n := by
  have h0 : hexVal '0' = some 0 := rfl
  unfold hex4
  rw [h0, hexVal_hexDigit _ (by omega), hexVal_hexDigit _ (by omega)]
  simp only [Option.some.injEq]
  omega

theorem isSurrogate_low (n : Nat) (h : n < 128) : isSurrogate n = false := by
  simp [isSurrogate]; omega

theorem readUnit_appendChar (c : Char) (tl : Text) :
    ∃ c0 r0, appendChar c ++ tl = c0 :: r0 ∧ c0 ≠ '"' ∧ readUnit c0 r0 = some (c, tl) := by
  unfold appendChar
  split_ifs with h1 h2 h3 h4 h5 h6 h7 h8 h9
  · -- html safe
    simp only [htmlSafe, Bool.and_eq_true, decide_eq_true_eq, bne_iff_ne, ne_eq] at h2
    obtain ⟨⟨⟨⟨⟨a, b⟩, c1⟩, d⟩, e⟩, f⟩ := h2
    refine ⟨c, tl, rfl, b, ?_⟩
    unfold readUnit
    rw [if_neg c1, if_neg (by omega)]
  · rcases h3 with rfl | rfl <;> exact ⟨_, _, rfl, by decide, rfl⟩
  · subst h4; exact ⟨_, _, rfl, by decide, rfl⟩
  · subst h5; exact ⟨_, _, rfl, by decide, rfl⟩
  · subst h6; exact ⟨_, _, rfl, by decide, rfl⟩
  · subst h7; exact ⟨_, _, rfl, by decide, rfl⟩
  · subst h8; exact ⟨_, _, rfl, by decide, rfl⟩
  · refine ⟨_, _, rfl, by decide, ?_⟩
    have hu : readUnit '\\' ('u' :: '0' :: '0' :: hexDigit (c.toNat / 16) ::
        hexDigit (c.toNat % 16) :: tl) =
        readU ('0' :: '0' :: hexDigit (c.toNat / 16) :: hexDigit (c.toNat % 16) :: tl) := rfl
    show readUnit '\\' ('u' :: '0' :: '0' :: hexDigit (c.toNat / 16) ::
        hexDigit (c.toNat % 16) :: tl) = some (c, tl)
    rw [hu, readU, hex4_low _ h1]
    simp only [isSurrogate_low _ h1, Bool.false_eq_true, if_false, Char.ofNat_toNat]
  · rcases h9 with rfl | rfl <;> exact ⟨_, _, rfl, by decide, rfl⟩
  · refine ⟨c, tl, rfl, ?_, ?_⟩
    · rintro rfl; exact h1 (by decide)
    · unfold readUnit
      rw [if_neg, if_neg (by omega)]
      rintro rfl; exact h1 (by decide)

theorem appendChar_length (c : Char) : 1 ≤ (appendChar c).length := by
  unfold appendChar
  split_ifs <;> simp

theorem readUnit_appendUnit (u : StrUnit) (tl : Text) :
    ∃ c0 r0, appendUnit u ++ tl = c0 :: r0 ∧ c0 ≠ '"' ∧ readUnit c0 r0 = some (u.valid, tl) := by
  cases u with
  | rune c => exact readUnit_appendChar c tl
  | bad b => exact ⟨_, _, rfl, by decide, rfl⟩

theorem appendUnit_length (u : StrUnit) : 1 ≤ (appendUnit u).length := by
  cases u with
  | rune c => exact appendChar_length c
  | bad b => simp [appendUnit]

theorem readString_appendUnits (s : GoString) : ∀ (rest : Text) (fuel : Nat),
    (appendUnits s).length < fuel →
    readString fuel (appendUnits s ++ '"' :: rest) = some (toValid s, rest) := by
  induction s with
  | nil =>
    intro rest fuel h
    cases fuel with
    | zero => simp at h
    | succ f => simp [appendUnits, readString, toValid]
  | cons c s ih =>
    intro rest fuel h
    obtain ⟨c0, r0, h1, h2, h3⟩ := readUnit_appendUnit c (appendUnits s ++ '"' :: rest)
    cases fuel with
    | zero => simp at h
    | succ f =>
      have hl : (appendUnits s).length < f := by
        simp only [appendUnits, List.length_append] at h
        have h4 := appendUnit_length c
        omega
      simp only [appendUnits, List.append_assoc]
      rw [h1, readString, if_neg h2, h3]
      simp only [ih rest f hl]
      rfl

theorem toValid_ofText (t : Text) : toValid (ofText t) = t := by
  induction t with
  | nil => rfl
  | cons c t ih =>
    have h := ih
    unfold toValid ofText at h ⊢
    simp only [List.map_cons, StrUnit.valid, List.cons.injEq, true_and]
    exact h

theorem sanitize_ofText (t : Text) : sanitize (ofText t) = ofText t := by
  unfold sanitize
  rw [toValid_ofText]

theorem sanitize_sanitize (s : GoString) : sanitize (sanitize s) = sanitize s :=
  sanitize_ofText _

theorem toValid_sanitize (s : GoString) : toValid (sanitize s) = toValid s :=
  toValid_ofText _

theorem pv_obj (lim : Option Nat) (n d : Nat) (r : Text) :
    parseValue lim (n + 1) d ('{' :: r) =
      if depthOk lim (d + 1) then
        match skipWs r with
        | [] => none
        | c1 :: r1 =>
          if c1 = '}' then some (.obj [], r1)
          else
            match parseMembers lim n (d + 1) (c1 :: r1) with
            | some (ms, r2) => some (.obj ms, r2)
            | none => none
      else none := by
  rw [parseValue]
  rfl

theorem pv_arr (lim : Option Nat) (n d : Nat) (r : Text) :
    parseValue lim (n + 1) d ('[' :: r) =
      if depthOk lim (d + 1) then
        match skipWs r with
        | [] => none
        | c1 :: r1 =>
          if c1 = ']' then some (.arr [], r1)
          else
            match parseElems lim n (d + 1) (c1 :: r1) with
            | some (xs, r2) => some (.arr xs, r2)
            | none => none
      else none := by
  rw [parseValue]
  rfl

theorem pv_str (lim : Option Nat) (n d : Nat) (r : Text) :
    parseValue lim (n + 1) d ('"' :: r) =
      match readString r.length r with
      | some (s1, r1) => some (.str (ofText s1), r1)
      | none => none := by
  rw [parseValue]
  rfl

theorem pv_null (lim : Option Nat) (n d : Nat) (r : Text) :
    parseValue lim (n + 1) d ('n' :: 'u' :: 'l' :: 'l' :: r) = some (.null, r) := by
  rw [parseValue]
  rfl

theorem pv_true (lim : Option Nat) (n d : Nat) (r : Text) :
    parseValue lim (n + 1) d ('t' :: 'r' :: 'u' :: 'e' :: r) = some (.bool true, r) := by
  rw [parseValue]
  rfl

theorem pv_false (lim : Option Nat) (n d : Nat) (r : Text) :
    parseValue lim (n + 1) d ('f' :: 'a' :: 'l' :: 's' :: 'e' :: r) = some (.bool false, r) := by
  rw [parseValue]
  rfl

theorem isDigit_range {c : Char} (h : isDigit c = true) : 48 ≤ c.toNat ∧ c.toNat ≤ 57 := by
  simpa [isDigit] using h

theorem pv_num (lim : Option Nat) (n d : Nat) (c : Char) (r : Text)
    (h : c = '-' ∨ isDigit c = true) :
    parseValue lim (n + 1) d (c :: r) =
      match scanNum .start (c :: r) with
      | some (lit, r1) => some (.num lit, r1)
      | none => none := by
  rcases h with rfl | h
  · rw [parseValue]
    rfl
  · have hr := isDigit_range h
    have hs : isSpace c = false := by
      cases hc : isSpace c with
      | false => rfl
      | true =>
        simp only [isSpace, Bool.or_eq_true, beq_iff_eq] at hc
        rcases hc with ((rfl | rfl) | rfl) | rfl <;> simp at hr
    have ne : ∀ x : Char, (x.toNat < 48 ∨ 57 < x.toNat) → ¬ c = x := by
      rintro x hx rfl
      omega
    rw [parseValue]
    simp only [skipWs, hs, Bool.false_eq_true, if_false,
      if_neg (ne '{' (by decide)), if_neg (ne '[' (by decide)), if_neg (ne '"' (by decide)),
      if_neg (ne 't' (by decide)), if_neg (ne 'f' (by decide)), if_neg (ne 'n' (by decide)),
      h, or_true, if_true]

theorem numStep_delim (st : NumState) (c : Char) (h : c = ',' ∨ c = ']' ∨ c = '}') :
    numStep st c = none := by
  rcases h with rfl | rfl | rfl <;> cases st <;> rfl

theorem scanNum_append (lit : Text) : ∀ (st : NumState) (rest : Text),
    scanNum st lit = some (lit, []) → Delim rest →
    scanNum st (lit ++ rest) = some (lit, rest) := by
  induction lit with
  | nil =>
    intro st rest h hd
    have hacc : numAccepting st = true := by
      by_contra hn
      simp [scanNum, hn] at h
    cases rest with
    | nil => simp [scanNum, hacc]
    | cons c r =>
      simp only [List.nil_append, scanNum, numStep_delim st c hd, hacc, if_true]
  | cons c l ih =>
    intro st rest h hd
    rw [scanNum] at h
    rw [List.cons_append, scanNum]
    cases hs : numStep st c with
    | none =>
      rw [hs] at h
      simp only at h
      split_ifs at h
      simp at h
    | some st1 =>
      rw [hs] at h
      simp only at h ⊢
      cases h1 : scanNum st1 l with
      | none => rw [h1] at h; simp [consChar] at h
      | some p =>
        obtain ⟨a, b⟩ := p
        rw [h1] at h
        simp only [consChar, Option.some.injEq, Prod.mk.injEq, List.cons.injEq, true_and] at h
        obtain ⟨rfl, rfl⟩ := h
        rw [ih st1 rest h1 hd]
        rfl

theorem numberLit_head {lit : Text} (h : NumberLit lit) :
    ∃ c l, lit = c :: l ∧ (c = '-' ∨ isDigit c = true) := by
  unfold NumberLit at h
  cases lit with
  | nil => simp [scanNum, numAccepting] at h
  | cons c l =>
    refine ⟨c, l, rfl, ?_⟩
    rw [scanNum] at h
    by_contra hn
    push_neg at hn
    have h0 : c ≠ '0' := by
      rintro rfl
      exact hn.2 rfl
    have : numStep .start c = none := by
      simp [numStep, hn.1, hn.2, h0]
    rw [this] at h
    simp [numAccepting] at h


theorem startChar_digit {c : Char} (h : c = '-' ∨ isDigit c = true) : StartChar c := by
  rcases h with rfl | h
  · exact ⟨rfl, by decide, by decide⟩
  · have hr := isDigit_range h
    refine ⟨?_, ?_, ?_⟩
    · cases hc : isSpace c with
      | false => rfl
      | true =>
        simp only [isSpace, Bool.or_eq_true, beq_iff_eq] at hc
        rcases hc with ((rfl | rfl) | rfl) | rfl <;> simp at hr
    · rintro rfl; simp at hr
    · rintro rfl; simp at hr

theorem render_head (j : JSON) (h : j.WF) : ∃ c tl, j.render = c :: tl ∧ StartChar c := by
  cases j with
  | null => exact ⟨_, _, rfl, rfl, by decide, by decide⟩
  | bool b => cases b <;> exact ⟨_, _, rfl, rfl, by decide, by decide⟩
  | num lit =>
    obtain ⟨c, l, rfl, hc⟩ := numberLit_head (by simpa [JSON.WF] using h)
    exact ⟨c, l, rfl, startChar_digit hc⟩
  | str s => exact ⟨_, _, rfl, rfl, by decide, by decide⟩
  | arr xs => cases xs <;> exact ⟨_, _, rfl, rfl, by decide, by decide⟩
  | obj ms =>
    cases ms with
    | nil => exact ⟨_, _, rfl, rfl, by decide, by decide⟩
    | cons m ms => obtain ⟨k, v⟩ := m; exact ⟨_, _, rfl, rfl, by decide, by decide⟩

theorem skipWs_start {c : Char} (r : Text) (h : isSpace c = false) : skipWs (c :: r) = c :: r := by
  simp [skipWs, h]

theorem depthOk_mono {lim : Option Nat} {a b : Nat} (h : depthOk lim b = true) (hab : a ≤ b) :
    depthOk lim a = true := by
  cases lim with
  | none => rfl
  | some l => simp only [depthOk, decide_eq_true_eq] at h ⊢; omega

theorem depthOk_max (lim : Option Nat) (d a b : Nat) :
    depthOk lim (d + max a b) = (depthOk lim (d + a) && depthOk lim (d + b)) := by
  cases lim with
  | none => rfl
  | some l =>
    simp only [depthOk]
    rw [Bool.eq_iff_iff]
    simp only [decide_eq_true_eq, Bool.and_eq_true]
    omega

theorem render_length_pos (j : JSON) (h : j.WF) : 1 ≤ j.render.length := by
  obtain ⟨c, tl, hc, _⟩ := render_head j h
  rw [hc]; simp

theorem renderElems_delim (xs : List JSON) (rest : Text) : Delim (renderElems xs ++ rest) := by
  cases xs with
  | nil => exact Or.inr (Or.inl rfl)
  | cons x xs => exact Or.inl rfl

theorem renderMembers_delim (ms : List (Text × JSON)) (rest : Text) :
    Delim (renderMembers ms ++ rest) := by
  cases ms with
  | nil => exact Or.inr (Or.inr rfl)
  | cons m ms => obtain ⟨k, v⟩ := m; exact Or.inl rfl

theorem rtElems_step (lim : Option Nat) (n : Nat) (hV : RTValue lim n) (hE : RTElems lim n) :
    RTElems lim (n + 1) := by
  intro x xs d rest wx wxs hlen hd
  rw [parseElems, List.append_assoc]
  have hxl : 1 ≤ x.render.length := render_length_pos x wx
  simp only [List.length_append] at hlen
  cases xs with
  | nil =>
    simp only [renderElems, List.length_singleton] at hlen
    rw [hV x d _ wx (by omega) (renderElems_delim [] rest) hd]
    simp only [depthElems, Nat.max_zero, renderElems, normElems]
    by_cases hx : depthOk lim (d + x.depth) = true
    · simp only [hx, if_true, List.singleton_append]
      rfl
    · simp only [hx, Bool.false_eq_true, if_false]
  | cons y ys =>
    simp only [renderElems, List.length_cons, List.length_append] at hlen
    rw [hV x d _ wx (by omega) (renderElems_delim (y :: ys) rest) hd]
    rw [depthOk_max]
    by_cases hx : depthOk lim (d + x.depth) = true
    · simp only [hx, if_true, Bool.true_and]
      have := hE y ys d rest wxs.1 wxs.2 (by simp only [List.length_append]; omega) hd
      simp only [renderElems, List.cons_append, skipWs_start _ (show isSpace ',' = false from rfl),
        if_true, List.append_assoc] at this ⊢
      rw [this]
      simp only [depthElems, normElems]
      by_cases hy : depthOk lim (d + max y.depth (depthElems ys)) = true
      · simp only [hy, if_true]
      · simp only [hy, Bool.false_eq_true, if_false]
    · simp only [hx, Bool.false_eq_true, if_false, Bool.false_and]


theorem appendString_length (k : GoString) :
    (appendString k).length = (appendUnits k).length + 2 := by
  simp [appendString]

theorem readString_appendString_tail (k : GoString) (rest : Text) :
    readString (appendUnits k ++ '"' :: rest).length (appendUnits k ++ '"' :: rest) =
      some (toValid k, rest) :=
  readString_appendUnits k rest _ (by simp)

theorem rtMembers_step (lim : Option Nat) (n : Nat) (hV : RTValue lim n)
    (hM : RTMembers lim n) : RTMembers lim (n + 1) := by
  intro k v ms d rest wv wms hlen hd
  have hvl : 1 ≤ v.render.length := render_length_pos v wv
  simp only [List.length_append, List.length_cons, appendString_length] at hlen
  have e1 : appendString (ofText k) ++ ':' :: (v.render ++ renderMembers ms) ++ rest =
      '"' :: (appendUnits (ofText k) ++
        '"' :: (':' :: (v.render ++ (renderMembers ms ++ rest)))) := by
    simp [appendString]
  rw [e1, parseMembers]
  simp only [skipWs_start _ (show isSpace '"' = false from rfl), if_true,
    readString_appendString_tail, toValid_ofText,
    skipWs_start _ (show isSpace ':' = false from rfl)]
  cases ms with
  | nil =>
    simp only [renderMembers, List.length_singleton] at hlen
    rw [hV v d _ wv (by omega) (renderMembers_delim [] rest) hd]
    simp only [depthMembers, Nat.max_zero, renderMembers, normMembers]
    by_cases hx : depthOk lim (d + v.depth) = true
    · simp only [hx, if_true, List.singleton_append]
      rfl
    · simp only [hx, Bool.false_eq_true, if_false]
  | cons m ms =>
    obtain ⟨k2, v2⟩ := m
    simp only [renderMembers, List.length_cons, List.length_append, appendString_length] at hlen
    rw [hV v d _ wv (by omega) (renderMembers_delim ((k2, v2) :: ms) rest) hd]
    rw [depthOk_max]
    by_cases hx : depthOk lim (d + v.depth) = true
    · simp only [hx, if_true, Bool.true_and]
      have := hM k2 v2 ms d rest wms.1 wms.2
        (by simp only [List.length_append, List.length_cons, appendString_length]; omega) hd
      simp only [renderMembers, List.cons_append,
        skipWs_start _ (show isSpace ',' = false from rfl), if_true, List.append_assoc] at this ⊢
      rw [this]
      simp only [depthMembers, normMembers]
      by_cases hy : depthOk lim (d + max v2.depth (depthMembers ms)) = true
      · simp only [hy, if_true]
      · simp only [hy, Bool.false_eq_true, if_false]
    · simp only [hx, Bool.false_eq_true, if_false, Bool.false_and]


theorem depthOk_succ_false {lim : Option Nat} {d : Nat} (h : ¬ depthOk lim (d + 1) = true)
    (m : Nat) : depthOk lim (d + (m + 1)) = false := by
  cases hc : depthOk lim (d + (m + 1)) with
  | false => rfl
  | true => exact absurd (depthOk_mono hc (by omega)) h

theorem rtValue_step (lim : Option Nat) (n : Nat) (hE : RTElems lim n)
    (hM : RTMembers lim n) : RTValue lim (n + 1) := by
  intro j d rest wj hlen hdel hd
  cases j with
  | null => simp only [JSON.render, nullText, List.cons_append, List.nil_append, pv_null,
      JSON.depth, Nat.add_zero, hd, if_true, JSON.norm]
  | bool b =>
    cases b
    · simp only [JSON.render, falseText, Bool.false_eq_true, if_false, List.cons_append,
        List.nil_append, pv_false, JSON.depth, Nat.add_zero, hd, if_true, JSON.norm]
    · simp only [JSON.render, trueText, if_true, List.cons_append, List.nil_append, pv_true,
        JSON.depth, Nat.add_zero, hd, JSON.norm]
  | num lit =>
    have hl : NumberLit lit := by simpa [JSON.WF] using wj
    obtain ⟨c, l, rfl, hc⟩ := numberLit_head hl
    simp only [JSON.render, List.cons_append, JSON.depth, Nat.add_zero, hd, if_true, JSON.norm]
    rw [pv_num lim n d c _ hc]
    have := scanNum_append (c :: l) .start rest hl hdel
    rw [List.cons_append] at this
    rw [this]
  | str s =>
    simp only [JSON.render, appendString, List.cons_append, List.append_assoc,
      List.singleton_append, pv_str, readString_appendString_tail, JSON.depth, Nat.add_zero, hd,
      if_true, List.nil_append, JSON.norm, sanitize]
  | arr xs =>
    cases xs with
    | nil =>
      simp only [JSON.render, List.cons_append, List.nil_append, pv_arr, JSON.depth, depthElems,
        Nat.zero_add, skipWs_start _ (show isSpace ']' = false from rfl), if_true, JSON.norm,
        normElems]
    | cons x xs =>
      obtain ⟨c, tl, hc, hs⟩ := render_head x wj.1
      simp only [JSON.render, List.cons_append, pv_arr, JSON.depth, depthElems, JSON.norm,
        normElems]
      by_cases h1 : depthOk lim (d + 1) = true
      · have hlen2 : (x.render ++ renderElems xs).length ≤ n := by
          simp only [JSON.render, List.length_cons] at hlen
          omega
        have := hE x xs (d + 1) rest wj.1 wj.2 hlen2 h1
        rw [hc] at this
        simp only [List.cons_append] at this
        have e : d + 1 + max x.depth (depthElems xs) = d + (max x.depth (depthElems xs) + 1) := by
          omega
        rw [e] at this
        simp only [h1, if_true, hc, List.cons_append, skipWs_start _ hs.1, if_neg hs.2.1, this]
        split_ifs <;> rfl
      · simp only [h1, depthOk_succ_false h1, Bool.false_eq_true, if_false]
  | obj ms =>
    cases ms with
    | nil =>
      simp only [JSON.render, List.cons_append, List.nil_append, pv_obj, JSON.depth,
        depthMembers, Nat.zero_add, skipWs_start _ (show isSpace '}' = false from rfl), if_true,
        JSON.norm, normMembers]
    | cons m ms =>
      obtain ⟨k, v⟩ := m
      simp only [JSON.render, List.cons_append, pv_obj, JSON.depth, depthMembers, JSON.norm,
        normMembers]
      by_cases h1 : depthOk lim (d + 1) = true
      · have hlen2 :
            (appendString (ofText k) ++ ':' :: (v.render ++ renderMembers ms)).length ≤ n := by
          simp only [JSON.render, List.length_cons] at hlen
          omega
        have := hM k v ms (d + 1) rest wj.1 wj.2 hlen2 h1
        have e : d + 1 + max v.depth (depthMembers ms) =
            d + (max v.depth (depthMembers ms) + 1) := by
          omega
        rw [e] at this
        simp only [appendString, List.cons_append] at this
        simp only [h1, if_true, appendString, List.cons_append,
          skipWs_start _ (show isSpace '"' = false from rfl),
          if_neg (show ¬ '"' = '}' by decide), this]
        split_ifs <;> rfl
      · simp only [h1, depthOk_succ_false h1, Bool.false_eq_true, if_false]

theorem roundTrip_all (lim : Option Nat) (n : Nat) :
    RTValue lim n ∧ RTElems lim n ∧ RTMembers lim n := by
  induction n with
  | zero =>
    refine ⟨?_, ?_, ?_⟩
    · intro j d rest wj hlen
      have := render_length_pos j wj
      omega
    · intro x xs d rest wx wxs hlen
      have := render_length_pos x wx
      simp only [List.length_append] at hlen
      omega
    · intro k v ms d rest wv wms hlen
      simp only [List.length_append, List.length_cons, appendString_length] at hlen
      omega
  | succ n ih =>
    exact ⟨rtValue_step lim n ih.2.1 ih.2.2, rtElems_step lim n ih.1 ih.2.1,
      rtMembers_step lim n ih.1 ih.2.2⟩

/-- Parsing the compact text of a well-formed value tree gives the tree back, its strings
coerced to valid UTF-8, when its nesting is within the limit, and fails when it is not. -/
theorem parseJSON_render (lim : Option Nat) (j : JSON) (wj : j.WF) :
    parseJSON lim j.render = if depthOk lim j.depth then some j.norm else none := by
  have h := (roundTrip_all lim (j.render.length + 1)).1 j 0 [] wj (by omega) trivial
    (by cases lim <;> simp [depthOk])
  simp only [List.append_nil, Nat.zero_add] at h
  unfold parseJSON
  rw [h]
  split_ifs <;> simp [skipWs]

theorem consChar_eq_some {c : Char} {o : Option (Text × Text)} {a b : Text}
    (h : consChar c o = some (a, b)) : ∃ a1, o = some (a1, b) ∧ a = c :: a1 := by
  cases o with
  | none => simp [consChar] at h
  | some p =>
    obtain ⟨x, y⟩ := p
    simp only [consChar, Option.some.injEq, Prod.mk.injEq] at h
    exact ⟨x, by rw [h.2], h.1.symm⟩

theorem scanNum_prefix (s : Text) : ∀ (st : NumState) (lit r : Text),
    scanNum st s = some (lit, r) → scanNum st lit = some (lit, []) := by
  induction s with
  | nil =>
    intro st lit r h
    rw [scanNum] at h
    split_ifs at h with ha
    simp only [Option.some.injEq, Prod.mk.injEq] at h
    obtain ⟨rfl, _⟩ := h
    simp [scanNum, ha]
  | cons c s ih =>
    intro st lit r h
    rw [scanNum] at h
    cases hs : numStep st c with
    | none =>
      rw [hs] at h
      simp only at h
      split_ifs at h with ha
      simp only [Option.some.injEq, Prod.mk.injEq] at h
      obtain ⟨rfl, _⟩ := h
      simp [scanNum, ha]
    | some st1 =>
      rw [hs] at h
      simp only at h
      obtain ⟨a1, h1, rfl⟩ := consChar_eq_some h
      rw [scanNum, hs]
      simp only
      rw [ih st1 a1 r h1]
      rfl

theorem parsedValue_step (lim : Option Nat) (n : Nat) (hE : ParsedElemsP lim n)
    (hM : ParsedMembersP lim n) : ParsedValue lim (n + 1) := by
  intro d s j r h
  rw [parseValue] at h
  split at h
  · cases h
  · split_ifs at h
    all_goals (try split at h)
    all_goals (try cases h)
    all_goals (try split_ifs at h)
    all_goals (try split at h)
    all_goals (try cases h)
    all_goals (try trivial)
    all_goals first
      | exact hM _ _ _ _ (by assumption)
      | exact hE _ _ _ _ (by assumption)
      | exact scanNum_prefix _ _ _ _ (by assumption)
      | exact sanitize_ofText _

theorem parsedElems_step (lim : Option Nat) (n : Nat) (hV : ParsedValue lim n)
    (hE : ParsedElemsP lim n) : ParsedElemsP lim (n + 1) := by
  intro d s xs r h
  rw [parseElems] at h
  split at h
  · cases h
  · rename_i x r0 hx
    split at h
    · cases h
    · split_ifs at h
      · split at h
        · rename_i ys r2 hy
          cases h
          exact ⟨hV _ _ _ _ hx, hE _ _ _ _ hy⟩
        · cases h
      · cases h
        exact ⟨hV _ _ _ _ hx, trivial⟩

theorem parsedMembers_step (lim : Option Nat) (n : Nat) (hV : ParsedValue lim n)
    (hM : ParsedMembersP lim n) : ParsedMembersP lim (n + 1) := by
  intro d s ms r h
  rw [parseMembers] at h
  split at h
  · cases h
  · split_ifs at h
    split at h
    · cases h
    · split at h
      · cases h
      · split_ifs at h
        split at h
        · cases h
        · rename_i v r3 hv
          split at h
          · cases h
          · split_ifs at h
            · split at h
              · rename_i ms2 r5 hm
                cases h
                exact ⟨hV _ _ _ _ hv, hM _ _ _ _ hm⟩
              · cases h
            · cases h
              exact ⟨hV _ _ _ _ hv, trivial⟩

theorem parse_parsed_all (lim : Option Nat) (n : Nat) :
    ParsedValue lim n ∧ ParsedElemsP lim n ∧ ParsedMembersP lim n := by
  induction n with
  | zero =>
    refine ⟨?_, ?_, ?_⟩
    · intro d s j r h; simp [parseValue] at h
    · intro d s j r h; simp [parseElems] at h
    · intro d s j r h; simp [parseMembers] at h
  | succ n ih =>
    exact ⟨parsedValue_step lim n ih.2.1 ih.2.2, parsedElems_step lim n ih.1 ih.2.1,
      parsedMembers_step lim n ih.1 ih.2.2⟩

/-- Every tree the parser returns has the parser's form. -/
theorem parseJSON_parsed {lim : Option Nat} {s : Text} {j : JSON}
    (h : parseJSON lim s = some j) : j.Parsed := by
  unfold parseJSON at h
  split at h
  · rename_i j0 r hp
    split_ifs at h
    cases h
    exact (parse_parsed_all lim _).1 _ _ _ _ hp
  · cases h

mutual
theorem parsed_wf : ∀ (j : JSON), j.Parsed → j.WF
  | .null, _ => trivial
  | .bool _, _ => trivial
  | .num _, h => by
    simp only [JSON.Parsed] at h
    simpa only [JSON.WF] using h
  | .str _, _ => by simp only [JSON.WF]
  | .arr xs, h => by
    simp only [JSON.Parsed] at h
    simp only [JSON.WF]
    exact parsedElems_wf xs h
  | .obj ms, h => by
    simp only [JSON.Parsed] at h
    simp only [JSON.WF]
    exact parsedMembers_wf ms h
theorem parsedElems_wf : ∀ (xs : List JSON), ParsedElems xs → WFElems xs
  | [], _ => trivial
  | x :: xs, h => by
    simp only [ParsedElems] at h
    simp only [WFElems]
    exact ⟨parsed_wf x h.1, parsedElems_wf xs h.2⟩
theorem parsedMembers_wf : ∀ (ms : List (Text × JSON)), ParsedMembers ms → WFMembers ms
  | [], _ => trivial
  | (_, x) :: ms, h => by
    simp only [ParsedMembers] at h
    simp only [WFMembers]
    exact ⟨parsed_wf x h.1, parsedMembers_wf ms h.2⟩
end

mutual
theorem parsed_norm : ∀ (j : JSON), j.Parsed → j.norm = j
  | .null, _ => rfl
  | .bool _, _ => rfl
  | .num _, _ => rfl
  | .str _, h => by
    simp only [JSON.Parsed] at h
    simp only [JSON.norm, h]
  | .arr xs, h => by
    simp only [JSON.Parsed] at h
    simp only [JSON.norm, parsedElems_norm xs h]
  | .obj ms, h => by
    simp only [JSON.Parsed] at h
    simp only [JSON.norm, parsedMembers_norm ms h]
theorem parsedElems_norm : ∀ (xs : List JSON), ParsedElems xs → normElems xs = xs
  | [], _ => rfl
  | x :: xs, h => by
    simp only [ParsedElems] at h
    simp only [normElems, parsed_norm x h.1, parsedElems_norm xs h.2]
theorem parsedMembers_norm : ∀ (ms : List (Text × JSON)), ParsedMembers ms → normMembers ms = ms
  | [], _ => rfl
  | (_, x) :: ms, h => by
    simp only [ParsedMembers] at h
    simp only [normMembers, parsed_norm x h.1, parsedMembers_norm ms h.2]
end

/-- Every tree the parser returns is well-formed. -/
theorem parseJSON_wf {lim : Option Nat} {s : Text} {j : JSON} (h : parseJSON lim s = some j) :
    j.WF := parsed_wf j (parseJSON_parsed h)

theorem depthElems_strs (xs : List GoString) : depthElems (xs.map JSON.str) = 0 := by
  induction xs with
  | nil => rfl
  | cons x xs ih => simp [depthElems, JSON.depth, ih]

theorem argsJSON_depth (a : Option (List GoString)) : (argsJSON a).depth = argsDepth a := by
  cases a with
  | none => rfl
  | some xs => simp [argsJSON, JSON.depth, depthElems_strs, argsDepth]

mutual
theorem toJSON_depth : ∀ (v : Val) (j : JSON), v.toJSON = some j → j.depth = v.depth
  | .nil, j, h => by cases h; rfl
  | .bool _, j, h => by cases h; rfl
  | .int _, j, h => by cases h; rfl
  | .float _, j, h => by
    rw [Val.toJSON] at h
    split_ifs at h
    cases h
    rfl
  | .str _, j, h => by cases h; rfl
  | .func _, j, h => by simp [Val.toJSON] at h
  | .ctx v, j, h => by
    rw [Val.toJSON] at h
    rw [Val.depth]
    exact toJSON_depth v j h
  | .slice xs, j, h => by
    rw [Val.toJSON] at h
    split at h
    · rename_i js hjs
      cases h
      rw [JSON.depth, Val.depth, toJSONElems_depth xs js hjs]
    · cases h
  | .map kvs, j, h => by
    rw [Val.toJSON] at h
    split at h
    · rename_i ms hms
      cases h
      rw [JSON.depth, Val.depth, toJSONMembers_depth kvs ms hms]
    · cases h
  | .out f a m i, j, h => by
    rw [Val.toJSON] at h
    split at h
    · rename_i ji hji
      cases h
      have := toJSON_depth i ji hji
      simp only [JSON.depth, depthMembers, Val.depth, argsJSON_depth, this]
      omega
    · cases h
theorem toJSONElems_depth : ∀ (xs : List Val) (js : List JSON),
    toJSONElems xs = some js → depthElems js = depthVals xs
  | [], js, h => by cases h; rfl
  | x :: xs, js, h => by
    rw [toJSONElems] at h
    split at h
    · rename_i j js1 hj hjs
      cases h
      rw [depthElems, depthVals, toJSON_depth x j hj, toJSONElems_depth xs js1 hjs]
    · cases h
theorem toJSONMembers_depth : ∀ (kvs : List (Text × Val)) (ms : List (Text × JSON)),
    toJSONMembers kvs = some ms → depthMembers ms = depthEntries kvs
  | [], ms, h => by cases h; rfl
  | (k, x) :: kvs, ms, h => by
    rw [toJSONMembers] at h
    split at h
    · rename_i j ms1 hj hms
      cases h
      rw [depthMembers, depthEntries, toJSON_depth x j hj, toJSONMembers_depth kvs ms1 hms]
    · cases h
end

mutual
theorem norm_depth : ∀ (j : JSON), j.norm.depth = j.depth
  | .null => rfl
  | .bool _ => rfl
  | .num _ => rfl
  | .str _ => rfl
  | .arr xs => by simp only [JSON.norm, JSON.depth, normElems_depth xs]
  | .obj ms => by simp only [JSON.norm, JSON.depth, normMembers_depth ms]
theorem normElems_depth : ∀ (xs : List JSON), depthElems (normElems xs) = depthElems xs
  | [] => rfl
  | x :: xs => by simp only [normElems, depthElems, norm_depth x, normElems_depth xs]
theorem normMembers_depth :
    ∀ (ms : List (Text × JSON)), depthMembers (normMembers ms) = depthMembers ms
  | [] => rfl
  | (_, x) :: ms => by simp only [normMembers, depthMembers, norm_depth x, normMembers_depth ms]
end

theorem char_eq_of_toNat {a b : Char} (h : a.toNat = b.toNat) : a = b := by
  apply Char.ext
  apply UInt32.ext
  exact h

theorem keyLt_irrefl (a : Text) : keyLt a a = false := by
  induction a with
  | nil => rfl
  | cons c a ih => simp [keyLt, ih]

theorem keyLt_trans : ∀ (a b c : Text), keyLt a b = true → keyLt b c = true → keyLt a c = true
  | [], [], _, h, _ => by simp [keyLt] at h
  | [], _ :: _, [], _, h => by simp [keyLt] at h
  | [], _ :: _, _ :: _, _, _ => rfl
  | _ :: _, [], _, h, _ => by simp [keyLt] at h
  | _ :: _, _ :: _, [], _, h => by simp [keyLt] at h
  | x :: a, y :: b, z :: c, h1, h2 => by
    rw [keyLt] at h1 h2 ⊢
    split_ifs at h1 with p1 p2
    · split_ifs at h2 with q1 q2
      · rw [if_pos (by omega)]
      · subst q2; rw [if_pos p1]
    · subst p2
      split_ifs at h2 with q1 q2
      · rw [if_pos q1]
      · subst q2
        rw [if_neg p1, if_pos rfl]
        exact keyLt_trans a b c h1 h2

theorem keyLt_asymm (a b : Text) (h : keyLt a b = true) : keyLt b a = false := by
  cases hb : keyLt b a with
  | false => rfl
  | true =>
    have := keyLt_trans a b a h hb
    rw [keyLt_irrefl] at this
    cases this

theorem keyLt_total : ∀ (a b : Text), a ≠ b → keyLt a b = false → keyLt b a = true
  | [], [], h, _ => absurd rfl h
  | [], _ :: _, _, h => by simp [keyLt] at h
  | _ :: _, [], _, _ => rfl
  | x :: a, y :: b, hne, h => by
    rw [keyLt] at h ⊢
    split_ifs at h with p1 p2
    · subst p2
      rw [if_neg p1, if_pos rfl]
      exact keyLt_total a b (fun e => hne (by rw [e])) h
    · have : x.toNat ≠ y.toNat := fun e => p2 (char_eq_of_toNat e)
      rw [if_pos (by omega)]

theorem mem_insertKey {k : Text} {v : Val} {p : Text × Val} :
    ∀ {m : List (Text × Val)}, p ∈ insertKey k v m → p = (k, v) ∨ p ∈ m
  | [], h => by
    simp only [insertKey, List.mem_singleton] at h
    exact Or.inl h
  | (k1, v1) :: m, h => by
    rw [insertKey] at h
    split_ifs at h
    · rcases List.mem_cons.1 h with h | h
      · exact Or.inl h
      · exact Or.inr (List.mem_cons_of_mem _ h)
    · rcases List.mem_cons.1 h with h | h
      · exact Or.inl h
      · exact Or.inr h
    · rcases List.mem_cons.1 h with h | h
      · exact Or.inr (by rw [h]; exact List.mem_cons_self _ _)
      · rcases mem_insertKey h with h | h
        · exact Or.inl h
        · exact Or.inr (List.mem_cons_of_mem _ h)

theorem keysSorted_cons {k : Text} {v : Val} {m : List (Text × Val)} :
    KeysSorted ((k, v) :: m) ↔ (∀ p ∈ m, keyLt k p.1 = true) ∧ KeysSorted m := by
  unfold KeysSorted
  rw [List.map_cons, List.pairwise_cons]
  constructor
  · rintro ⟨h1, h2⟩
    exact ⟨fun p hp => h1 _ (List.mem_map_of_mem _ hp), h2⟩
  · rintro ⟨h1, h2⟩
    refine ⟨?_, h2⟩
    intro a ha
    obtain ⟨p, hp, rfl⟩ := List.mem_map.1 ha
    exact h1 p hp

theorem insertKey_sorted (k : Text) (v : Val) :
    ∀ (m : List (Text × Val)), KeysSorted m → KeysSorted (insertKey k v m)
  | [], _ => by simp [insertKey, KeysSorted]
  | (k1, v1) :: m, h => by
    rw [insertKey]
    rw [keysSorted_cons] at h
    split_ifs with e1 e2
    · subst e1
      exact keysSorted_cons.2 h
    · refine keysSorted_cons.2 ⟨?_, keysSorted_cons.2 h⟩
      intro p hp
      rcases List.mem_cons.1 hp with rfl | hp
      · exact e2
      · exact keyLt_trans _ _ _ e2 (h.1 p hp)
    · refine keysSorted_cons.2 ⟨?_, insertKey_sorted k v m h.2⟩
      intro p hp
      rcases mem_insertKey hp with rfl | hp
      · exact keyLt_total k k1 e1 (by simpa using e2)
      · exact h.1 p hp

theorem insertKey_last (k : Text) (v : Val) :
    ∀ (m : List (Text × Val)), (∀ p ∈ m, keyLt p.1 k = true) → insertKey k v m = m ++ [(k, v)]
  | [], _ => rfl
  | (k1, v1) :: m, h => by
    have h1 : keyLt k1 k = true := h (k1, v1) (List.mem_cons_self _ _)
    have e1 : ¬ k = k1 := by
      rintro rfl
      rw [keyLt_irrefl] at h1
      cases h1
    have e2 : ¬ keyLt k k1 = true := by
      rw [keyLt_asymm _ _ h1]
      simp
    rw [insertKey, if_neg e1, if_neg e2,
      insertKey_last k v m (fun p hp => h p (List.mem_cons_of_mem _ hp))]
    rfl

theorem insertKey_decoded (k : Text) (v : Val) (hv : v.Decoded) :
    ∀ (m : List (Text × Val)), DecodedEntries m → DecodedEntries (insertKey k v m)
  | [], _ => ⟨hv, trivial⟩
  | (k1, v1) :: m, h => by
    rw [insertKey]
    split_ifs
    · exact ⟨hv, h.2⟩
    · exact ⟨hv, h⟩
    · exact ⟨h.1, insertKey_decoded k v hv m h.2⟩

mutual
theorem fromJSON_decoded : ∀ (j : JSON) (v : Val), j.Parsed → fromJSON j = some v → v.Decoded
  | .null, v, _, h => by cases h; trivial
  | .bool _, v, _, h => by cases h; trivial
  | .num lit, v, w, h => by
    rw [fromJSON] at h
    split_ifs at h with hr
    cases h
    exact ⟨w, hr⟩
  | .str _, v, w, h => by cases h; exact w
  | .arr xs, v, w, h => by
    rw [fromJSON] at h
    split at h
    · rename_i vs hvs
      cases h
      exact fromJSONElems_decoded xs vs w hvs
    · cases h
  | .obj ms, v, w, h => by
    rw [fromJSON] at h
    split at h
    · rename_i kvs hkvs
      cases h
      exact fromJSONMembers_decoded ms [] kvs w hkvs (by simp [KeysSorted]) trivial
    · cases h
theorem fromJSONElems_decoded : ∀ (xs : List JSON) (vs : List Val), ParsedElems xs →
    fromJSONElems xs = some vs → DecodedVals vs
  | [], vs, _, h => by cases h; trivial
  | x :: xs, vs, w, h => by
    rw [fromJSONElems] at h
    split at h
    · rename_i v vs1 hv hvs
      cases h
      exact ⟨fromJSON_decoded x v w.1 hv, fromJSONElems_decoded xs vs1 w.2 hvs⟩
    · cases h
theorem fromJSONMembers_decoded : ∀ (ms : List (Text × JSON)) (acc kvs : List (Text × Val)),
    ParsedMembers ms → fromJSONMembers ms acc = some kvs → KeysSorted acc → DecodedEntries acc →
    KeysSorted kvs ∧ DecodedEntries kvs
  | [], acc, kvs, _, h, s, d => by cases h; exact ⟨s, d⟩
  | (k, x) :: ms, acc, kvs, w, h, s, d => by
    rw [fromJSONMembers] at h
    split at h
    · rename_i v hv
      exact fromJSONMembers_decoded ms _ kvs w.2 h (insertKey_sorted k v acc s)
        (insertKey_decoded k v (fromJSON_decoded x v w.1 hv) acc d)
    · cases h
end

mutual
theorem decoded_toJSON : ∀ (v : Val), v.Decoded →
    ∃ j, v.toJSON = some j ∧ j.Parsed ∧ fromJSON j = some v
  | .nil, _ => ⟨.null, rfl, trivial, rfl⟩
  | .bool b, _ => ⟨.bool b, rfl, trivial, rfl⟩
  | .int _, h => by cases h
  | .float lit, h => by
    have hf : isFloatLit lit = true := by
      simp only [isFloatLit, Bool.and_eq_true, decide_eq_true_eq]
      exact h
    exact ⟨.num lit, by rw [Val.toJSON, if_pos hf], h.1, by rw [fromJSON, if_pos h.2]⟩
  | .str s, h => ⟨.str s, rfl, h, rfl⟩
  | .func _, h => by cases h
  | .ctx _, h => by cases h
  | .slice xs, h => by
    obtain ⟨js, h1, h2, h3⟩ := decoded_toJSONElems xs h
    exact ⟨.arr js, by rw [Val.toJSON, h1], h2, by rw [fromJSON, h3]⟩
  | .map kvs, h => by
    obtain ⟨ms, h1, h2, h3⟩ := decoded_toJSONMembers kvs h.2
    refine ⟨.obj ms, by rw [Val.toJSON, h1], h2, ?_⟩
    rw [fromJSON, h3 [] h.1 (fun p hp => absurd hp (List.not_mem_nil _))]
    rfl
  | .out _ _ _ _, h => by cases h
theorem decoded_toJSONElems : ∀ (xs : List Val), DecodedVals xs →
    ∃ js, toJSONElems xs = some js ∧ ParsedElems js ∧ fromJSONElems js = some xs
  | [], _ => ⟨[], rfl, trivial, rfl⟩
  | x :: xs, h => by
    obtain ⟨j, h1, h2, h3⟩ := decoded_toJSON x h.1
    obtain ⟨js, g1, g2, g3⟩ := decoded_toJSONElems xs h.2
    exact ⟨j :: js, by rw [toJSONElems, h1, g1], ⟨h2, g2⟩, by rw [fromJSONElems, h3, g3]⟩
theorem decoded_toJSONMembers : ∀ (kvs : List (Text × Val)), DecodedEntries kvs →
    ∃ ms, toJSONMembers kvs = some ms ∧ ParsedMembers ms ∧
      ∀ acc : List (Text × Val), KeysSorted kvs →
        (∀ p ∈ acc, ∀ q ∈ kvs, keyLt p.1 q.1 = true) →
        fromJSONMembers ms acc = some (acc ++ kvs)
  | [], _ => ⟨[], rfl, trivial, fun acc _ _ => by simp [fromJSONMembers]⟩
  | (k, x) :: kvs, h => by
    obtain ⟨j, h1, h2, h3⟩ := decoded_toJSON x h.1
    obtain ⟨ms, g1, g2, g3⟩ := decoded_toJSONMembers kvs h.2
    refine ⟨(k, j) :: ms, by rw [toJSONMembers, h1, g1], ⟨h2, g2⟩, ?_⟩
    intro acc hs hacc
    rw [keysSorted_cons] at hs
    rw [fromJSONMembers, h3]
    simp only
    rw [insertKey_last k x acc (fun p hp => hacc p hp (k, x) (List.mem_cons_self _ _)),
      g3 _ hs.2]
    · simp
    · intro p hp q hq
      rcases List.mem_append.1 hp with hp | hp
      · exact hacc p hp q (List.mem_cons_of_mem _ hq)
      · rw [List.mem_singleton] at hp
        subst hp
        exact hs.1 q hq
end

theorem structString_plain_some {v : Val} {s : Text} (h : Marshal v = some s) :
    StructString (.plain v) = some (ofText s) := by
  unfold StructString
  simp only [marshalAny, h]

theorem structString_plain_none {v : Val} (h : Marshal v = none) :
    StructString (.plain v) = some (sprintPlusV v) := by
  unfold StructString
  simp only [marshalAny, h]
  rfl

theorem renderArg_plain (v : Val) : ∃ s, renderArg (.plain v) = some s := by
  unfold renderArg
  split_ifs
  · exact ⟨_, rfl⟩
  · cases h : Marshal v with
    | none => exact ⟨_, structString_plain_none h⟩
    | some s => exact ⟨_, structString_plain_some h⟩

theorem rendersAll_plain (vs : List Val) : rendersAll (vs.map Any.plain) = true := by
  unfold rendersAll
  rw [List.all_eq_true]
  intro c hc
  obtain ⟨v, _, rfl⟩ := List.mem_map.1 hc
  obtain ⟨s, hs⟩ := renderArg_plain v
  rw [hs]
  rfl

theorem rendersAll_cons (c : Any) (A : List Any) :
    rendersAll (c :: A) = ((renderArg c).isSome && rendersAll A) := rfl

theorem addArg_eq (o : printOutput) (c : Any) :
    addArg o c =
      match renderArg c with
      | some s => some { o with Args := appendArg o.Args s }
      | none => none := by
  unfold addArg renderArg
  split_ifs
  · rfl
  · cases StructString c <;> rfl

theorem addArgs_eq (A : List Any) (hA : rendersAll A = true) :
    ∀ (o : printOutput) (xs : List GoString), o.Args = some xs →
      addArgs o A = some { o with Args := some (xs ++ A.map argSlot) } := by
  induction A with
  | nil =>
    intro o xs h
    cases o
    simp only at h
    simp [addArgs, h]
  | cons c A ih =>
    intro o xs h
    rw [rendersAll_cons, Bool.and_eq_true] at hA
    obtain ⟨s, hs⟩ := Option.isSome_iff_exists.1 hA.1
    rw [addArgs, addArg_eq, hs]
    simp only
    rw [ih hA.2 _ (xs ++ [s]) (by simp [appendArg, h])]
    simp [argSlot, hs]

theorem addArgs_none (A : List Any) (hA : rendersAll A = false) :
    ∀ (o : printOutput), addArgs o A = none := by
  induction A with
  | nil => simp [rendersAll] at hA
  | cons c A ih =>
    intro o
    rw [rendersAll_cons, Bool.and_eq_false_iff] at hA
    rw [addArgs, addArg_eq]
    cases hs : renderArg c with
    | none => rfl
    | some s =>
      simp only
      rw [hs] at hA
      rcases hA with hA | hA
      · simp at hA
      · exact ih hA _

/-- For a non-nil error whose text can be read and arguments that all render, `Debug.E`
returns the rendering of the record it assembles. -/
theorem E_eq (d : Debug) (caller : Option Text) (t : GoString) (msg : List GoString)
    (hA : rendersAll d.A = true) :
    d.E caller (.text t) msg = StructString (.plain (d.record caller t msg).toVal) := by
  unfold Debug.E Debug.record
  simp only
  cases h : Unmarshal t with
  | none =>
    simp only [innerOf, h]
    rw [addArgs_eq d.A hA _ [] rfl]
    cases caller <;> rfl
  | some p =>
    simp only [innerOf, h]
    rw [addArgs_eq d.A hA _ [] rfl]
    cases caller <;> rfl

/-- When an argument does not render, `Debug.E` does not return. -/
theorem E_none (d : Debug) (caller : Option Text) (err : GoError) (msg : List GoString)
    (hA : rendersAll d.A = false) : d.E caller err msg = none := by
  unfold Debug.E
  cases err with
  | nil => rfl
  | panics => rfl
  | text t =>
    simp only
    rw [addArgs_none d.A hA]

theorem sanitize_nil : sanitize [] = [] := rfl

theorem decodeStringField_valid {old s : GoString} {j : JSON} (ho : sanitize old = old)
    (wj : j.Parsed) (h : decodeStringField old j = some s) : sanitize s = s := by
  cases j with
  | str s1 =>
    simp only [decodeStringField, Option.some.injEq] at h
    subst h
    exact wj
  | null =>
    simp only [decodeStringField, Option.some.injEq] at h
    subst h
    exact ho
  | bool b => cases h
  | num l => cases h
  | arr xs => cases h
  | obj ms => cases h

theorem decodeStrings_valid : ∀ (xs : List JSON) (old ss : List GoString),
    (∀ s ∈ old, sanitize s = s) → ParsedElems xs → decodeStrings old xs = some ss →
    ∀ s ∈ ss, sanitize s = s
  | [], old, ss, _, _, h => by
    cases old <;> cases h <;> simp
  | x :: xs, old, ss, ho, w, h => by
    rw [decodeStrings] at h
    split at h
    · rename_i s1 ss1 h1 h2
      cases h
      have hh : sanitize (old.headD []) = old.headD [] := by
        cases old with
        | nil => rfl
        | cons a as => exact ho a (List.mem_cons_self _ _)
      have ht : ∀ s ∈ old.tail, sanitize s = s := fun s hs => ho s (List.mem_of_mem_tail hs)
      intro s hs
      rcases List.mem_cons.1 hs with rfl | hs
      · exact decodeStringField_valid hh w.1 h1
      · exact decodeStrings_valid xs old.tail ss1 ht w.2 h2 s hs
    · cases h

/-- The invariant of decoding into `prevO`: all strings held are valid UTF-8 and `Inner`
is a decoded value. -/
theorem decodeArgs_ok {st st1 : DecodeState} {j : JSON} (h : decodeArgs st j = some st1)
    (wj : j.Parsed) (ho : st.o.Decoded) (hs : ∀ s ∈ st.spare, sanitize s = s) :
    st1.o.Decoded ∧ ∀ s ∈ st1.spare, sanitize s = s := by
  have hold : ∀ s ∈ st.o.Args.getD [] ++ st.spare, sanitize s = s := by
    intro s hm
    rcases List.mem_append.1 hm with hm | hm
    · cases ha : st.o.Args with
      | none => rw [ha] at hm; simp at hm
      | some xs =>
        rw [ha] at hm
        exact ho.2.1 xs ha s hm
    · exact hs s hm
  cases j with
  | null =>
    cases h
    exact ⟨⟨ho.1, (fun xs hx => by cases hx), ho.2.2.1, ho.2.2.2⟩, fun s hm => by cases hm⟩
  | arr xs =>
    cases xs with
    | nil =>
      cases h
      refine ⟨⟨ho.1, fun xs hx => ?_, ho.2.2.1, ho.2.2.2⟩, fun s hm => by cases hm⟩
      simp only [Option.some.injEq] at hx
      subst hx
      intro s hm
      cases hm
    | cons x xs =>
      rw [decodeArgs] at h
      split at h
      · rename_i ss hss
        cases h
        refine ⟨⟨ho.1, fun ys hy => ?_, ho.2.2.1, ho.2.2.2⟩, fun s hm => ?_⟩
        · simp only [Option.some.injEq] at hy
          subst hy
          exact decodeStrings_valid _ _ _ hold wj hss
        · exact hold s (List.mem_of_mem_drop hm)
      · cases h
  | bool b => cases h
  | num l => cases h
  | str s => cases h
  | obj ms => cases h

theorem decodeMember_ok {st st1 : DecodeState} {k : Text} {j : JSON}
    (h : decodeMember st k j = some st1) (wj : j.Parsed) (ho : st.o.Decoded)
    (hs : ∀ s ∈ st.spare, sanitize s = s) :
    st1.o.Decoded ∧ ∀ s ∈ st1.spare, sanitize s = s := by
  unfold decodeMember at h
  split_ifs at h
  · split at h
    · rename_i s hs1
      cases h
      exact ⟨⟨decodeStringField_valid ho.1 wj hs1, ho.2.1, ho.2.2.1, ho.2.2.2⟩, hs⟩
    · cases h
  · exact decodeArgs_ok h wj ho hs
  · split at h
    · rename_i s hs1
      cases h
      exact ⟨⟨ho.1, ho.2.1, decodeStringField_valid ho.2.2.1 wj hs1, ho.2.2.2⟩, hs⟩
    · cases h
  · split at h
    · rename_i v hv
      cases h
      exact ⟨⟨ho.1, ho.2.1, ho.2.2.1, fromJSON_decoded j v wj hv⟩, hs⟩
    · cases h
  · cases h
    exact ⟨ho, hs⟩

theorem decodeMembers_ok : ∀ (ms : List (Text × JSON)) (st st1 : DecodeState),
    decodeMembers st ms = some st1 → ParsedMembers ms → st.o.Decoded →
    (∀ s ∈ st.spare, sanitize s = s) → st1.o.Decoded
  | [], st, st1, h, _, ho, _ => by cases h; exact ho
  | (k, j) :: ms, st, st1, h, w, ho, hs => by
    rw [decodeMembers] at h
    split at h
    · rename_i st2 h2
      have := decodeMember_ok h2 w.1 ho hs
      exact decodeMembers_ok ms st2 st1 h w.2 this.1 this.2
    · cases h

theorem zero_decoded : printOutput.zero.Decoded :=
  ⟨rfl, (fun xs hx => by cases hx), rfl, trivial⟩

theorem decodeStruct_decoded {j : JSON} {p : printOutput} (h : decodeStruct j = some p)
    (wj : j.Parsed) : p.Decoded := by
  cases j with
  | null => cases h; exact zero_decoded
  | obj ms =>
    rw [decodeStruct] at h
    split at h
    · rename_i st hst
      cases h
      exact decodeMembers_ok ms _ st hst wj zero_decoded (fun s hm => by cases hm)
    · cases h
  | bool b => cases h
  | num l => cases h
  | str s => cases h
  | arr xs => cases h

/-- What `json.Unmarshal` leaves in `prevO` is a decoded struct. -/
theorem Unmarshal_decoded {t : GoString} {p : printOutput} (h : Unmarshal t = some p) :
    p.Decoded := by
  unfold Unmarshal at h
  split at h
  · rename_i j hj
    exact decodeStruct_decoded h (parseJSON_parsed hj)
  · cases h

theorem innerOf_chained (t : GoString) : Chained (innerOf t) := by
  unfold innerOf
  cases h : Unmarshal t with
  | none => exact Or.inl ⟨t, rfl⟩
  | some p => exact Or.inr ⟨p, rfl, Unmarshal_decoded h⟩

theorem wfElems_strs (xs : List GoString) : WFElems (xs.map JSON.str) := by
  induction xs with
  | nil => trivial
  | cons x xs ih => exact ⟨trivial, ih⟩

theorem argsJSON_wf (a : Option (List GoString)) : (argsJSON a).WF := by
  cases a with
  | none => trivial
  | some xs => exact wfElems_strs xs

theorem fromJSONElems_strs (xs : List GoString) :
    fromJSONElems (xs.map JSON.str) = some (xs.map Val.str) := by
  induction xs with
  | nil => rfl
  | cons x xs ih => simp only [List.map_cons, fromJSONElems, fromJSON, ih]

theorem fromJSON_argsJSON (a : Option (List GoString)) :
    fromJSON (argsJSON a) = some (argsVal a) := by
  cases a with
  | none => rfl
  | some xs => simp only [argsJSON, fromJSON, fromJSONElems_strs, argsVal]

theorem decodedVals_strs (xs : List GoString) (h : ∀ s ∈ xs, sanitize s = s) :
    DecodedVals (xs.map Val.str) := by
  induction xs with
  | nil => trivial
  | cons x xs ih =>
    exact ⟨h x (List.mem_cons_self _ _), ih (fun s hs => h s (List.mem_cons_of_mem _ hs))⟩

theorem argsVal_decoded (a : Option (List GoString))
    (h : ∀ xs, a = some xs → ∀ s ∈ xs, sanitize s = s) : (argsVal a).Decoded := by
  cases a with
  | none => trivial
  | some xs => exact decodedVals_strs xs (h xs rfl)

theorem decodeStrings_strs (xs : List GoString) : ∀ (old : List GoString),
    decodeStrings old (xs.map JSON.str) = some xs := by
  induction xs with
  | nil => intro old; cases old <;> rfl
  | cons x xs ih =>
    intro old
    simp only [List.map_cons, decodeStrings, decodeStringField, ih]

theorem normElems_strs (xs : List GoString) :
    normElems (xs.map JSON.str) = (xs.map sanitize).map JSON.str := by
  induction xs with
  | nil => rfl
  | cons x xs ih => simp only [List.map_cons, normElems, JSON.norm, ih]

theorem argsJSON_norm (a : Option (List GoString)) :
    (argsJSON a).norm = argsJSON (a.map (List.map sanitize)) := by
  cases a with
  | none => rfl
  | some xs => simp only [argsJSON, JSON.norm, normElems_strs, Option.map_some']

theorem map_sanitize_valid (xs : List GoString) (h : ∀ s ∈ xs, sanitize s = s) :
    xs.map sanitize = xs := by
  induction xs with
  | nil => rfl
  | cons x xs ih =>
    rw [List.map_cons, h x (List.mem_cons_self _ _),
      ih (fun s hs => h s (List.mem_cons_of_mem _ hs))]

theorem json_wf (o : printOutput) (ji : JSON) (h : ji.WF) : (o.json ji).WF :=
  ⟨trivial, argsJSON_wf o.Args, trivial, h, trivial⟩

theorem json_depth (o : printOutput) (ji : JSON) :
    (o.json ji).depth = max (argsDepth o.Args) ji.depth + 1 := by
  simp only [printOutput.json, JSON.depth, depthMembers, argsJSON_depth]
  omega

/-- The object of a `printOutput` as it is read back from its text. -/
theorem json_norm (o : printOutput) (ji : JSON) :
    (o.json ji).norm =
      (⟨sanitize o.FnName, o.Args.map (List.map sanitize), sanitize o.Msg, o.Inner⟩ :
        printOutput).json ji.norm := by
  simp only [printOutput.json, JSON.norm, normMembers, argsJSON_norm]

theorem json_norm_decoded (o : printOutput) (ji : JSON) (ho : o.Decoded) (hj : ji.norm = ji) :
    (o.json ji).norm = o.json ji := by
  rw [json_norm, hj, ho.1, ho.2.2.1]
  have : o.Args.map (List.map sanitize) = o.Args := by
    cases ha : o.Args with
    | none => rfl
    | some xs => rw [Option.map_some', map_sanitize_valid xs (ho.2.1 xs ha)]
  rw [this]

theorem fromJSON_json (o : printOutput) (ji : JSON) (g : Val) (h : fromJSON ji = some g) :
    fromJSON (o.json ji) = some (printOutput.generic ⟨o.FnName, o.Args, o.Msg, g⟩) := by
  simp only [printOutput.json, fromJSON, fromJSONMembers, fromJSON_argsJSON, h]
  rfl

theorem generic_decoded (o : printOutput) (h : o.Decoded) : o.generic.Decoded := by
  refine ⟨?_, argsVal_decoded o.Args h.2.1, h.1, h.2.2.2, h.2.2.1, trivial⟩
  unfold KeysSorted
  simp only [List.map_cons, List.map_nil, List.pairwise_cons, List.mem_cons, List.mem_singleton,
    List.not_mem_nil, forall_eq_or_imp, forall_eq, IsEmpty.forall_iff, implies_true,
    List.Pairwise.nil, and_true]
  decide

theorem decodeStruct_json (f : GoString) (args : List GoString) (m : GoString) (i : Val)
    (ji : JSON) (g : Val) (h : fromJSON ji = some g) :
    decodeStruct ((⟨f, some args, m, i⟩ : printOutput).json ji) = some ⟨f, some args, m, g⟩ := by
  have e1 : ∀ st j, decodeMember st keyFnName j =
      match decodeStringField st.o.FnName j with
      | some s => some { st with o := { st.o with FnName := s } }
      | none => none := fun _ _ => rfl
  have e2 : ∀ st j, decodeMember st keyArgs j = decodeArgs st j := fun _ _ => rfl
  have e3 : ∀ st j, decodeMember st keyMsg j =
      match decodeStringField st.o.Msg j with
      | some s => some { st with o := { st.o with Msg := s } }
      | none => none := fun _ _ => rfl
  have e4 : ∀ st j, decodeMember st keyInner j =
      match fromJSON j with
      | some v => some { st with o := { st.o with Inner := v } }
      | none => none := fun _ _ => rfl
  cases args with
  | nil =>
    simp only [printOutput.json, decodeStruct, decodeMembers, e1, e2, e3, e4, argsJSON,
      decodeStringField, List.map_nil, decodeArgs, h]
  | cons a as =>
    have hd := decodeStrings_strs (a :: as)
    simp only [List.map_cons] at hd
    simp only [printOutput.json, decodeStruct, decodeMembers, e1, e2, e3, e4, argsJSON,
      decodeStringField, List.map_cons, decodeArgs, hd, h]

theorem foldl_join (sep : GoString) (rest : List GoString) : ∀ (b : GoString),
    rest.foldl (fun b s => b ++ sep ++ s) b =
      match rest with
      | [] => b
      | y :: ys => b ++ sep ++ joinWith sep (y :: ys) := by
  induction rest with
  | nil => intro b; rfl
  | cons y ys ih =>
    intro b
    rw [List.foldl_cons, ih]
    cases ys with
    | nil => rfl
    | cons z zs => simp [joinWith, List.append_assoc]

/-- The function `strings.Join` puts exactly one separator between consecutive parts. -/
theorem Join_eq_joinWith (elems : List GoString) (sep : GoString) :
    Join elems sep = joinWith sep elems := by
  cases elems with
  | nil => rfl
  | cons e rest =>
    cases rest with
    | nil => rfl
    | cons y ys =>
      show List.foldl (fun b s => b ++ sep ++ s) e (y :: ys) = joinWith sep (e :: y :: ys)
      rw [foldl_join]
      rfl

theorem depthVals_strs (xs : List GoString) : depthVals (xs.map Val.str) = 0 := by
  induction xs with
  | nil => rfl
  | cons x xs ih => simp [depthVals, Val.depth, ih]

theorem argsVal_depth (a : Option (List GoString)) : (argsVal a).depth = argsDepth a := by
  cases a with
  | none => rfl
  | some xs => simp [argsVal, Val.depth, depthVals_strs, argsDepth]

theorem generic_depth (o : printOutput) :
    o.generic.depth = max (argsDepth o.Args) o.Inner.depth + 1 := by
  simp only [printOutput.generic, Val.depth, depthEntries, argsVal_depth]
  omega

theorem genericOf_depth (v : Val) (h : Chained v) : (genericOf v).depth = v.depth := by
  rcases h with ⟨s, rfl⟩ | ⟨o, rfl, _⟩
  · rfl
  · rw [printOutput.toVal, genericOf, generic_depth, Val.depth]

/-- The values `Debug.E` stores in `Inner` always encode, and their text decodes into an
`any` as `genericOf` says. -/
theorem chained_toJSON (v : Val) (h : Chained v) :
    ∃ ji, v.toJSON = some ji ∧ ji.WF ∧ fromJSON ji.norm = some (genericOf v) ∧
      (genericOf v).Decoded := by
  rcases h with ⟨s, rfl⟩ | ⟨o, rfl, ho⟩
  · exact ⟨.str s, rfl, trivial, rfl, sanitize_sanitize s⟩
  · obtain ⟨j0, h1, h2, h3⟩ := decoded_toJSON o.Inner ho.2.2.2
    refine ⟨o.json j0, ?_, json_wf _ _ (parsed_wf j0 h2), ?_, ?_⟩
    · rw [printOutput.toVal, Val.toJSON, h1]
      rfl
    · rw [json_norm_decoded o j0 ho (parsed_norm j0 h2)]
      exact fromJSON_json o j0 o.Inner h3
    · exact generic_decoded o ho

/-- The record read back from the output of `Debug.E` is a decoded struct. -/
theorem decoded_isDecoded (d : Debug) (caller : Option Text) (t : GoString)
    (msg : List GoString) : (d.decoded caller t msg).Decoded := by
  obtain ⟨_, _, _, _, h4⟩ := chained_toJSON (innerOf t) (innerOf_chained t)
  refine ⟨sanitize_ofText _, ?_, sanitize_sanitize _, h4⟩
  intro xs hx s hs
  simp only [Debug.decoded, Option.some.injEq] at hx
  subst hx
  obtain ⟨u, _, rfl⟩ := List.mem_map.1 hs
  exact sanitize_sanitize u

/-- The text `Debug.E` returns for a non-nil error when all arguments render, with all a
reader can decode from it: the text is what `json.Marshal` writes for the assembled record;
it parses (without nesting limit) to the object of the record's fields as they come back
from JSON; as an `any` it is the map of the four fields; as a `printOutput` it has the four
fields; its nesting depth is the depth of the stored value plus one; and `json.Unmarshal`
accepts it exactly when that depth is within `maxNestingDepth`. -/
theorem E_decode (d : Debug) (caller : Option Text) (t : GoString) (msg : List GoString)
    (hA : rendersAll d.A = true) :
    ∃ text ji, d.E caller (.text t) msg = some (ofText text) ∧
      (innerOf t).toJSON = some ji ∧
      Marshal (d.record caller t msg).toVal = some text ∧
      text = ((d.record caller t msg).json ji).render ∧
      parseJSON none text = some ((d.decoded caller t msg).json ji.norm) ∧
      fromJSON ji.norm = some (genericOf (innerOf t)) ∧
      decodeAny (ofText text) = some (d.decoded caller t msg).generic ∧
      decodeRecord (ofText text) = some (d.decoded caller t msg) ∧
      nestingDepth (ofText text) = max 1 (innerOf t).depth + 1 ∧
      Unmarshal (ofText text) = (if nestingDepth (ofText text) ≤ maxNestingDepth then
        some (d.decoded caller t msg) else none) := by
  obtain ⟨ji, h1, h2, h3, h4⟩ := chained_toJSON (innerOf t) (innerOf_chained t)
  have hw : ((d.record caller t msg).json ji).WF := json_wf _ _ h2
  have hm : Marshal (d.record caller t msg).toVal =
      some ((d.record caller t msg).json ji).render := by
    unfold Marshal printOutput.toVal
    rw [Val.toJSON]
    have : (d.record caller t msg).Inner = innerOf t := rfl
    rw [this, h1]
    rfl
  have hn : ((d.record caller t msg).json ji).norm = (d.decoded caller t msg).json ji.norm := by
    rw [json_norm]
    simp only [printOutput.json, Debug.record, Debug.decoded, sanitize_ofText,
      Join_eq_joinWith, Option.map_some']
  have hp : parseJSON none ((d.record caller t msg).json ji).render =
      some ((d.decoded caller t msg).json ji.norm) := by
    rw [parseJSON_render none _ hw, hn]
    rfl
  have hdep : ((d.decoded caller t msg).json ji.norm).depth = max 1 (innerOf t).depth + 1 := by
    rw [json_depth, norm_depth, toJSON_depth _ _ h1]
    rfl
  have hds : decodeStruct ((d.decoded caller t msg).json ji.norm) =
      some (d.decoded caller t msg) :=
    decodeStruct_json _ _ _ _ ji.norm _ h3
  refine ⟨_, ji, ?_, h1, hm, rfl, hp, h3, ?_, ?_, ?_, ?_⟩
  · rw [E_eq d caller t msg hA, structString_plain_some hm]
  · unfold decodeAny
    rw [toValid_ofText, hp]
    exact fromJSON_json (d.decoded caller t msg) ji.norm _ h3
  · unfold decodeRecord
    rw [toValid_ofText, hp]
    exact hds
  · unfold nestingDepth
    rw [toValid_ofText, hp]
    exact hdep
  · have hnd : nestingDepth (ofText ((d.record caller t msg).json ji).render) =
        ((d.record caller t msg).json ji).depth := by
      unfold nestingDepth
      rw [toValid_ofText, hp, ← hn]
      exact norm_depth _
    unfold Unmarshal
    rw [toValid_ofText, parseJSON_render _ _ hw, hnd]
    by_cases hle : ((d.record caller t msg).json ji).depth ≤ maxNestingDepth
    · have : depthOk (some maxNestingDepth) ((d.record caller t msg).json ji).depth = true := by
        simp [depthOk, hle]
      rw [if_pos this, if_pos hle, hn]
      exact hds
    · have : ¬ depthOk (some maxNestingDepth) ((d.record caller t msg).json ji).depth = true := by
        simp [depthOk, hle]
      rw [if_neg this, if_neg hle]

theorem nestArr_wf (n : Nat) : (nestArr n).WF := by
  induction n with
  | zero => trivial
  | succ n ih => exact ⟨ih, trivial⟩

theorem nestArr_depth (n : Nat) : (nestArr n).depth = n + 1 := by
  induction n with
  | zero => rfl
  | succ n ih => simp [nestArr, JSON.depth, depthElems, ih]

theorem nestSlice_depth (n : Nat) : (nestSlice n).depth = n + 1 := by
  induction n with
  | zero => rfl
  | succ n ih => simp [nestSlice, Val.depth, depthVals, ih]

theorem fromJSON_nestArr (n : Nat) : fromJSON (nestArr n) = some (nestSlice n) := by
  induction n with
  | zero => rfl
  | succ n ih => simp only [nestArr, fromJSON, fromJSONElems, ih, nestSlice]

theorem nestArr_norm (n : Nat) : (nestArr n).norm = nestArr n := by
  induction n with
  | zero => rfl
  | succ n ih => simp only [nestArr, JSON.norm, normElems, ih]

theorem lookup_inner (a f i m : Val) :
    List.lookup keyInner [(keyArgs, a), (keyFnName, f), (keyInner, i), (keyMsg, m)] = some i := by
  rfl

/-- A wrapped error whose text is a JSON object nested exactly `n + 2` deep, within the
limit, is stored as a `printOutput`, and the output of `Debug.E` is one level deeper. -/
theorem Unmarshal_nest (n : Nat) (h : n + 2 ≤ maxNestingDepth) :
    Unmarshal (ofText (JSON.obj [(keyInner, nestArr n)]).render) =
      some ⟨[], none, [], nestSlice n⟩ := by
  have hw : (JSON.obj [(keyInner, nestArr n)]).WF := ⟨nestArr_wf n, trivial⟩
  have hd : (JSON.obj [(keyInner, nestArr n)]).depth = n + 2 := by
    simp [JSON.depth, depthMembers, nestArr_depth]
  unfold Unmarshal
  rw [toValid_ofText, parseJSON_render _ _ hw, hd, if_pos (by simp [depthOk, h])]
  have e4 : ∀ st j, decodeMember st keyInner j =
      match fromJSON j with
      | some v => some { st with o := { st.o with Inner := v } }
      | none => none := fun _ _ => rfl
  simp only [JSON.norm, normMembers, nestArr_norm, decodeStruct, decodeMembers, e4,
    fromJSON_nestArr]
  rfl

/-- When `Debug.E` returns, every argument rendered. -/
theorem rendersAll_of_E {d : Debug} {caller : Option Text} {err : GoError}
    {msg : List GoString} {t : GoString} (h : d.E caller err msg = some t) :
    rendersAll d.A = true := by
  cases hA : rendersAll d.A with
  | true => rfl
  | false =>
    rw [E_none d caller err msg hA] at h
    cases h

/-- C1 (amended): round-trip chaining. For every error `e1` returned by `Debug.E` (any
arguments, message and non-nil wrapped error) whose text is nested at most
`maxNestingDepth` (10000) deep, and for every receiver, caller and message of the second
call (a call that returns: the receiver's arguments all render, as every list of plain data
values does), the text of `e2 = E(e1, ...)` decodes as JSON to an object whose `inner`
value equals the JSON value obtained by decoding the text of `e1`. -/
theorem C1_roundtrip_chaining (d1 d2 : Debug) (c1 c2 : Option Text) (t0 : GoString)
    (msg1 msg2 : List GoString) (t1 : GoString) (h1 : d1.E c1 (.text t0) msg1 = some t1)
    (hd : nestingDepth t1 ≤ maxNestingDepth) (h2 : rendersAll d2.A = true) :
    ∃ t2 kvs v1, d2.E c2 (.text t1) msg2 = some t2 ∧ decodeAny t2 = some (.map kvs) ∧
      decodeAny t1 = some v1 ∧ kvs.lookup keyInner = some v1 := by
  obtain ⟨x1, j1, e1, _, _, _, _, _, a1, _, _, u1⟩ :=
    E_decode d1 c1 t0 msg1 (rendersAll_of_E h1)
  rw [h1] at e1
  cases e1
  rw [if_pos hd] at u1
  obtain ⟨x2, j2, e2, _, _, _, _, _, a2, _, _, _⟩ := E_decode d2 c2 (ofText x1) msg2 h2
  have hi : innerOf (ofText x1) = (d1.decoded c1 t0 msg1).toVal := by
    unfold innerOf
    rw [u1]
  refine ⟨_, _, _, e2, a2, a1, ?_⟩
  unfold Debug.decoded
  rw [hi]
  exact lookup_inner _ _ _ _

/-- C1 (witness): the amended theorem at a concrete chain, `disk full` wrapped twice. -/
theorem C1_roundtrip_chaining_witness :
    ∃ t1, (Debug.mk [.plain (.str (ofText ['x']))]).E (some ['f'])
        (.text (ofText "disk full".toList)) [ofText ['m', '1']] = some t1 ∧
      nestingDepth t1 ≤ maxNestingDepth ∧ rendersAll (Debug.mk []).A = true ∧
      ∃ t2 kvs v1, (Debug.mk []).E none (.text t1) [ofText ['m', '2']] = some t2 ∧
        decodeAny t2 = some (.map kvs) ∧ decodeAny t1 = some v1 ∧
        kvs.lookup keyInner = some v1 :=
  ⟨_, rfl, by decide, rfl,
    C1_roundtrip_chaining (Debug.mk [.plain (.str (ofText ['x']))]) (Debug.mk []) (some ['f'])
      none (ofText "disk full".toList) [ofText ['m', '1']] [ofText ['m', '2']] _ rfl
      (by decide) rfl⟩

/-- Wrapping an error whose text is a JSON object nested exactly `maxNestingDepth` deep:
the output of the first call is nested one level deeper, `json.Unmarshal` refuses it, and
the second call stores it as a plain string. -/
theorem chain_breaks (n : Nat) (hn : n + 2 = maxNestingDepth) :
    ∃ t1 t2 kvs,
      (Debug.mk []).E none (.text (ofText (JSON.obj [(keyInner, nestArr n)]).render)) [] =
        some t1 ∧
      (Debug.mk []).E none (.text t1) [ofText ['m', '2']] = some t2 ∧
      decodeAny t2 = some (.map kvs) ∧ kvs.lookup keyInner = some (.str t1) ∧
      kvs.lookup keyInner ≠ decodeAny t1 := by
  obtain ⟨x1, j1, e1, _, _, _, _, _, a1, _, n1, u1⟩ :=
    E_decode (Debug.mk []) none (ofText (JSON.obj [(keyInner, nestArr n)]).render) [] rfl
  have hi0 : innerOf (ofText (JSON.obj [(keyInner, nestArr n)]).render) =
      (⟨[], none, [], nestSlice n⟩ : printOutput).toVal := by
    unfold innerOf
    rw [Unmarshal_nest n (by omega)]
  have hdep : nestingDepth (ofText x1) = n + 3 := by
    rw [n1, hi0, printOutput.toVal, Val.depth, nestSlice_depth]
    simp only [argsDepth]
    omega
  have hu : Unmarshal (ofText x1) = none := by
    rw [u1, hdep, if_neg (by omega)]
  obtain ⟨x2, j2, e2, _, _, _, _, _, a2, _, _, _⟩ :=
    E_decode (Debug.mk []) none (ofText x1) [ofText ['m', '2']] rfl
  have hi : innerOf (ofText x1) = .str (ofText x1) := by
    unfold innerOf
    rw [hu]
  refine ⟨_, _, _, e1, e2, a2, ?_, ?_⟩
  · unfold Debug.decoded
    rw [hi, genericOf, sanitize_ofText]
    exact lookup_inner _ _ _ _
  · unfold Debug.decoded
    rw [hi, genericOf, sanitize_ofText, lookup_inner, a1]
    intro h
    cases h

/-- C1 (counterexample): wrap an error whose text is `deepText`, a JSON object nested
exactly 10000 deep. The first call stores it as a record, so `e1`'s text is nested 10001
deep; the second call's `json.Unmarshal` refuses that text, and `inner` of `e2` is the text
of `e1` as a string, not the JSON value that text decodes to. -/
theorem C1_counterexample :
    ∃ t1 t2 kvs, (Debug.mk []).E none (.text deepText) [] = some t1 ∧
      (Debug.mk []).E none (.text t1) [ofText ['m', '2']] = some t2 ∧
      decodeAny t2 = some (.map kvs) ∧ kvs.lookup keyInner = some (.str t1) ∧
      kvs.lookup keyInner ≠ decodeAny t1 :=
  chain_breaks 9998 rfl

theorem toVal_depth (p : printOutput) :
    p.toVal.depth = max (argsDepth p.Args) p.Inner.depth + 1 := rfl

/-- The invariant of a chain of at most `maxNestingDepth` calls on a base error that is no
record: the text decodes to the layers of the chain, it is nested one deeper than the
number of calls, and `json.Unmarshal` accepts it as long as that is within the limit. -/
theorem chain_inv (base : GoString) (hb : Unmarshal base = none) :
    ∀ (cs : List Call), cs ≠ [] → cs.length ≤ maxNestingDepth →
      (∀ c ∈ cs, rendersAll c.d.A = true) →
      ∃ t p, chainE base cs = some t ∧ decodeAny t = some (layers base cs) ∧
        p.generic = layers base cs ∧ p.Decoded ∧ p.toVal.depth = cs.length + 1 ∧
        nestingDepth t = cs.length + 1 ∧
        Unmarshal t = if nestingDepth t ≤ maxNestingDepth then some p else none
  | [], h, _, _ => absurd rfl h
  | [c], _, _, hr => by
    obtain ⟨x, ji, e, _, _, _, _, _, a, _, n, u⟩ :=
      E_decode c.d c.caller base c.msg (hr c (List.mem_cons_self _ _))
    have hd := decoded_isDecoded c.d c.caller base c.msg
    have hi : innerOf base = .str base := by
      unfold innerOf
      rw [hb]
    have hp : c.d.decoded c.caller base c.msg =
        ⟨ofText (callerName c.caller), some ((c.d.A.map argSlot).map sanitize),
          sanitize (joinWith [.rune ' '] c.msg), .str (sanitize base)⟩ := by
      unfold Debug.decoded
      rw [hi]
      rfl
    rw [hp] at a u hd
    rw [hi] at n
    refine ⟨ofText x, ⟨ofText (callerName c.caller), some ((c.d.A.map argSlot).map sanitize),
      sanitize (joinWith [.rune ' '] c.msg), .str (sanitize base)⟩, ?_, a, rfl, hd, rfl, n, u⟩
    simp only [chainE]
    exact e
  | c :: c1 :: cs, _, hl, hr => by
    obtain ⟨t1, p1, e1, a1, g1, d1, v1, n1, u1⟩ :=
      chain_inv base hb (c1 :: cs) (List.cons_ne_nil _ _)
        (by simp only [List.length_cons] at hl ⊢; omega)
        (fun c0 h0 => hr c0 (List.mem_cons_of_mem _ h0))
    have hle : nestingDepth t1 ≤ maxNestingDepth := by
      rw [n1]
      simp only [List.length_cons] at hl ⊢
      omega
    rw [if_pos hle] at u1
    obtain ⟨x, ji, e, _, _, _, _, _, a, _, n, u⟩ :=
      E_decode c.d c.caller t1 c.msg (hr c (List.mem_cons_self _ _))
    have hd := decoded_isDecoded c.d c.caller t1 c.msg
    have hi : innerOf t1 = p1.toVal := by
      unfold innerOf
      rw [u1]
    have hp : c.d.decoded c.caller t1 c.msg =
        ⟨ofText (callerName c.caller), some ((c.d.A.map argSlot).map sanitize),
          sanitize (joinWith [.rune ' '] c.msg), layers base (c1 :: cs)⟩ := by
      unfold Debug.decoded
      rw [hi, ← g1]
      rfl
    rw [hp] at a u hd
    rw [hi, v1] at n
    refine ⟨ofText x, ⟨ofText (callerName c.caller), some ((c.d.A.map argSlot).map sanitize),
      sanitize (joinWith [.rune ' '] c.msg), layers base (c1 :: cs)⟩, ?_, a, rfl, hd, ?_, ?_,
      u⟩
    · simp only [chainE] at e1 ⊢
      rw [e1]
      exact e
    · rw [toVal_depth]
      simp only [argsDepth]
      rw [← g1, generic_depth, ← toVal_depth, v1]
      simp only [List.length_cons]
      omega
    · rw [n]
      simp only [List.length_cons]
      omega

/-- C2 (amended): lossless history up to the decoder's nesting limit and up to the coercion
of strings to valid UTF-8. For every chain of `n` calls of `Debug.E` with `1 ≤ n ≤ 10000`
(`maxNestingDepth`) on a non-nil base error whose text does not decode as a record, each
call with arguments that render, the final text decodes as JSON to `n` nested records: the
layer of each call has its caller identity as `fn_name`, its joined message as `msg` and
its rendered argument list as `args`, and the innermost `inner` is the base error's text
as a plain string, in each of these strings every byte that is not valid UTF-8 replaced by
U+FFFD (`sanitize`, which leaves a string of valid UTF-8 as it is). -/
theorem C2_lossless_history (base : GoString) (cs : List Call) (hb : Unmarshal base = none)
    (h1 : 1 ≤ cs.length) (hn : cs.length ≤ maxNestingDepth)
    (hr : ∀ c ∈ cs, rendersAll c.d.A = true) :
    ∃ t, chainE base cs = some t ∧ decodeAny t = some (layers base cs) := by
  have hne : cs ≠ [] := by
    rintro rfl
    simp at h1
  obtain ⟨t, _, e, a, _⟩ := chain_inv base hb cs hne hn hr
  exact ⟨t, e, a⟩

/-- C2 (witness): the amended theorem on a chain of two calls wrapping `disk full`. -/
theorem C2_lossless_history_witness :
    Unmarshal (ofText "disk full".toList) = none ∧
    1 ≤ [Call.mk (Debug.mk []) none [ofText ['m', '2']],
      Call.mk (Debug.mk [.plain (.str (ofText ['x']))]) (some ['f'])
        [ofText ['m', '1']]].length ∧
    ∃ t, chainE (ofText "disk full".toList) [Call.mk (Debug.mk []) none [ofText ['m', '2']],
        Call.mk (Debug.mk [.plain (.str (ofText ['x']))]) (some ['f'])
          [ofText ['m', '1']]] = some t ∧
      decodeAny t = some (layers (ofText "disk full".toList)
        [Call.mk (Debug.mk []) none [ofText ['m', '2']],
        Call.mk (Debug.mk [.plain (.str (ofText ['x']))]) (some ['f']) [ofText ['m', '1']]]) :=
  ⟨rfl, by decide,
    C2_lossless_history (ofText "disk full".toList) _ rfl (by decide) (by decide)
      (by
        intro c hc
        simp only [List.mem_cons, List.mem_singleton, List.not_mem_nil, or_false] at hc
        rcases hc with rfl | rfl <;> rfl)⟩

theorem layersExact_ne_str (base : GoString) (cs : List Call) (h : cs ≠ []) (s : GoString) :
    layersExact base cs ≠ .str s := by
  cases cs with
  | nil => exact absurd rfl h
  | cons c cs =>
    intro e
    cases e

/-- One call more than `maxNestingDepth`: the text of the chain so far is refused by
`json.Unmarshal`, and the last call stores it as a plain string. -/
theorem chain_too_deep (base : GoString) (hb : Unmarshal base = none) (c : Call)
    (cs : List Call) (hl : cs.length = maxNestingDepth)
    (hr : ∀ c0 ∈ c :: cs, rendersAll c0.d.A = true) :
    ∃ t, chainE base (c :: cs) = some t ∧
      decodeAny t ≠ some (layersExact base (c :: cs)) := by
  have hne : cs ≠ [] := by
    rintro rfl
    simp [maxNestingDepth] at hl
  obtain ⟨t1, p1, e1, a1, g1, d1, v1, n1, u1⟩ :=
    chain_inv base hb cs hne (by omega) (fun c0 h0 => hr c0 (List.mem_cons_of_mem _ h0))
  rw [if_neg (by omega)] at u1
  obtain ⟨x, ji, e, _, _, _, _, _, a, _, n, u⟩ :=
    E_decode c.d c.caller t1 c.msg (hr c (List.mem_cons_self _ _))
  have hi : innerOf t1 = .str t1 := by
    unfold innerOf
    rw [u1]
  refine ⟨ofText x, ?_, ?_⟩
  · simp only [chainE]
    rw [e1]
    exact e
  · rw [a]
    intro h
    unfold Debug.decoded at h
    rw [hi] at h
    simp only [layersExact, printOutput.generic, genericOf, Option.some.injEq, Val.map.injEq,
      List.cons.injEq, Prod.mk.injEq, true_and, and_true] at h
    exact layersExact_ne_str base cs hne _ h.2.1.symm

/-- The text of `errors.New("bad\xffutf8")` is read back with U+FFFD for the byte 0xFF. -/
theorem sanitize_badText : sanitize badText = badTextRead := rfl

/-- C2 (counterexample): two chains on which the decoded history is not the one the claim
describes. First, 10001 calls on the base error `x`: the text after 10000 calls is nested
10001 deep, `json.Unmarshal` refuses it, and the last call stores it as a plain string, so
the final text is one record whose `inner` is a string, not 10001 nested records. Second,
one call with the message `"\xff"` on the base error `errors.New("bad\xffutf8")`: the
decoded `msg` and `inner` hold U+FFFD in place of the byte 0xFF and so differ from the
message and the base error's text. -/
theorem C2_counterexample :
    (Unmarshal (ofText ['x']) = none ∧
      ∃ t, chainE (ofText ['x']) (plainCall :: List.replicate 10000 plainCall) = some t ∧
        decodeAny t ≠
          some (layersExact (ofText ['x']) (plainCall :: List.replicate 10000 plainCall))) ∧
    (Unmarshal badText = none ∧
      ∃ t, chainE badText [Call.mk (Debug.mk []) none [badByte]] = some t ∧
        decodeAny t = some (.map [(keyArgs, .slice []),
          (keyFnName, .str (ofText "unknown".toList)), (keyInner, .str badTextRead),
          (keyMsg, .str [.rune replacementChar])]) ∧
        decodeAny t ≠ some (layersExact badText [Call.mk (Debug.mk []) none [badByte]])) :=
  ⟨⟨rfl, chain_too_deep (ofText ['x']) rfl plainCall (List.replicate 10000 plainCall)
      (List.length_replicate _ _)
      (by
        intro c hc
        have : c = plainCall := by
          rcases List.mem_cons.1 hc with h | h
          · exact h
          · exact List.eq_of_mem_replicate h
        rw [this]
        rfl)⟩,
    by
      obtain ⟨t, _, e, a, _⟩ := chain_inv badText rfl [Call.mk (Debug.mk []) none [badByte]]
        (List.cons_ne_nil _ _) (by decide)
        (by
          intro c hc
          rw [List.mem_singleton] at hc
          rw [hc]
          rfl)
      refine ⟨rfl, t, e, a, ?_⟩
      rw [a]
      intro h
      simp only [layers, layersExact, Option.some.injEq, Val.map.injEq, List.cons.injEq,
        Prod.mk.injEq, Val.str.injEq, true_and, and_true] at h
      exact absurd h.2.1 (by decide)⟩

theorem renderArg_none_iff (c : Any) :
    renderArg c = none ↔ isContext c = false ∧ StructString c = none := by
  unfold renderArg
  cases h : isContext c <;> simp

theorem rendersAll_false_iff (A : List Any) :
    rendersAll A = false ↔ ∃ a ∈ A, isContext a = false ∧ StructString a = none := by
  induction A with
  | nil => simp [rendersAll]
  | cons c A ih =>
    rw [rendersAll_cons, Bool.and_eq_false_iff, ih]
    constructor
    · rintro (h | ⟨a, ha, h⟩)
      · refine ⟨c, List.mem_cons_self _ _, (renderArg_none_iff c).1 ?_⟩
        cases hr : renderArg c with
        | none => rfl
        | some s => rw [hr] at h; cases h
      · exact ⟨a, List.mem_cons_of_mem _ ha, h⟩
    · rintro ⟨a, ha, h⟩
      rcases List.mem_cons.1 ha with rfl | ha
      · left
        rw [(renderArg_none_iff a).2 h]
        rfl
      · exact Or.inr ⟨a, ha, h⟩

theorem rendersAll_true_iff (A : List Any) :
    rendersAll A = true ↔ ∀ a ∈ A, isContext a = true ∨ ∃ s, StructString a = some s := by
  constructor
  · intro h a ha
    cases hc : isContext a with
    | true => exact Or.inl rfl
    | false =>
      right
      cases hs : StructString a with
      | some s => exact ⟨s, rfl⟩
      | none =>
        have := (rendersAll_false_iff A).2 ⟨a, ha, hc, hs⟩
        rw [h] at this
        cases this
  · intro h
    cases hr : rendersAll A with
    | true => rfl
    | false =>
      obtain ⟨a, ha, hc, hs⟩ := (rendersAll_false_iff A).1 hr
      rcases h a ha with h1 | ⟨s, h1⟩
      · rw [hc] at h1; cases h1
      · rw [hs] at h1; cases h1

/-- For arguments that all render, the slot of each is its rendering. -/
theorem renderArg_argSlot {A : List Any} (hA : rendersAll A = true) :
    ∀ a ∈ A, renderArg a = some (argSlot a) := by
  intro a ha
  unfold rendersAll at hA
  rw [List.all_eq_true] at hA
  obtain ⟨s, hs⟩ := Option.isSome_iff_exists.1 (hA a ha)
  rw [argSlot, hs]
  rfl

/-- C3 (amended): unchained wrap. For every non-nil error whose `Error()` returns a text
that fails structured decoding into the record shape, and every argument list whose
arguments render, `Debug.E` returns normally, and its text decodes (with `json.Unmarshal`)
to a record with `fn_name` the caller identity, `msg` the message parts joined by single
spaces, `args` the rendered argument list and `inner` the wrapped error's text as a plain
string, where in `msg`, `args` and `inner` every byte that is not valid UTF-8 is replaced
by U+FFFD (`sanitize`, which leaves valid UTF-8 as it is). -/
theorem C3_unchained_wrap (d : Debug) (caller : Option Text) (t : GoString)
    (msg : List GoString) (h : Unmarshal t = none) (hA : rendersAll d.A = true) :
    ∃ text, d.E caller (.text t) msg = some text ∧
      (∀ a ∈ d.A, renderArg a = some (argSlot a)) ∧
      Unmarshal text = some ⟨ofText (callerName caller), some ((d.A.map argSlot).map sanitize),
        sanitize (joinWith [.rune ' '] msg), .str (sanitize t)⟩ := by
  obtain ⟨text, ji, e, _, _, _, _, _, _, _, n, u⟩ := E_decode d caller t msg hA
  have hi : innerOf t = .str t := by
    unfold innerOf
    rw [h]
  have hp : d.decoded caller t msg = ⟨ofText (callerName caller),
      some ((d.A.map argSlot).map sanitize), sanitize (joinWith [.rune ' '] msg),
      .str (sanitize t)⟩ := by
    unfold Debug.decoded
    rw [hi]
    rfl
  rw [hi] at n
  rw [hp] at u
  have hn : nestingDepth (ofText text) ≤ maxNestingDepth := by
    rw [n]
    exact (by decide : max 1 0 + 1 ≤ maxNestingDepth)
  rw [if_pos hn] at u
  exact ⟨_, e, renderArg_argSlot hA, u⟩

/-- C3 (witness): wrapping `errors.New("disk full")` with parts `writing`, `file`,
arguments `["x"]` and caller `pkg.Save` gives `fn_name` `pkg.Save`, `msg` `writing file`,
`args` `["\"x\""]` and `inner` `disk full`. -/
theorem C3_unchained_wrap_witness :
    Unmarshal (ofText "disk full".toList) = none ∧
    rendersAll (Debug.mk [.plain (.str (ofText ['x']))]).A = true ∧
    ∃ text, (Debug.mk [.plain (.str (ofText ['x']))]).E (some "pkg.Save".toList)
        (.text (ofText "disk full".toList))
        [ofText "writing".toList, ofText "file".toList] = some text ∧
      (∀ a ∈ (Debug.mk [.plain (.str (ofText ['x']))]).A, renderArg a = some (argSlot a)) ∧
      Unmarshal text = some ⟨ofText "pkg.Save".toList, some [ofText "\"x\"".toList],
        ofText "writing file".toList, .str (ofText "disk full".toList)⟩ :=
  ⟨rfl, rfl, C3_unchained_wrap (Debug.mk [.plain (.str (ofText ['x']))])
    (some "pkg.Save".toList) (ofText "disk full".toList)
    [ofText "writing".toList, ofText "file".toList] rfl rfl⟩

/-- C3 (counterexample): two inputs of the original claim on which it fails. Wrapping
`errors.New("bad\xffutf8")`, whose text is no JSON: the decoded `inner` holds U+FFFD in
place of the byte 0xFF, so it is not the wrapped error's text. Wrapping
`errors.New("disk full")` with an argument whose `MarshalJSON` panics: `Debug.E` does not
return normally. -/
theorem C3_counterexample :
    (Unmarshal badText = none ∧
      ∃ text o, (Debug.mk []).E none (.text badText) [] = some text ∧
        Unmarshal text = some o ∧ o.Inner = .str badTextRead ∧ o.Inner ≠ .str badText) ∧
    (Unmarshal (ofText "disk full".toList) = none ∧
      (Debug.mk [panicMarshaler]).E none (.text (ofText "disk full".toList)) [] = none) :=
  ⟨⟨rfl, _, _, rfl, rfl, rfl, by
      intro h
      simp only [Val.str.injEq] at h
      exact absurd h (by decide)⟩, rfl, rfl⟩

/-- C4 (the code at the failing input): with a nil wrapped error `Debug.E` panics, whatever
the arguments, the caller and the message; it never returns the `nil err` record. -/
theorem C4_nil_error_panics (d : Debug) (caller : Option Text) (msg : List GoString) :
    d.E caller .nil msg = none := rfl

/-- C5 (amended): the failure conditions of `Debug.E`. For every argument list, caller and
message, `Debug.E` fails to return if and only if the wrapped error is nil, or the error's
`Error()` panics, or `StructString` does not return on some argument that is not a
context (a marshalling method of the argument panics, or fmt does not come back). In every
other case, that is for every non-nil error whose `Error()` returns a text and every
argument list whose arguments render, it returns an error value, whose text is the JSON
encoding of the assembled record: a text that fails structured decoding and an argument
that json cannot encode are absorbed. -/
theorem C5_failure_conditions (d : Debug) (caller : Option Text) (msg : List GoString) :
    (∀ err, d.E caller err msg = none ↔
      (err = .nil ∨ err = .panics ∨
        ∃ a ∈ d.A, isContext a = false ∧ StructString a = none)) ∧
    (∀ t, (∀ a ∈ d.A, isContext a = true ∨ ∃ s, StructString a = some s) →
      ∃ text, d.E caller (.text t) msg = some (ofText text) ∧
        Marshal (d.record caller t msg).toVal = some text ∧
        decodeRecord (ofText text) = some (d.decoded caller t msg)) := by
  constructor
  · intro err
    cases err with
    | nil => exact ⟨fun _ => Or.inl rfl, fun _ => rfl⟩
    | panics => exact ⟨fun _ => Or.inr (Or.inl rfl), fun _ => rfl⟩
    | text t =>
      constructor
      · intro h
        right
        right
        apply (rendersAll_false_iff d.A).1
        cases hA : rendersAll d.A with
        | false => rfl
        | true =>
          obtain ⟨text, _, e, _⟩ := E_decode d caller t msg hA
          rw [e] at h
          cases h
      · rintro (h | h | h)
        · cases h
        · cases h
        · exact E_none d caller _ msg ((rendersAll_false_iff d.A).2 h)
  · intro t hA
    obtain ⟨text, _, e, _, hm, _, _, _, _, hr, _⟩ :=
      E_decode d caller t msg ((rendersAll_true_iff d.A).2 hA)
    exact ⟨text, e, hm, hr⟩

/-- C5 (witness): wrapping `errors.New("bad\xffutf8")`, a text that is no JSON, with the
argument `[]any{func(){}, "\xff"}`, which json cannot encode: the call returns. -/
theorem C5_failure_conditions_witness :
    (∀ a ∈ (Debug.mk [badSlice]).A, isContext a = true ∨ ∃ s, StructString a = some s) ∧
    ∃ text, (Debug.mk [badSlice]).E none (.text badText) [] = some (ofText text) ∧
      Marshal ((Debug.mk [badSlice]).record none badText []).toVal = some text ∧
      decodeRecord (ofText text) = some ((Debug.mk [badSlice]).decoded none badText []) :=
  ⟨fun a ha => by
      rw [List.mem_singleton.1 ha]
      exact Or.inr ⟨_, rfl⟩,
    (C5_failure_conditions (Debug.mk [badSlice]) none []).2 badText (fun a ha => by
      rw [List.mem_singleton.1 ha]
      exact Or.inr ⟨_, rfl⟩)⟩

/-- C5 (counterexample): three calls with a non-nil wrapped error that do not return: an
error whose `Error()` panics; an argument whose `MarshalJSON` panics; an argument that is a
map containing itself, on which `fmt.Sprintf("%+v", ..)` does not come back. -/
theorem C5_counterexample :
    GoError.panics ≠ GoError.nil ∧ (Debug.mk []).E none .panics [] = none ∧
    (Debug.mk [panicMarshaler]).E none (.text (ofText "disk full".toList)) [] = none ∧
    (Debug.mk [selfMap]).E none (.text (ofText "disk full".toList)) [] = none :=
  ⟨fun h => GoError.noConfusion h, rfl, rfl, rfl⟩

/-- C6 (amended): context masking and order. For every argument list `A` whose arguments
render and every non-nil wrapped error whose text can be read, the top-level `args`
decoded from the output of `Debug.E` has the length of `A`, and at every index it holds
exactly `ctx` when the argument is a context-carrying value and otherwise
`StructString` of the argument with every byte that is not valid UTF-8 replaced by U+FFFD
(`sanitize`, which leaves valid UTF-8 as it is): nothing is reordered, dropped or
deduplicated. -/
theorem C6_context_masking (d : Debug) (caller : Option Text) (t : GoString)
    (msg : List GoString) (hA : rendersAll d.A = true) :
    ∃ text o args, d.E caller (.text t) msg = some text ∧ decodeRecord text = some o ∧
      o.Args = some args ∧ args.length = d.A.length ∧
      ∀ (i : Nat) (a : Any), d.A[i]? = some a →
        (isContext a = true → args[i]? = some ctxText) ∧
        (isContext a = false →
          ∃ s, StructString a = some s ∧ args[i]? = some (sanitize s)) := by
  obtain ⟨text, ji, e, _, _, _, _, _, _, r, _, _⟩ := E_decode d caller t msg hA
  refine ⟨_, _, (d.A.map argSlot).map sanitize, e, r, rfl, ?_, ?_⟩
  · rw [List.length_map, List.length_map]
  · intro i a hi
    have hm : a ∈ d.A := List.mem_iff_getElem?.2 ⟨i, hi⟩
    have hs := renderArg_argSlot hA a hm
    have hg : ((d.A.map argSlot).map sanitize)[i]? = some (sanitize (argSlot a)) := by
      rw [List.getElem?_map, List.getElem?_map, hi]
      rfl
    unfold renderArg at hs
    constructor
    · intro hc
      rw [hc] at hs
      simp only [if_true, Option.some.injEq] at hs
      rw [hg, ← hs]
      rfl
    · intro hc
      rw [hc] at hs
      exact ⟨argSlot a, hs, hg⟩

/-- C6 (witness): the amended theorem for the arguments `context.Background()`, `"x"`. -/
theorem C6_context_masking_witness :
    rendersAll (Debug.mk [.plain (.ctx .nil), .plain (.str (ofText ['x']))]).A = true ∧
    ∃ text o args, (Debug.mk [.plain (.ctx .nil), .plain (.str (ofText ['x']))]).E none
        (.text (ofText "disk full".toList)) [] = some text ∧
      decodeRecord text = some o ∧ o.Args = some args ∧
      args.length = (Debug.mk [.plain (.ctx .nil), .plain (.str (ofText ['x']))]).A.length ∧
      ∀ (i : Nat) (a : Any),
        (Debug.mk [.plain (.ctx .nil), .plain (.str (ofText ['x']))]).A[i]? = some a →
        (isContext a = true → args[i]? = some ctxText) ∧
        (isContext a = false →
          ∃ s, StructString a = some s ∧ args[i]? = some (sanitize s)) :=
  ⟨rfl, C6_context_masking (Debug.mk [.plain (.ctx .nil), .plain (.str (ofText ['x']))]) none
    (ofText "disk full".toList) [] rfl⟩

/-- C6 (counterexample): the argument `[]any{func(){}, "\xff"}`. json cannot encode it, so
`StructString` gives the dump `[0x1 \xff]` with the invalid byte in it; the final
`json.Marshal` of the record replaces the byte, and the decoded slot holds U+FFFD instead:
it is not `StructString` of the argument. -/
theorem C6_counterexample :
    ∃ text o dump, (Debug.mk [badSlice]).E none (.text (ofText "disk full".toList)) [] =
        some text ∧
      decodeRecord text = some o ∧ isContext badSlice = false ∧
      StructString badSlice = some dump ∧
      dump = ofText ['[', '0', 'x', '1', ' '] ++ [.bad 0xff, .rune ']'] ∧
      o.Args = some [ofText ['[', '0', 'x', '1', ' ', replacementChar, ']']] ∧
      o.Args ≠ some [dump] :=
  ⟨_, _, _, rfl, rfl, rfl, rfl, rfl, rfl, by decide⟩

theorem toDigitsCore_ne_nil (b : Nat) : ∀ (fuel n : Nat) (ds : List Char), ds ≠ [] →
    Nat.toDigitsCore b fuel n ds ≠ []
  | 0, _, _, h => h
  | fuel + 1, n, ds, _ => by
    rw [Nat.toDigitsCore]
    split_ifs
    · exact List.cons_ne_nil _ _
    · exact toDigitsCore_ne_nil b fuel _ _ (List.cons_ne_nil _ _)

theorem toDigits_ne_nil (b n : Nat) : Nat.toDigits b n ≠ [] := by
  unfold Nat.toDigits
  rw [Nat.toDigitsCore]
  split_ifs
  · exact List.cons_ne_nil _ _
  · exact toDigitsCore_ne_nil b _ _ _ (List.cons_ne_nil _ _)

theorem intLit_ne_nil (i : Int) : intLit i ≠ [] := by
  cases i with
  | ofNat n => exact toDigits_ne_nil 10 n
  | negSucc n => exact List.cons_ne_nil _ _

theorem isFloatLit_ne_nil {lit : Text} (h : isFloatLit lit = true) : lit ≠ [] := by
  simp only [isFloatLit, Bool.and_eq_true, decide_eq_true_eq] at h
  obtain ⟨c, l, rfl, _⟩ := numberLit_head h.1
  exact List.cons_ne_nil _ _

/-- The text `json.Marshal` writes is never empty. -/
theorem toJSON_render_ne_nil : ∀ (v : Val) (j : JSON), v.toJSON = some j → j.render ≠ []
  | .nil, j, h => by cases h; exact List.cons_ne_nil _ _
  | .bool b, j, h => by cases h; cases b <;> exact List.cons_ne_nil _ _
  | .int i, j, h => by cases h; exact intLit_ne_nil i
  | .float lit, j, h => by
    rw [Val.toJSON] at h
    split_ifs at h with hf
    cases h
    exact isFloatLit_ne_nil hf
  | .str s, j, h => by cases h; exact List.cons_ne_nil _ _
  | .func _, j, h => by simp [Val.toJSON] at h
  | .ctx v, j, h => by
    rw [Val.toJSON] at h
    exact toJSON_render_ne_nil v j h
  | .slice xs, j, h => by
    rw [Val.toJSON] at h
    split at h
    · cases h
      rename_i js _
      cases js <;> exact List.cons_ne_nil _ _
    · cases h
  | .map kvs, j, h => by
    rw [Val.toJSON] at h
    split at h
    · cases h
      rename_i ms _
      cases ms with
      | nil => exact List.cons_ne_nil _ _
      | cons m ms => obtain ⟨k, x⟩ := m; exact List.cons_ne_nil _ _
    · cases h
  | .out f a m i, j, h => by
    rw [Val.toJSON] at h
    split at h
    · cases h; exact List.cons_ne_nil _ _
    · cases h

/-- The fallback text of a plain value json cannot encode is never empty. -/
theorem sprintPlusV_ne_nil : ∀ (v : Val), v.toJSON = none → sprintPlusV v ≠ []
  | .nil, h => by cases h
  | .bool _, h => by cases h
  | .int _, h => by cases h
  | .float lit, h => by
    rw [Val.toJSON] at h
    split_ifs at h with hf
    rw [sprintPlusV, if_neg hf]
    exact List.cons_ne_nil _ _
  | .str _, h => by cases h
  | .func pc, _ => by
    rw [sprintPlusV]
    split_ifs <;> exact List.cons_ne_nil _ _
  | .ctx v, h => by
    rw [Val.toJSON] at h
    rw [sprintPlusV]
    exact sprintPlusV_ne_nil v h
  | .slice _, _ => by rw [sprintPlusV]; exact List.cons_ne_nil _ _
  | .map _, _ => by rw [sprintPlusV]; exact List.cons_ne_nil _ _
  | .out _ _ _ _, _ => by rw [sprintPlusV]; exact List.cons_ne_nil _ _

theorem ofText_ne_nil {t : Text} (h : t ≠ []) : ofText t ≠ [] := by
  cases t with
  | nil => exact absurd rfl h
  | cons c t => exact List.cons_ne_nil _ _

/-- On a plain value `StructString` returns a non-empty string. -/
theorem structString_plain (p : Val) :
    ∃ s, StructString (.plain p) = some s ∧ s ≠ [] := by
  cases h : Marshal p with
  | none =>
    refine ⟨_, structString_plain_none h, ?_⟩
    unfold Marshal at h
    cases hj : p.toJSON with
    | none => exact sprintPlusV_ne_nil p hj
    | some j => rw [hj] at h; cases h
  | some s =>
    refine ⟨_, structString_plain_some h, ofText_ne_nil ?_⟩
    unfold Marshal at h
    cases hj : p.toJSON with
    | none => rw [hj] at h; cases h
    | some j =>
      rw [hj] at h
      cases h
      exact toJSON_render_ne_nil p j hj

/-- C7 (amended): the renderer. For every input value: when `json.Marshal` succeeds,
`StructString` returns exactly the serialized text, which is not empty; when
`json.Marshal` returns an error (for instance on a function value), the result is the
verbose dump `fmt.Sprintf("%+v", v)`, whatever fmt gives: a non-empty string for every
plain data value, but the empty string when the value's own `String` method returns it,
and no result when fmt does not return; and when a marshalling method of the value panics,
`StructString` does not return. -/
theorem C7_renderer (v : Any) :
    (∀ s, marshalAny v = .text s → StructString v = some (ofText s) ∧ s ≠ []) ∧
    (marshalAny v = .error → StructString v = sprintAny v) ∧
    (marshalAny v = .panic → StructString v = none) ∧
    (∀ p, v = .plain p → marshalAny v ≠ .panic ∧ ∃ s, StructString v = some s ∧ s ≠ []) ∧
    (marshalAny (.plain (.func 1)) = .error ∧
      StructString (.plain (.func 1)) = some (sprintPlusV (.func 1))) := by
  refine ⟨?_, ?_, ?_, ?_, rfl, rfl⟩
  · intro s hs
    refine ⟨by unfold StructString; rw [hs], ?_⟩
    cases v with
    | custom p dump =>
      simp only [marshalAny] at hs
      split_ifs at hs
    | plain p =>
      cases hj : p.toJSON with
      | none =>
        simp only [marshalAny, Marshal, hj] at hs
        cases hs
      | some j =>
        simp only [marshalAny, Marshal, hj, Encoded.text.injEq] at hs
        rw [← hs]
        exact toJSON_render_ne_nil p j hj
  · intro h
    unfold StructString
    rw [h]
  · intro h
    unfold StructString
    rw [h]
  · intro p hp
    subst hp
    refine ⟨?_, structString_plain p⟩
    cases hm : Marshal p <;> simp [marshalAny, hm]

/-- C7 (witness): the function value `func(){}`: json refuses it and the result is the
dump. -/
theorem C7_renderer_witness :
    marshalAny (.plain (.func 1)) = .error ∧
    StructString (.plain (.func 1)) = sprintAny (.plain (.func 1)) ∧
    ∃ s, StructString (.plain (.func 1)) = some s ∧ s ≠ [] :=
  ⟨rfl, (C7_renderer (.plain (.func 1))).2.1 rfl,
    ((C7_renderer (.plain (.func 1))).2.2.2.1 (.func 1) rfl).2⟩

/-- C7 (counterexample): three values on which `StructString` returns no non-empty string.
For a value json cannot encode and whose `String` method returns `""`, the result is the
empty string. For a map that contains itself, json reports an error and the fallback
`fmt.Sprintf` does not return. For a value whose `MarshalJSON` panics, the panic leaves
`StructString`. -/
theorem C7_counterexample :
    (marshalAny emptyStringer = .error ∧ StructString emptyStringer = some []) ∧
    (marshalAny selfMap = .error ∧ StructString selfMap = none) ∧
    (marshalAny panicMarshaler = .panic ∧ StructString panicMarshaler = none) :=
  ⟨⟨rfl, rfl⟩, ⟨rfl, rfl⟩, ⟨rfl, rfl⟩⟩

theorem record_depth_pos (r : Record) : 2 ≤ r.depth := by
  cases r with
  | leaf f a m s => exact Nat.le_refl 2
  | wrap f a m r => simp only [Record.depth]; have := record_depth_pos r; omega

/-- Every Record encodes; its tree is nested as deep as the Record says, and read back
from its text it decodes to the object of the four fields, coerced to valid UTF-8. -/
theorem record_toJSON : ∀ (r : Record),
    ∃ j, r.toVal.toJSON = some j ∧ j.WF ∧ j.depth = r.depth ∧
      fromJSON j.norm = some r.sanitized.decoded ∧
      decodeStruct j.norm = some r.sanitized.unmarshaled
  | .leaf f a m s => by
    refine ⟨(⟨f, some a, m, .str s⟩ : printOutput).json (.str s), rfl,
      json_wf _ _ trivial, ?_, ?_, ?_⟩
    · rw [json_depth]
      rfl
    · rw [json_norm]
      exact fromJSON_json ⟨sanitize f, some (a.map sanitize), sanitize m, .str s⟩
        (.str (sanitize s)) (.str (sanitize s)) rfl
    · rw [json_norm]
      exact decodeStruct_json (sanitize f) (a.map sanitize) (sanitize m) (.str s)
        (.str (sanitize s)) (.str (sanitize s)) rfl
  | .wrap f a m r => by
    obtain ⟨j, h1, h2, h3, h4, _⟩ := record_toJSON r
    refine ⟨(⟨f, some a, m, r.toVal⟩ : printOutput).json j, ?_, json_wf _ _ h2, ?_, ?_, ?_⟩
    · rw [Record.toVal, Val.toJSON, h1]
      rfl
    · rw [json_depth, h3]
      have := record_depth_pos r
      simp only [argsDepth, Record.depth]
      omega
    · rw [json_norm]
      exact fromJSON_json ⟨sanitize f, some (a.map sanitize), sanitize m, r.toVal⟩ j.norm
        r.sanitized.decoded h4
    · rw [json_norm]
      exact decodeStruct_json (sanitize f) (a.map sanitize) (sanitize m) r.toVal j.norm
        r.sanitized.decoded h4

/-- The rendering of a Record: `json.Marshal` succeeds, a reader decodes the text to the
object of the four fields coerced to valid UTF-8, and `json.Unmarshal` accepts it exactly
when the Record's nesting is within `maxNestingDepth`. -/
theorem record_render (r : Record) :
    ∃ text, StructString (.plain r.toVal) = some (ofText text) ∧
      decodeAny (ofText text) = some r.sanitized.decoded ∧
      nestingDepth (ofText text) = r.depth ∧
      Unmarshal (ofText text) =
        (if r.depth ≤ maxNestingDepth then some r.sanitized.unmarshaled else none) := by
  obtain ⟨j, h1, h2, h3, h4, h5⟩ := record_toJSON r
  have hm : Marshal r.toVal = some j.render := by
    unfold Marshal
    rw [h1]
  refine ⟨j.render, structString_plain_some hm, ?_, ?_, ?_⟩
  · unfold decodeAny
    rw [toValid_ofText, parseJSON_render none j h2]
    exact h4
  · unfold nestingDepth
    rw [toValid_ofText, parseJSON_render none j h2]
    exact (norm_depth j).trans h3
  · unfold Unmarshal
    rw [toValid_ofText, parseJSON_render _ j h2, h3]
    by_cases hle : r.depth ≤ maxNestingDepth
    · rw [if_pos (by simp [depthOk, hle]), if_pos hle]
      exact h5
    · rw [if_neg (by simp [depthOk, hle]), if_neg hle]

/-- C8 (amended): field-name stability. For every Record (`fn_name` a string, `args` a
list of strings, `msg` a string, `inner` a string or a nested Record), `StructString` of
the record is its JSON text, and decoding that text as JSON yields an object with exactly
the four keys `fn_name`, `args`, `msg`, `inner` whose values equal the record's field
values with every byte that is not valid UTF-8 replaced by U+FFFD, hence the field values
themselves when all strings of the record are valid UTF-8; `json.Unmarshal` accepts the
text exactly when it is nested at most `maxNestingDepth` (10000) deep, and then yields the
same values. -/
theorem C8_field_name_stability (r : Record) :
    ∃ text, StructString (.plain r.toVal) = some (ofText text) ∧
      decodeAny (ofText text) = some r.sanitized.decoded ∧
      (r.Valid → decodeAny (ofText text) = some r.decoded) ∧
      Unmarshal (ofText text) =
        (if nestingDepth (ofText text) ≤ maxNestingDepth then some r.sanitized.unmarshaled
          else none) := by
  obtain ⟨text, h1, h2, h3, h4⟩ := record_render r
  refine ⟨text, h1, h2, ?_, ?_⟩
  · intro hv
    rw [h2, hv]
  · rw [h3]
    exact h4

/-- C8 (witness): the Record of the specification's scenario, all strings valid UTF-8. -/
theorem C8_field_name_stability_witness :
    (Record.leaf (ofText "pkg.Save".toList) [ofText "\"x\"".toList]
      (ofText "writing file".toList) (ofText "disk full".toList)).Valid ∧
    ∃ text, StructString (.plain (Record.leaf (ofText "pkg.Save".toList)
        [ofText "\"x\"".toList] (ofText "writing file".toList)
        (ofText "disk full".toList)).toVal) = some (ofText text) ∧
      decodeAny (ofText text) = some (Record.leaf (ofText "pkg.Save".toList)
        [ofText "\"x\"".toList] (ofText "writing file".toList)
        (ofText "disk full".toList)).decoded :=
  ⟨rfl, by
    obtain ⟨text, h1, _, h3, _⟩ := C8_field_name_stability (Record.leaf
      (ofText "pkg.Save".toList) [ofText "\"x\"".toList] (ofText "writing file".toList)
      (ofText "disk full".toList))
    exact ⟨text, h1, h3 rfl⟩⟩

theorem deepRecord_depth (n : Nat) : (deepRecord n).depth = n + 2 := by
  induction n with
  | zero => rfl
  | succ n ih => simp only [deepRecord, Record.depth, ih]

/-- A Record nested deeper than `maxNestingDepth` is refused by `json.Unmarshal`. -/
theorem deepRecord_refused (n : Nat) (h : maxNestingDepth < n + 2) :
    ∃ text, StructString (.plain (deepRecord n).toVal) = some (ofText text) ∧
      nestingDepth (ofText text) = n + 2 ∧ Unmarshal (ofText text) = none := by
  obtain ⟨text, h1, _, h2, h3⟩ := record_render (deepRecord n)
  rw [deepRecord_depth] at h2
  rw [deepRecord_depth, if_neg (by omega)] at h3
  exact ⟨text, h1, h2, h3⟩

/-- C8 (counterexample): two Records whose field values do not come back from
`StructString(record)`. A Record whose `inner` is the string `bad\xffutf8`: the decoded
`inner` holds U+FFFD in place of the byte 0xFF. A Record nested 10000 records deep, whose
text is nested 10001 deep: `json.Unmarshal` refuses the text. -/
theorem C8_counterexample :
    (∃ text, StructString (.plain (Record.leaf (ofText ['f']) [] [] badText).toVal) =
        some text ∧
      decodeAny text = some (.map [(keyArgs, .slice []), (keyFnName, .str (ofText ['f'])),
        (keyInner, .str badTextRead), (keyMsg, .str [])]) ∧
      decodeAny text ≠ some (Record.leaf (ofText ['f']) [] [] badText).decoded) ∧
    (∃ text, StructString (.plain (deepRecord 9999).toVal) = some (ofText text) ∧
      nestingDepth (ofText text) = 9999 + 2 ∧ Unmarshal (ofText text) = none) := by
  refine ⟨?_, deepRecord_refused 9999 (by decide)⟩
  obtain ⟨text, h1, h2, _⟩ := record_render (Record.leaf (ofText ['f']) [] [] badText)
  refine ⟨_, h1, h2, ?_⟩
  rw [h2]
  intro h
  simp only [Record.sanitized, Record.decoded, Option.some.injEq, Val.map.injEq,
    List.cons.injEq, Prod.mk.injEq, Val.str.injEq, true_and, and_true] at h
  exact absurd h.2.2.1 (by decide)

theorem inner_shape {v : Val} {ji : JSON} (hc : Chained v) (h : v.toJSON = some ji) :
    (∃ s, ji.norm = .str s) ∨
      ∃ f a m i2,
        ji.norm = .obj [(keyFnName, f), (keyArgs, a), (keyMsg, m), (keyInner, i2)] := by
  rcases hc with ⟨s, rfl⟩ | ⟨o, rfl, _⟩
  · cases h
    exact Or.inl ⟨_, rfl⟩
  · rw [printOutput.toVal, Val.toJSON] at h
    split at h
    · cases h
      exact Or.inr ⟨_, _, _, _, rfl⟩
    · cases h

/-- C9: output shape. For every non-nil wrapped error, argument list and message (of a
call that returns: the arguments all render, as every list of plain data values does), the
text returned by `Debug.E` is a JSON object with exactly the keys `fn_name`, `args`, `msg`,
`inner`, in which `args` is a JSON array of strings (the empty array, never null, when the
argument list is empty) and `inner` is a JSON string or a JSON object with exactly the same
four keys. -/
theorem C9_output_shape (d : Debug) (caller : Option Text) (t : GoString)
    (msg : List GoString) (hA : rendersAll d.A = true) :
    ∃ text i, d.E caller (.text t) msg = some (ofText text) ∧
      parseJSON none text = some (.obj [(keyFnName, .str (ofText (callerName caller))),
        (keyArgs, .arr (((d.A.map argSlot).map sanitize).map JSON.str)),
        (keyMsg, .str (sanitize (joinWith [.rune ' '] msg))), (keyInner, i)]) ∧
      ((∃ s, i = .str s) ∨
        ∃ f a m i2, i = .obj [(keyFnName, f), (keyArgs, a), (keyMsg, m), (keyInner, i2)]) := by
  obtain ⟨text, ji, e, hj, _, _, p, _⟩ := E_decode d caller t msg hA
  exact ⟨text, ji.norm, e, p, inner_shape (innerOf_chained t) hj⟩

/-- C9 (witness): the output for `errors.New("disk full")` with no arguments: `args` is the
empty array. -/
theorem C9_output_shape_witness :
    rendersAll (Debug.mk []).A = true ∧
    ∃ text i, (Debug.mk []).E none (.text (ofText "disk full".toList)) [] =
        some (ofText text) ∧
      parseJSON none text = some (.obj [(keyFnName, .str (ofText "unknown".toList)),
        (keyArgs, .arr []), (keyMsg, .str []), (keyInner, i)]) ∧
      ((∃ s, i = .str s) ∨
        ∃ f a m i2, i = .obj [(keyFnName, f), (keyArgs, a), (keyMsg, m), (keyInner, i2)]) :=
  ⟨rfl, C9_output_shape (Debug.mk []) none (ofText "disk full".toList) [] rfl⟩

theorem sanitize_append (a b : GoString) : sanitize (a ++ b) = sanitize a ++ sanitize b := by
  simp [sanitize, toValid, ofText]

theorem sanitize_joinWith (sep : GoString) (hs : sanitize sep = sep) :
    ∀ (xs : List GoString), (∀ p ∈ xs, sanitize p = p) →
      sanitize (joinWith sep xs) = joinWith sep xs
  | [], _ => rfl
  | [x], h => h x (List.mem_cons_self _ _)
  | x :: y :: xs, h => by
    rw [joinWith, sanitize_append, sanitize_append, hs, h x (List.mem_cons_self _ _),
      sanitize_joinWith sep hs (y :: xs) (fun p hp => h p (List.mem_cons_of_mem _ hp))]

/-- C10 (amended): message joining. For every non-nil wrapped error (whether or not its
text chains), every argument list whose arguments render and every sequence of message
parts, the top-level `msg` decoded from the output of `Debug.E` equals the parts joined
with exactly one space between consecutive parts, with every byte that is not valid UTF-8
replaced by U+FFFD; it is the joined parts themselves when all parts are valid UTF-8, and
the empty string when no parts are given. -/
theorem C10_message_joining (d : Debug) (caller : Option Text) (t : GoString)
    (msg : List GoString) (hA : rendersAll d.A = true) :
    (∃ text o, d.E caller (.text t) msg = some text ∧ decodeRecord text = some o ∧
      o.Msg = sanitize (joinWith [.rune ' '] msg) ∧
      ((∀ p ∈ msg, sanitize p = p) → o.Msg = joinWith [.rune ' '] msg)) ∧
    (∃ text o, d.E caller (.text t) [] = some text ∧ decodeRecord text = some o ∧
      o.Msg = []) := by
  constructor
  · obtain ⟨text, ji, e, _, _, _, _, _, _, r, _, _⟩ := E_decode d caller t msg hA
    exact ⟨_, _, e, r, rfl, fun hv => sanitize_joinWith _ rfl msg hv⟩
  · obtain ⟨text, ji, e, _, _, _, _, _, _, r, _, _⟩ := E_decode d caller t [] hA
    exact ⟨_, _, e, r, rfl⟩

/-- C10 (witness): the parts `writing`, `file` come back as `writing file`. -/
theorem C10_message_joining_witness :
    rendersAll (Debug.mk []).A = true ∧
    (∀ p ∈ [ofText "writing".toList, ofText "file".toList], sanitize p = p) ∧
    ∃ text o, (Debug.mk []).E none (.text (ofText "disk full".toList))
        [ofText "writing".toList, ofText "file".toList] = some text ∧
      decodeRecord text = some o ∧ o.Msg = ofText "writing file".toList := by
  have hv : ∀ p ∈ [ofText "writing".toList, ofText "file".toList], sanitize p = p := by
    intro p hp
    simp only [List.mem_cons, List.mem_singleton, List.not_mem_nil, or_false] at hp
    rcases hp with rfl | rfl <;> rfl
  obtain ⟨text, o, h1, h2, _, h4⟩ := (C10_message_joining (Debug.mk []) none
    (ofText "disk full".toList) [ofText "writing".toList, ofText "file".toList] rfl).1
  exact ⟨rfl, hv, text, o, h1, h2, h4 hv⟩

/-- C10 (counterexample): the single message part `"\xff"`. It is joined as it is, but
`json.Marshal` writes the invalid byte as U+FFFD, so the decoded `msg` is not the joined
parts. -/
theorem C10_counterexample :
    ∃ text o, (Debug.mk []).E none (.text (ofText "disk full".toList)) [badByte] =
        some text ∧
      decodeRecord text = some o ∧ o.Msg = [.rune replacementChar] ∧
      o.Msg ≠ joinWith [.rune ' '] [badByte] :=
  ⟨_, _, rfl, rfl, rfl, by decide⟩

theorem addArgsSt_eq (A : List Any) : ∀ (d : Debug) (o : printOutput),
    addArgsSt (d, o) A = (d, addArgs o A) := by
  induction A with
  | nil => intro d o; rfl
  | cons c A ih =>
    intro d o
    rw [addArgsSt, addArgs]
    cases h : addArg o c with
    | none => rfl
    | some o1 => exact ih d o1

/-- The state-passing form of `Debug.E` returns what `Debug.E` returns and leaves the
receiver as it was. -/
theorem callE_eq (d : Debug) (caller : Option Text) (err : GoError) (msg : List GoString) :
    d.callE caller err msg = (d, d.E caller err msg) := by
  cases err with
  | nil => rfl
  | panics => rfl
  | text t =>
    unfold Debug.callE Debug.E
    simp only [addArgsSt_eq]
    cases addArgs _ d.A <;> rfl

/-- C11: the argument list is read-only and persistent. For every `Debug` value `d` and
every call `d.E(err, msg...)`, the receiver after the call is the receiver before it, in
particular `d.A` is the same list (same length, same elements, same order); so two
consecutive calls on the same `d` (calls that return: the arguments all render, as every
list of plain data values does), whatever their errors, callers and messages, produce the
same top-level `args`. -/
theorem C11_args_read_only (d : Debug) (c1 c2 : Option Text) (t1 t2 : GoString)
    (m1 m2 : List GoString) :
    (∀ err, (d.callE c1 err m1).1 = d ∧ (d.callE c1 err m1).1.A = d.A) ∧
    (rendersAll d.A = true →
      ∃ text1 text2 o1 o2, (d.callE c1 (.text t1) m1).2 = some text1 ∧
        ((d.callE c1 (.text t1) m1).1.callE c2 (.text t2) m2).2 = some text2 ∧
        decodeRecord text1 = some o1 ∧ decodeRecord text2 = some o2 ∧
        o1.Args = some ((d.A.map argSlot).map sanitize) ∧ o2.Args = o1.Args) := by
  refine ⟨fun err => ⟨by rw [callE_eq], by rw [callE_eq]⟩, ?_⟩
  intro hA
  obtain ⟨x1, _, e1, _, _, _, _, _, _, r1, _, _⟩ := E_decode d c1 t1 m1 hA
  obtain ⟨x2, _, e2, _, _, _, _, _, _, r2, _, _⟩ := E_decode d c2 t2 m2 hA
  simp only [callE_eq]
  exact ⟨_, _, _, _, e1, e2, r1, r2, rfl, rfl⟩

/-- C11 (witness): two calls on a receiver with the argument `"x"`, with different errors,
callers and messages. -/
theorem C11_args_read_only_witness :
    rendersAll (Debug.mk [.plain (.str (ofText ['x']))]).A = true ∧
    ∃ text1 text2 o1 o2,
      ((Debug.mk [.plain (.str (ofText ['x']))]).callE (some ['f'])
        (.text (ofText "disk full".toList)) [ofText ['m', '1']]).2 = some text1 ∧
      (((Debug.mk [.plain (.str (ofText ['x']))]).callE (some ['f'])
        (.text (ofText "disk full".toList)) [ofText ['m', '1']]).1.callE none
        (.text (ofText ['{', '}'])) []).2 = some text2 ∧
      decodeRecord text1 = some o1 ∧ decodeRecord text2 = some o2 ∧
      o1.Args = some (((Debug.mk [.plain (.str (ofText ['x']))]).A.map argSlot).map
        sanitize) ∧
      o2.Args = o1.Args :=
  ⟨rfl, (C11_args_read_only (Debug.mk [.plain (.str (ofText ['x']))]) (some ['f']) none
    (ofText "disk full".toList) (ofText ['{', '}']) [ofText ['m', '1']] []).2 rfl⟩

/-- C12: caller identity fallback. For every non-nil wrapped error, message and argument
list (of a call that returns: the arguments all render, as every list of plain data values
does), the top-level `fn_name` decoded from the output of `Debug.E` is the identity the
runtime resolves for the calling function when resolution succeeds, and the sentinel
`unknown` when it fails; it depends on nothing else. -/
theorem C12_caller_identity (d : Debug) (t : GoString) (msg : List GoString)
    (hA : rendersAll d.A = true) :
    (∀ name, ∃ text o, d.E (some name) (.text t) msg = some text ∧
      decodeRecord text = some o ∧ o.FnName = ofText name) ∧
    (∃ text o, d.E none (.text t) msg = some text ∧ decodeRecord text = some o ∧
      o.FnName = ofText "unknown".toList) := by
  constructor
  · intro name
    obtain ⟨text, _, e, _, _, _, _, _, _, r, _, _⟩ := E_decode d (some name) t msg hA
    exact ⟨_, _, e, r, rfl⟩
  · obtain ⟨text, _, e, _, _, _, _, _, _, r, _, _⟩ := E_decode d none t msg hA
    exact ⟨_, _, e, r, rfl⟩

/-- C12 (witness): the theorem for calls without arguments that wrap `disk full`. -/
theorem C12_caller_identity_witness :
    rendersAll (Debug.mk []).A = true ∧
    (∀ name, ∃ text o, (Debug.mk []).E (some name) (.text (ofText "disk full".toList)) [] =
        some text ∧
      decodeRecord text = some o ∧ o.FnName = ofText name) ∧
    (∃ text o, (Debug.mk []).E none (.text (ofText "disk full".toList)) [] = some text ∧
      decodeRecord text = some o ∧ o.FnName = ofText "unknown".toList) :=
  ⟨rfl, C12_caller_identity (Debug.mk []) (ofText "disk full".toList) [] rfl⟩

/-- What the next call stores for a text `json.Unmarshal` accepts or refuses. -/
theorem genericOf_innerOf (t : GoString) :
    genericOf (innerOf t) =
      match Unmarshal t with
      | some o => o.generic
      | none => .str (sanitize t) := by
  unfold innerOf
  cases Unmarshal t <;> rfl

/-- C13 (amended): every output is chainable up to the decoder's nesting limit. For every
non-nil wrapped error, argument list and message (of a call that returns: the arguments
all render, as every list of plain data values does), the final render inside `Debug.E`
never takes the fallback branch of `StructString` (`json.Marshal` succeeds on the
assembled record), and the returned text always decodes as JSON into the record shape;
`json.Unmarshal` accepts it exactly when it is nested at most `maxNestingDepth` (10000)
deep, and a subsequent `Debug.E` on it then stores the nested record in `inner`, and the
raw text otherwise. -/
theorem C13_output_chainable (d : Debug) (caller : Option Text) (t : GoString)
    (msg : List GoString) (hA : rendersAll d.A = true) :
    ∃ text o, d.E caller (.text t) msg = some (ofText text) ∧
      Marshal (d.record caller t msg).toVal = some text ∧
      decodeRecord (ofText text) = some o ∧
      Unmarshal (ofText text) =
        (if nestingDepth (ofText text) ≤ maxNestingDepth then some o else none) ∧
      ∀ (d2 : Debug) (c2 : Option Text) (m2 : List GoString), rendersAll d2.A = true →
        ∃ text2 o2, d2.E c2 (.text (ofText text)) m2 = some text2 ∧
          decodeRecord text2 = some o2 ∧
          o2.Inner = if nestingDepth (ofText text) ≤ maxNestingDepth then o.generic
            else .str (ofText text) := by
  obtain ⟨text, ji, e, hj, hm, ht, _, _, _, r, _, u⟩ := E_decode d caller t msg hA
  refine ⟨text, _, e, hm, r, u, ?_⟩
  intro d2 c2 m2 h2
  obtain ⟨text2, _, e2, _, _, _, _, _, _, r2, _, _⟩ := E_decode d2 c2 (ofText text) m2 h2
  refine ⟨_, _, e2, r2, ?_⟩
  show genericOf (innerOf (ofText text)) = _
  rw [genericOf_innerOf, u]
  split_ifs
  · rfl
  · simp only [sanitize_ofText]

/-- C13 (witness): the output for `errors.New("disk full")` and the next call on it. -/
theorem C13_output_chainable_witness :
    rendersAll (Debug.mk []).A = true ∧
    ∃ text o, (Debug.mk []).E none (.text (ofText "disk full".toList)) [] =
        some (ofText text) ∧
      Marshal ((Debug.mk []).record none (ofText "disk full".toList) []).toVal = some text ∧
      decodeRecord (ofText text) = some o ∧
      Unmarshal (ofText text) =
        (if nestingDepth (ofText text) ≤ maxNestingDepth then some o else none) ∧
      ∀ (d2 : Debug) (c2 : Option Text) (m2 : List GoString), rendersAll d2.A = true →
        ∃ text2 o2, d2.E c2 (.text (ofText text)) m2 = some text2 ∧
          decodeRecord text2 = some o2 ∧
          o2.Inner = if nestingDepth (ofText text) ≤ maxNestingDepth then o.generic
            else .str (ofText text) :=
  ⟨rfl, C13_output_chainable (Debug.mk []) none (ofText "disk full".toList) [] rfl⟩

/-- Beyond the limit the chain breaks: the output for an error text nested exactly
`maxNestingDepth` deep is stored by the next call as a plain string. -/
theorem chain_breaks_record (n : Nat) (hn : n + 2 = maxNestingDepth) :
    ∃ t1 t2 o2,
      (Debug.mk []).E none (.text (ofText (JSON.obj [(keyInner, nestArr n)]).render)) [] =
        some t1 ∧
      Unmarshal t1 = none ∧
      (Debug.mk []).E none (.text t1) [] = some t2 ∧ decodeRecord t2 = some o2 ∧
      o2.Inner = .str t1 := by
  obtain ⟨x1, j1, e1, _, _, _, _, _, _, _, n1, u1⟩ :=
    E_decode (Debug.mk []) none (ofText (JSON.obj [(keyInner, nestArr n)]).render) [] rfl
  have hi0 : innerOf (ofText (JSON.obj [(keyInner, nestArr n)]).render) =
      (⟨[], none, [], nestSlice n⟩ : printOutput).toVal := by
    unfold innerOf
    rw [Unmarshal_nest n (by omega)]
  have hdep : nestingDepth (ofText x1) = n + 3 := by
    rw [n1, hi0, printOutput.toVal, Val.depth, nestSlice_depth]
    simp only [argsDepth]
    omega
  have hu : Unmarshal (ofText x1) = none := by
    rw [u1, hdep, if_neg (by omega)]
  obtain ⟨x2, j2, e2, _, _, _, _, _, _, r2, _, _⟩ :=
    E_decode (Debug.mk []) none (ofText x1) [] rfl
  have hi : innerOf (ofText x1) = .str (ofText x1) := by
    unfold innerOf
    rw [hu]
  refine ⟨_, _, _, e1, hu, e2, r2, ?_⟩
  unfold Debug.decoded
  rw [hi, genericOf, sanitize_ofText]

/-- C13 (counterexample): the output of `Debug.E` for the error text `deepText` (a JSON
object nested exactly 10000 deep) is nested 10001 deep; `json.Unmarshal` refuses it, and a
subsequent `Debug.E` on it stores the raw text in `inner`, not a nested record. -/
theorem C13_counterexample :
    ∃ t1 t2 o2, (Debug.mk []).E none (.text deepText) [] = some t1 ∧
      Unmarshal t1 = none ∧
      (Debug.mk []).E none (.text t1) [] = some t2 ∧ decodeRecord t2 = some o2 ∧
      o2.Inner = .str t1 :=
  chain_breaks_record 9998 rfl

theorem decodeMember_foreign (st : DecodeState) (k : Text) (j : JSON)
    (h : addressesField k = false) : decodeMember st k j = some st := by
  simp only [addressesField, Bool.or_eq_false_iff] at h
  obtain ⟨⟨⟨h1, h2⟩, h3⟩, h4⟩ := h
  unfold decodeMember
  simp [h1, h2, h3, h4]

theorem decodeMembers_foreign (st : DecodeState) : ∀ (ms : List (Text × JSON)),
    (∀ p ∈ ms, addressesField p.1 = false) → decodeMembers st ms = some st
  | [], _ => rfl
  | (k, j) :: ms, h => by
    rw [decodeMembers, decodeMember_foreign st k j (h (k, j) (List.mem_cons_self _ _))]
    exact decodeMembers_foreign st ms (fun p hp => h p (List.mem_cons_of_mem _ hp))

/-- A foreign JSON value decodes into the untouched zero `printOutput`. -/
theorem decodeStruct_foreign {j : JSON} (h : Foreign j) :
    decodeStruct j = some printOutput.zero := by
  rcases h with rfl | ⟨ms, rfl, hms⟩
  · rfl
  · rw [decodeStruct, decodeMembers_foreign _ ms hms]

/-- The output of `Debug.E` depends on the wrapped error's text only through what is
stored in `Inner`. -/
theorem E_congr (d : Debug) (caller : Option Text) (msg : List GoString) (t t1 : GoString)
    (h : innerOf t = innerOf t1) :
    d.E caller (.text t) msg = d.E caller (.text t1) msg := by
  cases hA : rendersAll d.A with
  | false => rw [E_none d caller _ msg hA, E_none d caller _ msg hA]
  | true =>
    rw [E_eq d caller t msg hA, E_eq d caller t1 msg hA]
    unfold Debug.record
    rw [h]

/-- C14 (amended): foreign JSON is absorbed as a record. For every non-nil wrapped error
whose text `json.Unmarshal` accepts as JSON (in particular nested at most 10000 deep) and
which is the literal `null` or an object none of whose keys matches `fn_name`, `args`,
`msg` or `inner` exactly or under case folding, the output of `Debug.E` (of a call that
returns: the arguments all render, as every list of plain data values does) has `inner`
equal to the object with `fn_name` `""`, `args` null, `msg` `""` and `inner` null; and the
wrapped error's text cannot be recovered from the output, since another text gives the
same output. -/
theorem C14_foreign_json_absorbed (d : Debug) (caller : Option Text) (t : GoString)
    (msg : List GoString) (j : JSON)
    (hp : parseJSON (some maxNestingDepth) (toValid t) = some j) (hf : Foreign j)
    (hA : rendersAll d.A = true) :
    ∃ text, d.E caller (.text t) msg = some (ofText text) ∧
      parseJSON none text = some (.obj [(keyFnName, .str (ofText (callerName caller))),
        (keyArgs, .arr (((d.A.map argSlot).map sanitize).map JSON.str)),
        (keyMsg, .str (sanitize (joinWith [.rune ' '] msg))),
        (keyInner, .obj [(keyFnName, .str []), (keyArgs, .null), (keyMsg, .str []),
          (keyInner, .null)])]) ∧
      ∃ t1, t1 ≠ t ∧ d.E caller (.text t1) msg = some (ofText text) := by
  have hu : Unmarshal t = some printOutput.zero := by
    unfold Unmarshal
    rw [hp]
    exact decodeStruct_foreign hf
  have hi : innerOf t = printOutput.zero.toVal := by
    unfold innerOf
    rw [hu]
  obtain ⟨text, ji, e, hj, _, _, p, _⟩ := E_decode d caller t msg hA
  rw [hi] at hj
  cases hj
  refine ⟨text, e, p, ?_⟩
  by_cases hn : t = ofText nullText
  · refine ⟨ofText ['{', '}'], ?_, ?_⟩
    · rw [hn]
      decide
    · rw [← e]
      exact E_congr d caller msg _ _ (by rw [hi]; rfl)
  · refine ⟨ofText nullText, fun h => hn h.symm, ?_⟩
    rw [← e]
    exact E_congr d caller msg _ _ (by rw [hi]; rfl)

/-- C14 (witness): the amended theorem at the error text `{}`. -/
theorem C14_foreign_json_absorbed_witness :
    parseJSON (some maxNestingDepth) (toValid (ofText ['{', '}'])) = some (.obj []) ∧
    Foreign (.obj []) ∧ rendersAll (Debug.mk []).A = true ∧
    ∃ text, (Debug.mk []).E none (.text (ofText ['{', '}'])) [] = some (ofText text) ∧
      parseJSON none text = some (.obj [(keyFnName, .str (ofText "unknown".toList)),
        (keyArgs, .arr []), (keyMsg, .str []),
        (keyInner, .obj [(keyFnName, .str []), (keyArgs, .null), (keyMsg, .str []),
          (keyInner, .null)])]) ∧
      ∃ t1, t1 ≠ ofText ['{', '}'] ∧
        (Debug.mk []).E none (.text t1) [] = some (ofText text) :=
  ⟨rfl, Or.inr ⟨[], rfl, fun _ h => absurd h (List.not_mem_nil _)⟩, rfl,
    C14_foreign_json_absorbed (Debug.mk []) none (ofText ['{', '}']) [] (.obj []) rfl
      (Or.inr ⟨[], rfl, fun _ h => absurd h (List.not_mem_nil _)⟩) rfl⟩

theorem parse_deepForeign (n : Nat) :
    parseJSON none (toValid (ofText (JSON.obj [(['x'], nestArr n)]).render)) =
      some (.obj [(['x'], nestArr n)]) := by
  have hw : (JSON.obj [(['x'], nestArr n)]).WF := ⟨nestArr_wf n, trivial⟩
  rw [toValid_ofText, parseJSON_render none _ hw]
  simp only [JSON.norm, normMembers, nestArr_norm]
  rfl

/-- An object without field keys that is nested deeper than the limit is no record for
`json.Unmarshal`: `Debug.E` stores the raw text. -/
theorem deep_foreign (n : Nat) (hn : maxNestingDepth < n + 2) :
    ∃ text o,
      (Debug.mk []).E none (.text (ofText (JSON.obj [(['x'], nestArr n)]).render)) [] =
        some text ∧
      decodeRecord text = some o ∧
      o.Inner = .str (ofText (JSON.obj [(['x'], nestArr n)]).render) := by
  have hw : (JSON.obj [(['x'], nestArr n)]).WF := ⟨nestArr_wf n, trivial⟩
  have hd : (JSON.obj [(['x'], nestArr n)]).depth = n + 2 := by
    simp [JSON.depth, depthMembers, nestArr_depth]
  have hu : Unmarshal (ofText (JSON.obj [(['x'], nestArr n)]).render) = none := by
    unfold Unmarshal
    rw [toValid_ofText, parseJSON_render _ _ hw, hd, if_neg (by simp [depthOk]; omega)]
  obtain ⟨text, _, e, _, _, _, _, _, _, r, _, _⟩ :=
    E_decode (Debug.mk []) none (ofText (JSON.obj [(['x'], nestArr n)]).render) [] rfl
  have hi : innerOf (ofText (JSON.obj [(['x'], nestArr n)]).render) =
      .str (ofText (JSON.obj [(['x'], nestArr n)]).render) := by
    unfold innerOf
    rw [hu]
  refine ⟨_, _, e, r, ?_⟩
  unfold Debug.decoded
  rw [hi, genericOf, sanitize_ofText]

/-- The error text `{"MSG":"x"}` is stored with `msg` set. -/
theorem upperMsg_absorbed :
    parseJSON none (toValid upperMsgText) =
      some (.obj [(['M', 'S', 'G'], .str (ofText ['x']))]) ∧
    Unmarshal upperMsgText = some ⟨[], none, ofText ['x'], .nil⟩ := ⟨rfl, rfl⟩

/-- C14 (counterexample): two error texts that are JSON objects with none of the keys
`fn_name`, `args`, `msg`, `inner`. For `{"MSG":"x"}` the key `MSG` matches the field `msg`
under case folding, and the output's `inner` has `msg` `"x"`, not `""`. For
`deepForeignText`, nested 10001 deep, `json.Unmarshal` refuses the text and the output's
`inner` is the text itself as a string. -/
theorem C14_counterexample :
    (parseJSON none (toValid upperMsgText) =
        some (.obj [(['M', 'S', 'G'], .str (ofText ['x']))]) ∧
      ['M', 'S', 'G'] ∉ [keyFnName, keyArgs, keyMsg, keyInner] ∧
      ∃ text o, (Debug.mk []).E none (.text upperMsgText) [] = some text ∧
        decodeRecord text = some o ∧
        o.Inner = printOutput.generic ⟨[], none, ofText ['x'], .nil⟩) ∧
    (parseJSON none (toValid deepForeignText) = some (.obj [(['x'], nestArr 9999)]) ∧
      ['x'] ∉ [keyFnName, keyArgs, keyMsg, keyInner] ∧
      ∃ text o, (Debug.mk []).E none (.text deepForeignText) [] = some text ∧
        decodeRecord text = some o ∧ o.Inner = .str deepForeignText) := by
  refine ⟨⟨upperMsg_absorbed.1, by decide, ?_⟩,
    ⟨parse_deepForeign 9999, by decide, deep_foreign 9999 (by decide)⟩⟩
  obtain ⟨text, _, e, _, _, _, _, _, _, r, _, _⟩ :=
    E_decode (Debug.mk []) none upperMsgText [] rfl
  have hi : innerOf upperMsgText = (⟨[], none, ofText ['x'], .nil⟩ : printOutput).toVal := by
    unfold innerOf
    rw [upperMsg_absorbed.2]
  refine ⟨_, _, e, r, ?_⟩
  unfold Debug.decoded
  rw [hi]
  rfl

theorem digitChar_ne_c (k : Nat) (h : k < 10) : Nat.digitChar k ≠ 'c' := by
  interval_cases k <;> decide

theorem toDigitsCore_head (fuel : Nat) : ∀ (n : Nat) (ds : List Char),
    ds.head? ≠ some 'c' → (Nat.toDigitsCore 10 fuel n ds).head? ≠ some 'c' := by
  induction fuel with
  | zero =>
    intro n ds h
    exact h
  | succ f ih =>
    intro n ds h
    rw [Nat.toDigitsCore]
    split_ifs
    · simp only [List.head?_cons, ne_eq, Option.some.injEq]
      exact digitChar_ne_c _ (Nat.mod_lt _ (by decide))
    · refine ih _ _ ?_
      simp only [List.head?_cons, ne_eq, Option.some.injEq]
      exact digitChar_ne_c _ (Nat.mod_lt _ (by decide))

theorem intLit_head (i : Int) : (intLit i).head? ≠ some 'c' := by
  cases i with
  | ofNat n => exact toDigitsCore_head _ n [] (by simp)
  | negSucc n =>
    simp only [intLit, List.head?_cons, ne_eq, Option.some.injEq]
    decide

theorem floatLit_head {lit : Text} (hf : isFloatLit lit = true) : lit.head? ≠ some 'c' := by
  simp only [isFloatLit, Bool.and_eq_true, decide_eq_true_eq] at hf
  obtain ⟨y, l0, rfl, hy⟩ := numberLit_head hf.1
  simp only [List.head?_cons, ne_eq, Option.some.injEq]
  rcases hy with rfl | hy
  · decide
  · have := isDigit_range hy
    rintro rfl
    simp at this

theorem render_head_ne_c (j : JSON) (hnum : ∀ lit, j = .num lit → lit.head? ≠ some 'c') :
    j.render.head? ≠ some 'c' := by
  cases j with
  | null => simp only [JSON.render, nullText, List.head?_cons, ne_eq, Option.some.injEq]; decide
  | bool b =>
    cases b
    · simp only [JSON.render, falseText, Bool.false_eq_true, if_false, List.head?_cons, ne_eq,
        Option.some.injEq]
      decide
    · simp only [JSON.render, trueText, if_true, List.head?_cons, ne_eq, Option.some.injEq]
      decide
  | num lit => exact hnum lit rfl
  | str s =>
    simp only [JSON.render, appendString, List.head?_cons, ne_eq, Option.some.injEq]
    decide
  | arr xs =>
    cases xs <;>
      (simp only [JSON.render, List.head?_cons, ne_eq, Option.some.injEq]; decide)
  | obj ms =>
    cases ms with
    | nil => simp only [JSON.render, List.head?_cons, ne_eq, Option.some.injEq]; decide
    | cons m ms =>
      obtain ⟨k, v⟩ := m
      simp only [JSON.render, List.head?_cons, ne_eq, Option.some.injEq]
      decide

/-- The text `json.Marshal` writes for a value that is no context never starts with the
letter `c`. -/
theorem marshal_head {c : Val} {s : Text} (hn : isContext (.plain c) = false)
    (hm : Marshal c = some s) : s.head? ≠ some 'c' := by
  unfold Marshal at hm
  cases hj : c.toJSON with
  | none => rw [hj] at hm; cases hm
  | some j =>
    rw [hj] at hm
    cases hm
    apply render_head_ne_c
    intro lit hl
    subst hl
    cases c with
    | int i => cases hj; exact intLit_head i
    | float l =>
      rw [Val.toJSON] at hj
      split_ifs at hj with hf
      cases hj
      exact floatLit_head hf
    | ctx v => simp [isContext] at hn
    | func pc => simp [Val.toJSON] at hj
    | nil => cases hj
    | bool b => cases hj
    | str t => cases hj
    | slice xs =>
      rw [Val.toJSON] at hj
      split at hj <;> cases hj
    | map kvs =>
      rw [Val.toJSON] at hj
      split at hj <;> cases hj
    | out f a m i =>
      rw [Val.toJSON] at hj
      split at hj <;> cases hj

theorem marshalAny_text {a : Any} {s : Text} (hm : marshalAny a = .text s) :
    ∃ c, a = .plain c ∧ Marshal c = some s := by
  cases a with
  | custom p dump =>
    simp only [marshalAny] at hm
    split_ifs at hm
  | plain c =>
    refine ⟨c, rfl, ?_⟩
    cases h : Marshal c with
    | none => simp only [marshalAny, h] at hm; cases hm
    | some x =>
      simp only [marshalAny, h, Encoded.text.injEq] at hm
      rw [hm]

/-- C15: the `ctx` sentinel is unambiguous for encodable arguments. For every argument of
`d.A` that is not a context-carrying value and whose JSON serialization succeeds, its slot
in the top-level `args` decoded from the output of `Debug.E` (of a call that returns: the
arguments all render, as every list of plain data values does) is that serialization and
is different from the string `ctx`; so a slot equal to `ctx` can only come from a
context-carrying argument or from the fallback path. -/
theorem C15_ctx_unambiguous (d : Debug) (caller : Option Text) (t : GoString)
    (msg : List GoString) (i : Nat) (a : Any) (s : Text) (hc : d.A[i]? = some a)
    (hn : isContext a = false) (hm : marshalAny a = .text s) (hA : rendersAll d.A = true) :
    ∃ text o args, d.E caller (.text t) msg = some text ∧ decodeRecord text = some o ∧
      o.Args = some args ∧ args[i]? = some (ofText s) ∧ ofText s ≠ ctxText := by
  obtain ⟨c, rfl, hmc⟩ := marshalAny_text hm
  obtain ⟨text, _, e, _, _, _, _, _, _, r, _, _⟩ := E_decode d caller t msg hA
  refine ⟨_, _, (d.A.map argSlot).map sanitize, e, r, rfl, ?_, ?_⟩
  · rw [List.getElem?_map, List.getElem?_map, hc]
    simp only [Option.map_some', argSlot, renderArg, hn, Bool.false_eq_true, if_false,
      structString_plain_some hmc, Option.getD_some, sanitize_ofText]
  · intro h
    have := marshal_head hn hmc
    have hs : s = ['c', 't', 'x'] := by
      have h2 := congrArg toValid h
      rw [toValid_ofText] at h2
      rw [h2]
      rfl
    rw [hs] at this
    exact this rfl

/-- C15 (witness): the string argument `ctx` is rendered with surrounding quotes. -/
theorem C15_ctx_unambiguous_witness :
    [Any.plain (.str (ofText "ctx".toList))][0]? = some (.plain (.str (ofText "ctx".toList))) ∧
    isContext (.plain (.str (ofText "ctx".toList))) = false ∧
    marshalAny (.plain (.str (ofText "ctx".toList))) = .text "\"ctx\"".toList ∧
    rendersAll (Debug.mk [.plain (.str (ofText "ctx".toList))]).A = true ∧
    ∃ text o args, (Debug.mk [.plain (.str (ofText "ctx".toList))]).E none
        (.text (ofText "disk full".toList)) [] = some text ∧
      decodeRecord text = some o ∧
      o.Args = some args ∧ args[0]? = some (ofText "\"ctx\"".toList) ∧
      ofText "\"ctx\"".toList ≠ ctxText :=
  ⟨rfl, rfl, rfl, rfl,
    C15_ctx_unambiguous (Debug.mk [.plain (.str (ofText "ctx".toList))]) none
      (ofText "disk full".toList) [] 0 (.plain (.str (ofText "ctx".toList)))
      "\"ctx\"".toList rfl rfl rfl rfl⟩

end Godebug
